import Mathlib

/-!
BytesQueue: a byte ring buffer with growth (bytes-queue/bytes_queue.go)

Shallow embedding of the Go type `BytesQueue` and of its methods.

Modelling conventions.
* A byte slice is a `List Nat` (each element a byte value); `make([]byte, n)` is
  `List.replicate n 0`.
* `uint64` values are natural numbers.  Sums of sizes are taken in `Nat` (a size is
  bounded by the length of a slice, far below `2^64`); unsigned subtraction is the
  wrapping `sub64`, the conversion `uint32(x)` is `toUint32`, the conversion
  `uint64(n)` of a signed `n` is `toUint64`, and the sums that involve such a
  converted value are reduced modulo `2^64`.
* A Go function returning `(value, error)` returns a pair whose second component is
  `Option QueueError` (`none` is the `nil` error).
* A run-time panic (slice bounds out of range, index out of range) is the outer
  `Option` being `none`.
* Logging (`verbose`) and timing have no effect on the state and are left out.
-/

namespace bytesqueue

/-! ## Constants and errors -/

/-- Reserved margin of the sizing rule (`minimumHeaderSize`). -/
def minimumHeaderSize : Nat := 17

/-- Smallest valid offset (`leftMarginIndex`); offset zero is never used. -/
def leftMarginIndex : Nat := 1

/-- Value of `binary.MaxVarintLen32`. -/
def maxVarintLen32 : Nat := 5

/-- Value of `binary.MaxVarintLen64`. -/
def maxVarintLen64 : Nat := 10

/-- The four error values of the package. -/
inductive QueueError where
  | ErrEmptyQueue
  | ErrInvalidIndex
  | ErrIndexOutOfBounds
  | ErrFullQueue
  deriving DecidableEq, Repr

/-- The queue record, field for field. -/
structure BytesQueue where
  full : Bool
  array : List Nat
  capacity : Nat
  maxCapacity : Nat
  head : Nat
  tail : Nat
  rightMarginIndex : Nat
  count : Int
  headerEntryBuffer : List Nat
  verbose : Bool
  deriving DecidableEq, Repr

/-! ## Machine arithmetic -/

/-- Conversion `uint32(x)` of an unsigned value. -/
def toUint32 (x : Nat) : Nat := x % 2 ^ 32

/-- Conversion `uint64(n)` of a signed value. -/
def toUint64 (n : Int) : Nat := (n % 2 ^ 64).toNat

/-- Wrapping subtraction of two `uint64` values. -/
def sub64 (a b : Nat) : Nat := (a + 2 ^ 64 - b) % 2 ^ 64

/-! ## Length-header codec -/

/-- Number of bytes to encode `x` in uvarint format (`getUvarintSize`). -/
def getUvarintSize (x : Nat) : Nat :=
  if x < 128 then 1
  else if x < 16384 then 2
  else if x < 2097152 then 3
  else if x < 268435456 then 4
  else 5

/-- Loop of `binary.PutUvarint`: the bytes written for `x`.  The loop body runs at most
nine times for a 64-bit value, which is the fuel `putUvarintBytes` passes. -/
def putUvarintLoop : Nat → Nat → List Nat
  | 0, x => [x % 256]
  | fuel + 1, x =>
    if x ≥ 128 then ((x % 256) ||| 128) :: putUvarintLoop fuel (x >>> 7)
    else [x % 256]

/-- Bytes that `binary.PutUvarint` writes for `x`. -/
def putUvarintBytes (x : Nat) : List Nat := putUvarintLoop 9 x

/-- Go `binary.PutUvarint(buf, x)`: the buffer after the write and the number of bytes
written; it panics when the buffer is too short. -/
def PutUvarint (buf : List Nat) (x : Nat) : Option (List Nat × Nat) :=
  let bs := putUvarintBytes x
  if bs.length ≤ buf.length then some (bs ++ buf.drop bs.length, bs.length) else none

/-- Loop of `binary.Uvarint` over the bytes of the buffer: `i` is the position, `x` the
value accumulated so far and `s` the shift. -/
def uvarintLoop : List Nat → Nat → Nat → Nat → Nat × Int
  | [], _, _, _ => (0, 0)
  | b :: rest, i, x, s =>
    if i = maxVarintLen64 then (0, -((i : Int) + 1))
    else if b < 128 then
      if i = maxVarintLen64 - 1 ∧ b > 1 then (0, -((i : Int) + 1))
      else (x ||| (b <<< s), (i : Int) + 1)
    else uvarintLoop rest (i + 1) (x ||| ((b &&& 127) <<< s)) (s + 7)

/-- Go `binary.Uvarint(buf)`: the decoded value and the number of bytes read; the count
is zero when the buffer ends inside the number and negative on overflow. -/
def Uvarint (buf : List Nat) : Nat × Int := uvarintLoop buf 0 0 0

/-- Go built-in `copy(dst[off:], src)` on a slice of the array: the array after the copy
and the number of bytes copied, the smaller of the room after `off` and the length of
`src`. -/
def copyAt (arr : List Nat) (off : Nat) (src : List Nat) : List Nat × Nat :=
  let n := min (arr.length - off) src.length
  (arr.take off ++ src.take n ++ arr.drop (off + n), n)

/-! ## The queue -/

/-- Constructor `NewBytesQueue(capacity, maxCapacity, verbose)`. -/
def NewBytesQueue (capacity maxCapacity : Nat) (verbose : Bool) : BytesQueue :=
  { full := false
    array := List.replicate capacity 0
    capacity := capacity
    maxCapacity := maxCapacity
    head := leftMarginIndex
    tail := leftMarginIndex
    rightMarginIndex := leftMarginIndex
    count := 0
    headerEntryBuffer := List.replicate maxVarintLen32 0
    verbose := verbose }

namespace BytesQueue

/-- Method `Reset`: only the cursors, the count and the flag are reset. -/
def Reset (q : BytesQueue) : BytesQueue :=
  { q with
    tail := leftMarginIndex
    head := leftMarginIndex
    rightMarginIndex := leftMarginIndex
    count := 0
    full := false }

/-- Method `canInsertAfterTail`. -/
def canInsertAfterTail (q : BytesQueue) (need : Nat) : Bool :=
  if q.full then false
  else if q.tail ≥ q.head then decide (sub64 q.capacity q.tail ≥ need)
  else decide (sub64 q.head q.tail = need ∨ sub64 q.head q.tail ≥ need + minimumHeaderSize)

/-- Method `canInsertBeforeHead`. -/
def canInsertBeforeHead (q : BytesQueue) (need : Nat) : Bool :=
  if q.full then false
  else if q.tail ≥ q.head then
    decide (sub64 q.head leftMarginIndex = need ∨
      sub64 q.head leftMarginIndex ≥ need + minimumHeaderSize)
  else decide (sub64 q.head q.tail = need ∨ sub64 q.head q.tail ≥ need + minimumHeaderSize)

/-- Method `copy`: `q.tail += copy(q.array[q.tail:], data[:len])`.  Both slice
expressions panic when their bound is out of range. -/
def copy (q : BytesQueue) (data : List Nat) (len : Nat) : Option BytesQueue :=
  if len ≤ data.length ∧ q.tail ≤ q.array.length then
    let r := copyAt q.array q.tail (data.take len)
    some { q with array := r.1, tail := q.tail + r.2 }
  else none

/-- Method `push`: writes the length header and then the data at the tail, updates the
right margin and the full flag, and counts the record. -/
def push (q : BytesQueue) (data : List Nat) (len : Nat) : Option BytesQueue :=
  match PutUvarint q.headerEntryBuffer len with
  | none => none
  | some (buf, headerEntrySize) =>
    match ({ q with headerEntryBuffer := buf } : BytesQueue).copy buf headerEntrySize with
    | none => none
    | some q1 =>
      match q1.copy data len with
      | none => none
      | some q2 =>
        let q3 : BytesQueue :=
          if q2.tail > q2.head then { q2 with rightMarginIndex := q2.tail } else q2
        let q4 : BytesQueue := if q3.tail = q3.head then { q3 with full := true } else q3
        some { q4 with count := q4.count + 1 }

/-- Capacity chosen by `allocateAdditionalMemory(minimum)`. -/
def grownCapacity (q : BytesQueue) (minimum : Nat) : Nat :=
  let c1 := if q.capacity < minimum then q.capacity + minimum else q.capacity
  let c2 := c1 * 2
  if c2 > q.maxCapacity ∧ q.maxCapacity > 0 then q.maxCapacity else c2

/-- Method `allocateAdditionalMemory`: a new array of the grown capacity receives the
bytes below the right margin; a wrapped layout gets a filler record written into the
gap between tail and head and the cursors of a linear layout. -/
def allocateAdditionalMemory (q : BytesQueue) (minimum : Nat) : Option BytesQueue :=
  let cap := grownCapacity q minimum
  let oldArray := q.array
  let q1 : BytesQueue := { q with capacity := cap, array := List.replicate cap 0 }
  let moved : Option BytesQueue :=
    if leftMarginIndex ≠ q1.rightMarginIndex then
      if q1.rightMarginIndex ≤ oldArray.length then
        let q2 : BytesQueue :=
          { q1 with array := (copyAt q1.array 0 (oldArray.take q1.rightMarginIndex)).1 }
        if q2.tail ≤ q2.head then
          let filled : Option BytesQueue :=
            if q2.tail ≠ q2.head then
              let headerEntrySize := getUvarintSize (toUint32 (sub64 q2.head q2.tail))
              let emptyBlobLen := sub64 (sub64 q2.head q2.tail) headerEntrySize
              q2.push (List.replicate emptyBlobLen 0) emptyBlobLen
            else some q2
          filled.map fun q3 => { q3 with head := leftMarginIndex, tail := q3.rightMarginIndex }
        else some q2
      else none
    else some q1
  moved.map fun q4 => { q4 with full := false }

/-- Last three statements of `Push`: the index is the tail before the record is
written. -/
def pushAtTail (q : BytesQueue) (data : List Nat) :
    Option ((Int × Option QueueError) × BytesQueue) :=
  (q.push data data.length).map fun q1 => (((q.tail : Int), none), q1)

/-- Method `Push`. -/
def Push (q : BytesQueue) (data : List Nat) :
    Option ((Int × Option QueueError) × BytesQueue) :=
  let dataLen := data.length
  let headerEntrySize := getUvarintSize (toUint32 dataLen)
  if q.canInsertAfterTail (dataLen + headerEntrySize) then q.pushAtTail data
  else if q.canInsertBeforeHead (dataLen + headerEntrySize) then
    ({ q with tail := leftMarginIndex } : BytesQueue).pushAtTail data
  else if q.capacity + dataLen + headerEntrySize ≥ q.maxCapacity ∧ q.maxCapacity > 0 then
    some ((-1, some QueueError.ErrFullQueue), q)
  else
    match q.allocateAdditionalMemory (dataLen + headerEntrySize) with
    | none => none
    | some q1 => q1.pushAtTail data

/-- Method `peekCheckErr`. -/
def peekCheckErr (q : BytesQueue) (index : Nat) : Option QueueError :=
  if q.count = 0 then some QueueError.ErrEmptyQueue
  else if index ≤ 0 then some QueueError.ErrInvalidIndex
  else if index ≥ q.array.length then some QueueError.ErrIndexOutOfBounds
  else none

/-- Method `peek`: the data at `index`, the width of its header and the error.  The
slice expression panics when its bounds are out of order or beyond the array. -/
def peek (q : BytesQueue) (index : Nat) : Option (List Nat × Nat × Option QueueError) :=
  match q.peekCheckErr index with
  | some e => some ([], 0, some e)
  | none =>
    let r := Uvarint (q.array.drop index)
    let blockSize := r.1
    let un := toUint64 r.2
    let lo := (index + un) % 2 ^ 64
    let hi := (index + un + blockSize) % 2 ^ 64
    if lo ≤ hi ∧ hi ≤ q.array.length then
      some ((q.array.drop lo).take (hi - lo), un, none)
    else none

/-- Method `Pop`. -/
def Pop (q : BytesQueue) : Option ((List Nat × Option QueueError) × BytesQueue) :=
  match q.peek q.head with
  | none => none
  | some (_, _, some e) => some (([], some e), q)
  | some (data, headerEntrySize, none) =>
    let size := data.length
    let q1 : BytesQueue :=
      { q with head := (q.head + headerEntrySize + size) % 2 ^ 64, count := q.count - 1 }
    let q2 : BytesQueue :=
      if q1.head = q1.rightMarginIndex then
        let qa : BytesQueue := { q1 with head := leftMarginIndex }
        let qb : BytesQueue :=
          if qa.tail = qa.rightMarginIndex then { qa with tail := leftMarginIndex } else qa
        { qb with rightMarginIndex := qb.tail }
      else q1
    some ((data, none), { q2 with full := false })

/-- Method `Peek`. -/
def Peek (q : BytesQueue) : Option ((List Nat × Option QueueError) × BytesQueue) :=
  (q.peek q.head).map fun r => ((r.1, r.2.2), q)

/-- Method `Get`; the index is an `int` converted with `uint64(index)`. -/
def Get (q : BytesQueue) (index : Int) :
    Option ((List Nat × Option QueueError) × BytesQueue) :=
  (q.peek (toUint64 index)).map fun r => ((r.1, r.2.2), q)

/-- Method `CheckGet`. -/
def CheckGet (q : BytesQueue) (index : Int) : Option (Option QueueError × BytesQueue) :=
  some (q.peekCheckErr (toUint64 index), q)

/-- Method `Capacity`. -/
def Capacity (q : BytesQueue) : Int := (q.capacity : Int)

/-- Method `Len`. -/
def Len (q : BytesQueue) : Int := q.count

end BytesQueue

/-! ## Calls of the public interface and traces -/

/-- A call of one public method. -/
inductive Op where
  | push (data : List Nat)
  | pop
  | peek
  | get (index : Int)
  | checkGet (index : Int)
  | reset
  deriving DecidableEq, Repr

/-- What a call returns. -/
inductive Reply where
  | index (i : Int) (err : Option QueueError)
  | bytes (data : List Nat) (err : Option QueueError)
  | check (err : Option QueueError)
  | done
  deriving DecidableEq, Repr

/-- Error component of a reply (`none` when the call succeeded). -/
def Reply.err : Reply → Option QueueError
  | Reply.index _ e => e
  | Reply.bytes _ e => e
  | Reply.check e => e
  | Reply.done => none

/-- A pushed slice is shorter than `2^32` bytes (its length fits the `uint32` that
`Push` converts it to); the other calls carry no size. -/
def Op.sized : Op → Bool
  | Op.push data => decide (data.length < 2 ^ 32)
  | _ => true

/-- One call on a queue: the reply and the queue afterwards (`none` on a panic). -/
def callOp (q : BytesQueue) : Op → Option (Reply × BytesQueue)
  | Op.push data => (q.Push data).map fun r => (Reply.index r.1.1 r.1.2, r.2)
  | Op.pop => q.Pop.map fun r => (Reply.bytes r.1.1 r.1.2, r.2)
  | Op.peek => q.Peek.map fun r => (Reply.bytes r.1.1 r.1.2, r.2)
  | Op.get i => (q.Get i).map fun r => (Reply.bytes r.1.1 r.1.2, r.2)
  | Op.checkGet i => (q.CheckGet i).map fun r => (Reply.check r.1, r.2)
  | Op.reset => some (Reply.done, q.Reset)

/-- A sequence of calls: the replies in order and the final queue. -/
def runOps : BytesQueue → List Op → Option (List Reply × BytesQueue)
  | q, [] => some ([], q)
  | q, op :: ops =>
    match callOp q op with
    | none => none
    | some (r, q1) => (runOps q1 ops).map fun x => (r :: x.1, x.2)

/-- States a queue built by `NewBytesQueue capacity maxCapacity verbose` can be in after
any sequence of calls that returned. -/
inductive Reachable (capacity maxCapacity : Nat) (verbose : Bool) : BytesQueue → Prop where
  | init : Reachable capacity maxCapacity verbose (NewBytesQueue capacity maxCapacity verbose)
  | step {q q1 : BytesQueue} {op : Op} {r : Reply} :
      Reachable capacity maxCapacity verbose q → op.sized = true →
      callOp q op = some (r, q1) → Reachable capacity maxCapacity verbose q1

/-- Size of the record `Push` needs for `data`: header width plus payload length. -/
def needOf (data : List Nat) : Nat := data.length + getUvarintSize (toUint32 data.length)

/-- Branch of `Push` that calls `allocateAdditionalMemory`. -/
def growsOnPush (q : BytesQueue) (data : List Nat) : Bool :=
  !q.canInsertAfterTail (needOf data) && !q.canInsertBeforeHead (needOf data) &&
    !decide (q.capacity + data.length + getUvarintSize (toUint32 data.length) ≥ q.maxCapacity ∧
      q.maxCapacity > 0)

/-- Branch of `allocateAdditionalMemory` that writes the filler record: bytes were
migrated and the tail lies strictly below the head. -/
def writesFiller (q : BytesQueue) (data : List Nat) : Bool :=
  growsOnPush q data && decide (leftMarginIndex ≠ q.rightMarginIndex) &&
    decide (q.tail ≤ q.head) && decide (q.tail ≠ q.head)

/-- Tail at which the growth branch of `Push` places the record. -/
def growthTail (q : BytesQueue) : Nat :=
  if leftMarginIndex ≠ q.rightMarginIndex ∧ q.tail ≤ q.head then q.rightMarginIndex
  else q.tail

/-- Counters of a trace: pushes and pops that returned no error, and filler records
written by growth. -/
structure Tally where
  pushes : Nat
  pops : Nat
  fillers : Nat
  deriving DecidableEq, Repr

/-- Counters after one call that returned reply `r` from queue `q`. -/
def Tally.record (t : Tally) (q : BytesQueue) (op : Op) (r : Reply) : Tally :=
  match op, r.err with
  | Op.push data, none =>
    { t with pushes := t.pushes + 1,
             fillers := t.fillers + (if writesFiller q data then 1 else 0) }
  | Op.pop, none => { t with pops := t.pops + 1 }
  | _, _ => t

/-- A sequence of calls together with its counters. -/
def tallyOps : BytesQueue → Tally → List Op → Option (BytesQueue × Tally)
  | q, t, [] => some (q, t)
  | q, t, op :: ops =>
    match callOp q op with
    | none => none
    | some (r, q1) => tallyOps q1 (t.record q op r) ops

/-- Cursor and size invariant kept by every call that returns. -/
structure Inv (q : BytesQueue) : Prop where
  cap_len : q.capacity = q.array.length
  cap_pos : 1 ≤ q.capacity
  head_le : q.head ≤ q.capacity
  tail_pos : 1 ≤ q.tail
  tail_le : q.tail ≤ q.capacity
  rm_pos : 1 ≤ q.rightMarginIndex
  rm_le : q.rightMarginIndex ≤ q.capacity
  count_nn : 0 ≤ q.count
  buf_len : q.headerEntryBuffer.length = maxVarintLen32

/-! ## Records in the array -/

/-- Bytes `push` writes for `data`: the uvarint length header followed by the payload. -/
def frame (data : List Nat) : List Nat := putUvarintBytes data.length ++ data

/-- The array holds the record of `data` at offset `i` (and the record ends inside the
array). -/
def FrameAt (arr : List Nat) (i : Nat) (data : List Nat) : Prop :=
  (arr.drop i).take (frame data).length = frame data

/-- The record of `data`, pushed at index `i`, is live in `q`: its bytes are stored at `i`,
below the right margin and inside the live region, which is `[head, tail)` when
`head < tail` and `[head, rightMarginIndex)` together with `[1, tail)` when
`tail <= head`; and the queue counts at least one record. -/
structure LiveRecord (q : BytesQueue) (i : Nat) (data : List Nat) : Prop where
  stored : FrameAt q.array i data
  pos : 1 ≤ i
  below : i + (frame data).length ≤ q.rightMarginIndex
  region : if q.head < q.tail then q.head ≤ i ∧ i + (frame data).length ≤ q.tail
    else q.head ≤ i ∨ i + (frame data).length ≤ q.tail
  counted : 0 < q.count

/-- Total length of the records of the payloads `rs`. -/
def framesLength : List (List Nat) → Nat
  | [] => 0
  | r :: rest => (frame r).length + framesLength rest

/-- The array holds the records of the payloads `rs` one after the other from offset
`i`. -/
def FramesAt (arr : List Nat) : Nat → List (List Nat) → Prop
  | _, [] => True
  | i, r :: rest => FrameAt arr i r ∧ FramesAt arr (i + (frame r).length) rest

/-- Linear layout holding exactly the payloads `rs`, oldest first: their records are
stored one after the other from the head `h` up to the tail, the right margin is the
tail, the queue is not full and counts these records; an empty queue has its cursors at
offset one. -/
structure Linear (q : BytesQueue) (h : Nat) (rs : List (List Nat)) : Prop where
  inv : Inv q
  head_eq : q.head = h
  head_pos : 1 ≤ h
  tail_eq : q.tail = h + framesLength rs
  rm_eq : q.rightMarginIndex = q.tail
  not_full : q.full = false
  count_eq : q.count = (rs.length : Int)
  frames : FramesAt q.array h rs
  sizes : ∀ r ∈ rs, r.length < 2 ^ 32
  at_start : rs = [] → h = 1

/-! ## Traces used as examples -/

/-- Two pushes, a pop and a push that wraps to offset one, on a buffer of 21 bytes. -/
def wrapTrace : List Op :=
  [Op.push (List.replicate 17 7), Op.push [9], Op.pop, Op.push []]

/-- The wrap trace followed by a push that grows the wrapped buffer and writes a filler
record. -/
def fillerTrace : List Op :=
  [Op.push (List.replicate 17 7), Op.push [9], Op.pop, Op.push [], Op.push []]

/-- Queue after the wrap trace on `NewBytesQueue 21 0 false`: the record of `[9]` lies at
offset 19 and the empty record at offset 1, with a gap of 17 bytes between tail and
head. -/
def wrappedState : BytesQueue :=
  { full := false
    array := [0, 0, 7, 7, 7, 7, 7, 7, 7, 7, 7, 7, 7, 7, 7, 7, 7, 7, 7, 1, 9]
    capacity := 21
    maxCapacity := 0
    head := 19
    tail := 2
    rightMarginIndex := 21
    count := 2
    headerEntryBuffer := [0, 0, 0, 0, 0]
    verbose := false }

/-- Queue after two pushes and a pop on `NewBytesQueue 10 0 false`. -/
def poppedState : BytesQueue :=
  { full := false
    array := [0, 3, 1, 2, 3, 3, 4, 5, 6, 0]
    capacity := 10
    maxCapacity := 0
    head := 5
    tail := 9
    rightMarginIndex := 9
    count := 1
    headerEntryBuffer := [3, 0, 0, 0, 0]
    verbose := false }

/-- Queue after the pushes of `[1, 2]` and `[3]` on `NewBytesQueue 4 10 false`; the second
push grew the buffer to 8 bytes. -/
def boundedState : BytesQueue :=
  { full := false
    array := [0, 2, 1, 2, 1, 3, 0, 0]
    capacity := 8
    maxCapacity := 10
    head := 1
    tail := 6
    rightMarginIndex := 6
    count := 2
    headerEntryBuffer := [1, 0, 0, 0, 0]
    verbose := false }

/-- The third push wraps to offset one and fills the buffer, the fourth grows it, and a
pop follows. -/
def wrappedGrowthTrace : List Op :=
  [Op.push [1, 2, 3], Op.push [4, 5, 6], Op.pop, Op.push [7, 8, 9], Op.push [10], Op.pop]

/-- The pair `Push(d); Pop()` repeated `n` times. -/
def cycles (d : List Nat) : Nat → List Op
  | 0 => []
  | n + 1 => Op.push d :: Op.pop :: cycles d n

/-- Replies expected from `n` repetitions of `Push(d); Pop()` on an empty queue: index
one and the pushed bytes, each with a nil error. -/
def cycleReplies (d : List Nat) : Nat → List Reply
  | 0 => []
  | n + 1 => Reply.index 1 none :: Reply.bytes d none :: cycleReplies d n

/-- The calls of the worked example of the specification, with `"ab"` and `"cde"` as
ASCII bytes. -/
def workedExample : List Op :=
  [Op.push [97, 98], Op.push [99, 100, 101], Op.pop, Op.peek]

/-- Queue `NewBytesQueue 4 0 false` after the push of the one-byte record `[9]`. -/
def nineState : BytesQueue :=
  { full := false
    array := [0, 1, 9, 0]
    capacity := 4
    maxCapacity := 0
    head := 1
    tail := 3
    rightMarginIndex := 3
    count := 1
    headerEntryBuffer := [1, 0, 0, 0, 0]
    verbose := false }

/-- Queue of four bytes after the push of the one-byte record `[5]` at offset one. -/
def fiveState : BytesQueue :=
  { full := false
    array := [0, 1, 5, 0]
    capacity := 4
    maxCapacity := 0
    head := 1
    tail := 3
    rightMarginIndex := 3
    count := 1
    headerEntryBuffer := [1, 0, 0, 0, 0]
    verbose := false }

/-- Queue `NewBytesQueue 16 0 false` after the push of `"ab"`. -/
def abState : BytesQueue :=
  { full := false
    array := [0, 2, 97, 98, 0, 0, 0, 0, 0, 0, 0, 0, 0, 0, 0, 0]
    capacity := 16
    maxCapacity := 0
    head := 1
    tail := 4
    rightMarginIndex := 4
    count := 1
    headerEntryBuffer := [2, 0, 0, 0, 0]
    verbose := false }

/-- The queue holding `"ab"` after the push of `"cde"`. -/
def abcdeState : BytesQueue :=
  { full := false
    array := [0, 2, 97, 98, 3, 99, 100, 101, 0, 0, 0, 0, 0, 0, 0, 0]
    capacity := 16
    maxCapacity := 0
    head := 1
    tail := 8
    rightMarginIndex := 8
    count := 2
    headerEntryBuffer := [3, 0, 0, 0, 0]
    verbose := false }

/-- A push of a 128-byte record that ends in `b`, a push of `[9]`, a pop, and a push of
`[5]` that wraps to offset one, on a buffer of 134 bytes: the gap between tail (3) and
head (131) is 128 bytes. -/
def gapTrace (b : Nat) : List Op :=
  [Op.push (List.replicate 127 7 ++ [b]), Op.push [9], Op.pop, Op.push [5]]

/-- The gap trace followed by a push of 111 bytes, which grows the wrapped buffer and
writes the filler record into the gap of 128 bytes. -/
def staleTrace (b : Nat) : List Op := gapTrace b ++ [Op.push (List.replicate 111 3)]

/-- Trace on a buffer of 179 bytes: growth over a gap of 128 bytes, four pops that empty
the layout while three records stay counted, a push and a pop of twenty bytes `255`, and
three more pops. -/
def headZeroTrace : List Op :=
  [Op.push (List.replicate 166 7 ++ [8]), Op.push [1], Op.push [2], Op.push [3], Op.push [4],
   Op.pop, Op.push (List.replicate 40 255), Op.push (List.replicate 111 3),
   Op.pop, Op.pop, Op.pop, Op.pop,
   Op.push (List.replicate 20 255), Op.pop, Op.pop, Op.pop, Op.pop]

end bytesqueue

/-! # Package `bigmemcache`: helpers of the big memory cache

`uint` and `int` are taken to be 64 bits wide. -/

namespace bigmemcache

/-- Constant `__DefaultShardsFactor`. -/
def __DefaultShardsFactor : Nat := 100

/-- Constant `__DefaultMaxShards`. -/
def __DefaultMaxShards : Int := 128

/-- Loop of `findNearestPowerOf2Num`: `k` is doubled while `(k << 1) < n`, the shift
wrapping at 64 bits.  The fuel bounds the number of iterations; `none` stands for a loop
that is still running when the fuel is used up. -/
def doubleWhileBelow : Nat → Nat → Nat → Option Nat
  | 0, _, _ => none
  | fuel + 1, k, n =>
    if (k <<< 1) % 2 ^ 64 < n then doubleWhileBelow fuel ((k <<< 1) % 2 ^ 64) n else some k

/-- Function `findNearestPowerOf2Num`; `n - 1` wraps at 64 bits.  After 64 doublings `k`
is zero and stays zero, so a loop that has not ended within 65 iterations never ends. -/
def findNearestPowerOf2Num (n : Nat) : Option Nat :=
  if n &&& ((n + 2 ^ 64 - 1) % 2 ^ 64) = 0 then some n else doubleWhileBelow 65 1 n

/-- Conversion `int(u)` of a `uint`. -/
def toInt (u : Nat) : Int := if u % 2 ^ 64 < 2 ^ 63 then (u % 2 ^ 64 : Nat) else (u % 2 ^ 64 : Nat) - 2 ^ 64

/-- Field `Shards` computed by `defaultBigCacheCfg` from `cfg.MaxNumOfCacheItem`. -/
def defaultShards (maxNumOfCacheItem : Nat) : Option Int :=
  let shardsUpLimit := (maxNumOfCacheItem / __DefaultShardsFactor + 1) % 2 ^ 64
  (findNearestPowerOf2Num shardsUpLimit).map fun p =>
    if toInt p > __DefaultMaxShards then __DefaultMaxShards else toInt p

/-- Struct `Feature`; the string `UUID` is its sequence of bytes, `Version` is an `int32`
and `CreatedTime` an `int64`. -/
structure Feature where
  Version : Int
  UUID : List Nat
  Meta : List Nat
  Blob : List Nat
  CreatedTime : Int
deriving DecidableEq, Repr

/-- Errors `encode` and `decode` build with `fmt.Errorf`. -/
inductive CodecError where
  | StoredTotalLen
  | Pos
deriving DecidableEq, Repr

/-- Conversion of a signed integer to an unsigned integer of `w` bits. -/
def toUint (w : Nat) (v : Int) : Nat := (v % 2 ^ w).toNat

/-- Conversion of an unsigned integer to a signed integer of `w + 1` bits. -/
def toSigned (w : Nat) (u : Nat) : Int :=
  if u % 2 ^ (w + 1) < 2 ^ w then ((u % 2 ^ (w + 1) : Nat) : Int)
  else ((u % 2 ^ (w + 1) : Nat) : Int) - 2 ^ (w + 1)

/-- Bytes `binary.LittleEndian.PutUintN` stores for `v`, least significant first:
byte `i` is `byte(v >> (8 * i))`. -/
def leBytes : Nat → Nat → List Nat
  | 0, _ => []
  | w + 1, v => v % 256 :: leBytes w (v / 256)

/-- Value `binary.LittleEndian.UintN` reads from bytes: byte `i` is shifted left by
`8 * i` bits. -/
def leValue : List Nat → Nat
  | [] => 0
  | b :: bs => b + 256 * leValue bs

/-- Call `binary.LittleEndian.PutUintN(raw[pos:], v)` for `N = 8 * w`: it panics when fewer
than `w` bytes follow `pos`. -/
def putUint (w : Nat) (raw : List Nat) (pos : Nat) (v : Nat) : Option (List Nat) :=
  if pos + w ≤ raw.length then some (raw.take pos ++ leBytes w v ++ raw.drop (pos + w))
  else none

/-- Call `binary.LittleEndian.UintN(raw[pos:])` for `N = 8 * w`. -/
def getUint (w : Nat) (raw : List Nat) (pos : Nat) : Option Nat :=
  if pos + w ≤ raw.length then some (leValue ((raw.drop pos).take w)) else none

/-- Call `copy(raw[pos:], src)`: as many bytes as fit are copied. -/
def copyTo (raw : List Nat) (pos : Nat) (src : List Nat) : Option (List Nat) :=
  if pos ≤ raw.length then
    some (raw.take pos ++ src.take (raw.length - pos) ++
      raw.drop (pos + min src.length (raw.length - pos)))
  else none

/-- Slice expression `raw[lo:hi]` of a slice whose capacity is its length. -/
def slice (raw : List Nat) (lo hi : Nat) : Option (List Nat) :=
  if lo ≤ hi ∧ hi ≤ raw.length then some ((raw.drop lo).take (hi - lo)) else none

/-- Method `encode`: `none` is a run-time panic. -/
def encode (fe : Feature) : Option (Except CodecError (List Nat)) :=
  let totalLen := 4 + 4 + 2 + fe.UUID.length + 2 + fe.Meta.length + 2 + fe.Blob.length + 8
  let raw := List.replicate totalLen 0
  let pos := 0
  (putUint 4 raw pos (totalLen % 2 ^ 32)).bind fun raw =>
  let pos := pos + 4
  (putUint 4 raw pos (toUint 32 fe.Version)).bind fun raw =>
  let pos := pos + 4
  (putUint 2 raw pos (fe.UUID.length % 2 ^ 16)).bind fun raw =>
  let pos := pos + 2
  (copyTo raw pos fe.UUID).bind fun raw =>
  let pos := pos + fe.UUID.length
  (putUint 2 raw pos (fe.Meta.length % 2 ^ 16)).bind fun raw =>
  let pos := pos + 2
  (copyTo raw pos fe.Meta).bind fun raw =>
  let pos := pos + fe.Meta.length
  (putUint 2 raw pos (fe.Blob.length % 2 ^ 16)).bind fun raw =>
  let pos := pos + 2
  (copyTo raw pos fe.Blob).bind fun raw =>
  let pos := pos + fe.Blob.length
  (putUint 8 raw pos (toUint 64 fe.CreatedTime)).bind fun raw =>
  let pos := pos + 8
  if pos ≠ totalLen then some (Except.error CodecError.Pos) else some (Except.ok raw)

/-- Method `decode`: `none` is a run-time panic. -/
def decode (raw : List Nat) : Option (Except CodecError Feature) :=
  let totalLen := raw.length
  let pos := 0
  (getUint 4 raw pos).bind fun storedTotalLen =>
  if storedTotalLen ≠ totalLen % 2 ^ 32 then some (Except.error CodecError.StoredTotalLen)
  else
    let pos := pos + 4
    (getUint 4 raw pos).bind fun version =>
    let pos := pos + 4
    (getUint 2 raw pos).bind fun uuidLen =>
    let pos := pos + 2
    (slice raw pos (pos + uuidLen)).bind fun uuid =>
    let pos := pos + uuidLen
    (getUint 2 raw pos).bind fun metaLen =>
    let pos := pos + 2
    (slice raw pos (pos + metaLen)).bind fun meta =>
    let pos := pos + metaLen
    (getUint 2 raw pos).bind fun blobLen =>
    let pos := pos + 2
    (slice raw pos (pos + blobLen)).bind fun blob =>
    let pos := pos + blobLen
    (getUint 8 raw pos).bind fun createdTime =>
    let pos := pos + 8
    if pos ≠ totalLen then some (Except.error CodecError.Pos)
    else some (Except.ok
      { Version := toSigned 31 version, UUID := uuid, Meta := meta, Blob := blob,
        CreatedTime := toSigned 63 createdTime })

/-- Byte layout `encode` produces: the total length and the version in four bytes each,
the three byte strings each after its length in two bytes, and the creation time in
eight bytes, all little-endian. -/
def wireFormat (fe : Feature) : List Nat :=
  leBytes 4 ((22 + fe.UUID.length + fe.Meta.length + fe.Blob.length) % 2 ^ 32) ++
    leBytes 4 (toUint 32 fe.Version) ++
    leBytes 2 (fe.UUID.length % 2 ^ 16) ++ fe.UUID ++
    leBytes 2 (fe.Meta.length % 2 ^ 16) ++ fe.Meta ++
    leBytes 2 (fe.Blob.length % 2 ^ 16) ++ fe.Blob ++
    leBytes 8 (toUint 64 fe.CreatedTime)

/-- A feature with a negative version and an empty blob. -/
def exampleFeature : Feature :=
  { Version := -3, UUID := [97, 98], Meta := [1], Blob := [], CreatedTime := 1700000000 }

end bigmemcache

namespace bytesqueue

/-! # Theorems -/

/-! ## Effect of the methods on the counter -/

theorem copy_count {q q1 : BytesQueue} {data : List Nat} {len : Nat}
    (h : q.copy data len = some q1) : q1.count = q.count := by
  unfold BytesQueue.copy at h
  split at h
  · cases h; rfl
  · cases h

theorem push_count {q q1 : BytesQueue} {data : List Nat} {len : Nat}
    (h : q.push data len = some q1) : q1.count = q.count + 1 := by
  unfold BytesQueue.push at h
  split at h
  · cases h
  · split at h
    · cases h
    · rename_i ha
      split at h
      · cases h
      · rename_i hb
        cases h
        have h1 := copy_count ha
        have h2 := copy_count hb
        simp only at h1
        split_ifs <;> simp [h1, h2]

theorem allocate_count {q q1 : BytesQueue} {minimum : Nat}
    (h : q.allocateAdditionalMemory minimum = some q1) :
    q1.count = q.count +
      (if leftMarginIndex ≠ q.rightMarginIndex ∧ q.tail ≤ q.head ∧ q.tail ≠ q.head then 1 else 0) := by
  unfold BytesQueue.allocateAdditionalMemory at h
  simp only [Option.map_eq_some'] at h
  obtain ⟨q4, h, rfl⟩ := h
  by_cases h1 : leftMarginIndex ≠ q.rightMarginIndex
  · rw [if_pos h1] at h
    by_cases h2 : q.rightMarginIndex ≤ q.array.length
    · rw [if_pos h2] at h
      by_cases h3 : q.tail ≤ q.head
      · rw [if_pos h3] at h
        simp only [Option.map_eq_some'] at h
        obtain ⟨q3, h, rfl⟩ := h
        by_cases h4 : q.tail ≠ q.head
        · rw [if_pos h4] at h
          have := push_count h
          simp [h1, h3, h4, this]
        · rw [if_neg h4] at h
          cases h
          simp [h4]
      · rw [if_neg h3] at h
        cases h
        simp [h3]
    · rw [if_neg h2] at h
      cases h
  · rw [if_neg h1] at h
    cases h
    simp [h1]

theorem pushAtTail_some {q : BytesQueue} {data : List Nat}
    {r : Int × Option QueueError} {q1 : BytesQueue} (h : q.pushAtTail data = some (r, q1)) :
    r = ((q.tail : Int), none) ∧ q.push data data.length = some q1 := by
  unfold BytesQueue.pushAtTail at h
  simp only [Option.map_eq_some'] at h
  obtain ⟨q2, h, h2⟩ := h
  cases h2
  exact ⟨rfl, h⟩

/-- The four branches of `Push`. -/
theorem Push_cases (q : BytesQueue) (data : List Nat) :
    (q.canInsertAfterTail (needOf data) = true ∧ q.Push data = q.pushAtTail data) ∨
    (q.canInsertAfterTail (needOf data) = false ∧ q.canInsertBeforeHead (needOf data) = true ∧
      q.Push data = ({ q with tail := leftMarginIndex } : BytesQueue).pushAtTail data) ∨
    (q.canInsertAfterTail (needOf data) = false ∧ q.canInsertBeforeHead (needOf data) = false ∧
      (q.capacity + needOf data ≥ q.maxCapacity ∧ q.maxCapacity > 0) ∧
      q.Push data = some ((-1, some QueueError.ErrFullQueue), q)) ∨
    (growsOnPush q data = true ∧
      q.Push data = (q.allocateAdditionalMemory (needOf data)).bind fun q1 => q1.pushAtTail data) := by
  unfold BytesQueue.Push growsOnPush needOf
  by_cases h1 : q.canInsertAfterTail (data.length + getUvarintSize (toUint32 data.length)) = true
  · left; simp [h1]
  · right
    by_cases h2 : q.canInsertBeforeHead (data.length + getUvarintSize (toUint32 data.length)) = true
    · left; simp [h1, h2]
    · right
      by_cases h3 : q.capacity + data.length + getUvarintSize (toUint32 data.length) ≥ q.maxCapacity ∧
          q.maxCapacity > 0
      · left
        simp only [Bool.not_eq_true] at h1 h2
        refine ⟨h1, h2, ?_, ?_⟩
        · rw [← Nat.add_assoc]; exact h3
        · simp only [h1, h2, Bool.false_eq_true, if_false, if_pos h3]
      · right
        simp only [Bool.not_eq_true] at h1 h2
        refine ⟨?_, ?_⟩
        · simp [h1, h2, h3]
        · simp only [h1, h2, Bool.false_eq_true, if_false, if_neg h3]
          cases q.allocateAdditionalMemory (data.length + getUvarintSize (toUint32 data.length)) <;> rfl

theorem writesFiller_eq (q : BytesQueue) (data : List Nat) :
    writesFiller q data = (growsOnPush q data &&
      decide (leftMarginIndex ≠ q.rightMarginIndex ∧ q.tail ≤ q.head ∧ q.tail ≠ q.head)) := by
  unfold writesFiller
  by_cases h1 : leftMarginIndex ≠ q.rightMarginIndex <;> by_cases h2 : q.tail ≤ q.head <;>
    by_cases h3 : q.tail ≠ q.head <;> simp [h1, h2, h3]

theorem Push_count {q q1 : BytesQueue} {data : List Nat} {r : Int × Option QueueError}
    (h : q.Push data = some (r, q1)) :
    q1.count = q.count + (if r.2 = none then 1 + (if writesFiller q data then 1 else 0) else 0) := by
  rcases Push_cases q data with ⟨h1, he⟩ | ⟨h1, h2, he⟩ | ⟨h1, h2, h3, he⟩ | ⟨hg, he⟩
  · rw [he] at h
    obtain ⟨rfl, hp⟩ := pushAtTail_some h
    have := push_count hp
    simp [writesFiller_eq, growsOnPush, h1, this]
  · rw [he] at h
    obtain ⟨rfl, hp⟩ := pushAtTail_some h
    have := push_count hp
    simp [writesFiller_eq, growsOnPush, h1, h2, this]
  · rw [he] at h
    cases h
    simp
  · rw [he] at h
    simp only [Option.bind_eq_some] at h
    obtain ⟨q2, ha, h⟩ := h
    obtain ⟨rfl, hp⟩ := pushAtTail_some h
    have e1 := push_count hp
    have e2 := allocate_count ha
    rw [e1, e2, writesFiller_eq, hg]
    by_cases hc : leftMarginIndex ≠ q.rightMarginIndex ∧ q.tail ≤ q.head ∧ q.tail ≠ q.head
    · simp [hc]; ring
    · simp [hc]

/-- Outcome of `peek`: an error with an unchanged view, or data with no error. -/
theorem peek_err {q : BytesQueue} {index : Nat} {e : QueueError}
    (h : q.peekCheckErr index = some e) : q.peek index = some ([], 0, some e) := by
  unfold BytesQueue.peek
  rw [h]

theorem peek_ok {q : BytesQueue} {index : Nat} {r : List Nat × Nat × Option QueueError}
    (hc : q.peekCheckErr index = none) (h : q.peek index = some r) : r.2.2 = none := by
  unfold BytesQueue.peek at h
  rw [hc] at h
  dsimp only at h
  split at h
  · cases h; rfl
  · cases h

theorem peek_err_iff {q : BytesQueue} {index : Nat} {r : List Nat × Nat × Option QueueError}
    (h : q.peek index = some r) : r.2.2 = q.peekCheckErr index := by
  cases hc : q.peekCheckErr index with
  | none => exact peek_ok hc h
  | some e => rw [peek_err hc] at h; cases h; rfl

theorem Pop_count {q q1 : BytesQueue} {r : List Nat × Option QueueError}
    (h : q.Pop = some (r, q1)) :
    q1.count = q.count - (if r.2 = none then 1 else 0) := by
  unfold BytesQueue.Pop at h
  split at h
  · cases h
  · cases h; simp
  · cases h
    dsimp only
    split_ifs <;> simp_all

/-! ## Counting records along a trace -/

theorem callOp_count {q q1 : BytesQueue} {op : Op} {r : Reply} (hop : op ≠ Op.reset)
    (h : callOp q op = some (r, q1)) (t : Tally) :
    q1.count - (((t.record q op r).pushes : Int) + (t.record q op r).fillers -
        (t.record q op r).pops) =
      q.count - ((t.pushes : Int) + t.fillers - t.pops) := by
  cases op with
  | push data =>
    simp only [callOp, Option.map_eq_some'] at h
    obtain ⟨⟨r0, q2⟩, h, h2⟩ := h
    cases h2
    have hc := Push_count h
    rcases r0 with ⟨i, e⟩
    cases e with
    | none =>
      simp only [Tally.record, Reply.err] at hc ⊢
      rw [hc]
      by_cases hf : writesFiller q data = true
      · simp [hf]; ring
      · simp [hf]; ring
    | some e =>
      simp only [Tally.record, Reply.err] at hc ⊢
      rw [hc]; simp
  | pop =>
    simp only [callOp, Option.map_eq_some'] at h
    obtain ⟨⟨r0, q2⟩, h, h2⟩ := h
    cases h2
    have hc := Pop_count h
    rcases r0 with ⟨d, e⟩
    cases e with
    | none =>
      simp only [Tally.record, Reply.err] at hc ⊢
      rw [hc]; simp; ring
    | some e =>
      simp only [Tally.record, Reply.err] at hc ⊢
      rw [hc]; simp
  | peek =>
    simp only [callOp, BytesQueue.Peek, Option.map_eq_some'] at h
    obtain ⟨⟨r0, q2⟩, ⟨a, h, h3⟩, h2⟩ := h
    cases h2; cases h3
    simp [Tally.record]
  | get i =>
    simp only [callOp, BytesQueue.Get, Option.map_eq_some'] at h
    obtain ⟨⟨r0, q2⟩, ⟨a, h, h3⟩, h2⟩ := h
    cases h2; cases h3
    simp [Tally.record]
  | checkGet i =>
    simp only [callOp, BytesQueue.CheckGet, Option.map_eq_some'] at h
    obtain ⟨⟨r0, q2⟩, h, h2⟩ := h
    cases h2; cases h
    simp [Tally.record]
  | reset => exact absurd rfl hop

theorem tallyOps_count (ops : List Op) : ∀ (q q1 : BytesQueue) (t t1 : Tally),
    Op.reset ∉ ops → tallyOps q t ops = some (q1, t1) →
    q1.count - ((t1.pushes : Int) + t1.fillers - t1.pops) =
      q.count - ((t.pushes : Int) + t.fillers - t.pops) := by
  induction ops with
  | nil =>
    intro q q1 t t1 _ h
    simp only [tallyOps] at h
    cases h; rfl
  | cons op ops ih =>
    intro q q1 t t1 hr h
    simp only [tallyOps] at h
    split at h
    · cases h
    · rename_i r q2 hc
      have hop : op ≠ Op.reset := fun e => hr (by simp [e])
      have hrest : Op.reset ∉ ops := fun e => hr (List.mem_cons_of_mem _ e)
      rw [ih q2 q1 _ t1 hrest h]
      exact callOp_count hop hc t

/-- C5 (as amended): on a freshly constructed queue and for every sequence of Push, Pop,
Peek, Get and CheckGet calls, `Len()` equals the number of pushes that returned no error,
plus the number of filler records written by growth, minus the number of pops that
returned no error. -/
theorem len_counts_records_and_fillers (capacity maxCapacity : Nat) (verbose : Bool)
    (ops : List Op) (q : BytesQueue) (t : Tally) (hops : Op.reset ∉ ops)
    (hrun : tallyOps (NewBytesQueue capacity maxCapacity verbose) ⟨0, 0, 0⟩ ops = some (q, t)) :
    q.Len = (t.pushes : Int) + t.fillers - t.pops := by
  have h := tallyOps_count ops _ q ⟨0, 0, 0⟩ t hops hrun
  simp only [NewBytesQueue] at h
  unfold BytesQueue.Len
  simp at h
  linarith

/-- C5 (witness): the amended count on the filler trace. -/
theorem len_counts_records_and_fillers_witness :
    (tallyOps (NewBytesQueue 21 0 false) ⟨0, 0, 0⟩ fillerTrace).map
        (fun r => (r.1.Len, r.2)) = some (4, ⟨4, 1, 1⟩) ∧
      (4 : Int) = ((4 : Nat) : Int) + ((1 : Nat) : Int) - ((1 : Nat) : Int) :=
  ⟨by decide,
   len_counts_records_and_fillers 21 0 false fillerTrace
     { full := false,
       array := [0, 0, 16, 0, 0, 0, 0, 0, 0, 0, 0, 0, 0, 0, 0, 0, 0, 0, 0, 1, 9, 0, 0, 0, 0, 0, 0,
         0, 0, 0, 0, 0, 0, 0, 0, 0, 0, 0, 0, 0, 0, 0],
       capacity := 42, maxCapacity := 0, head := 1, tail := 22, rightMarginIndex := 22,
       count := 4, headerEntryBuffer := [0, 0, 0, 0, 0], verbose := false }
     ⟨4, 1, 1⟩ (by decide) (by decide)⟩

/-- C5 (counterexample): after four successful pushes and one successful pop `Len()` is
four, not three, because growth of the wrapped buffer counted its filler record. -/
theorem len_differs_from_pushes_minus_pops :
    (tallyOps (NewBytesQueue 21 0 false) ⟨0, 0, 0⟩ fillerTrace).map
        (fun r => (r.1.Len, (r.2.pushes : Int) - r.2.pops)) = some (4, 3) := by
  decide

/-! ## Errors -/

/-- C6: a call that returns an error leaves the whole queue record as it was. -/
theorem error_leaves_queue_unchanged (q q1 : BytesQueue) (op : Op) (r : Reply)
    (h : callOp q op = some (r, q1)) (he : r.err ≠ none) : q1 = q := by
  cases op with
  | push data =>
    simp only [callOp, Option.map_eq_some'] at h
    obtain ⟨⟨r0, q2⟩, h, h2⟩ := h
    cases h2
    simp only [Reply.err] at he
    rcases Push_cases q data with ⟨_, e⟩ | ⟨_, _, e⟩ | ⟨_, _, _, e⟩ | ⟨_, e⟩
    · rw [e] at h
      obtain ⟨rfl, _⟩ := pushAtTail_some h
      exact absurd rfl he
    · rw [e] at h
      obtain ⟨rfl, _⟩ := pushAtTail_some h
      exact absurd rfl he
    · rw [e] at h
      cases h; rfl
    · rw [e] at h
      simp only [Option.bind_eq_some] at h
      obtain ⟨q3, _, h⟩ := h
      obtain ⟨rfl, _⟩ := pushAtTail_some h
      exact absurd rfl he
  | pop =>
    simp only [callOp, Option.map_eq_some'] at h
    obtain ⟨⟨r0, q2⟩, h, h2⟩ := h
    cases h2
    simp only [Reply.err] at he
    unfold BytesQueue.Pop at h
    split at h
    · cases h
    · cases h; rfl
    · cases h; exact absurd rfl he
  | peek =>
    simp only [callOp, BytesQueue.Peek, Option.map_eq_some'] at h
    obtain ⟨⟨r0, q2⟩, ⟨a, h, h3⟩, h2⟩ := h
    cases h2; cases h3; rfl
  | get i =>
    simp only [callOp, BytesQueue.Get, Option.map_eq_some'] at h
    obtain ⟨⟨r0, q2⟩, ⟨a, h, h3⟩, h2⟩ := h
    cases h2; cases h3; rfl
  | checkGet i =>
    simp only [callOp, BytesQueue.CheckGet, Option.map_eq_some'] at h
    obtain ⟨⟨r0, q2⟩, h, h2⟩ := h
    cases h2; cases h; rfl
  | reset =>
    simp only [callOp] at h
    cases h
    exact absurd rfl he

/-- C6 (witness): the rejected push on a bounded queue. -/
theorem error_leaves_queue_unchanged_witness :
    callOp (NewBytesQueue 10 12 false) (Op.push (List.replicate 10 0)) =
        some (Reply.index (-1) (some QueueError.ErrFullQueue), NewBytesQueue 10 12 false) ∧
      NewBytesQueue 10 12 false = NewBytesQueue 10 12 false :=
  ⟨by decide,
   error_leaves_queue_unchanged (NewBytesQueue 10 12 false) (NewBytesQueue 10 12 false)
     (Op.push (List.replicate 10 0)) (Reply.index (-1) (some QueueError.ErrFullQueue))
     (by decide) (by decide)⟩

/-- The guard under which `Push` returns `ErrFullQueue`. -/
theorem Push_full_iff (q : BytesQueue) (data : List Nat) :
    (∃ i q1, q.Push data = some ((i, some QueueError.ErrFullQueue), q1)) ↔
      (q.canInsertAfterTail (needOf data) = false ∧ q.canInsertBeforeHead (needOf data) = false ∧
        q.capacity + needOf data ≥ q.maxCapacity ∧ q.maxCapacity > 0) := by
  constructor
  · rintro ⟨i, q1, h⟩
    rcases Push_cases q data with ⟨_, e⟩ | ⟨_, _, e⟩ | ⟨h1, h2, h3, e⟩ | ⟨_, e⟩
    · rw [e] at h
      have := (pushAtTail_some h).1
      cases this
    · rw [e] at h
      have := (pushAtTail_some h).1
      cases this
    · exact ⟨h1, h2, h3⟩
    · rw [e] at h
      simp only [Option.bind_eq_some] at h
      obtain ⟨q3, _, h⟩ := h
      have := (pushAtTail_some h).1
      cases this
  · rintro ⟨h1, h2, h3, h4⟩
    refine ⟨-1, q, ?_⟩
    unfold BytesQueue.Push
    unfold needOf at h1 h2 h3
    rw [← Nat.add_assoc] at h3
    simp only [h1, h2, Bool.false_eq_true, if_false, if_pos (And.intro h3 h4)]

/-- C7 (as amended): `Push` returns `ErrFullQueue` exactly when the record fits neither
after the tail nor before the head and the capacity plus the size of the record reaches
a positive `maxCapacity`, whether or not a buffer of `maxCapacity` bytes would hold the
record. -/
theorem full_queue_iff_guard (q : BytesQueue) (data : List Nat) :
    (∃ i q1, q.Push data = some ((i, some QueueError.ErrFullQueue), q1)) ↔
      (q.canInsertAfterTail (needOf data) = false ∧ q.canInsertBeforeHead (needOf data) = false ∧
        q.capacity + needOf data ≥ q.maxCapacity ∧ q.maxCapacity > 0) :=
  Push_full_iff q data

/-- C7 (counterexample): a fresh queue of capacity 10 and ceiling 12 rejects a record of
11 bytes although a buffer of 12 bytes holds it after offset one. -/
theorem full_queue_although_ceiling_fits :
    (NewBytesQueue 10 12 false).Push (List.replicate 10 0) =
        some ((-1, some QueueError.ErrFullQueue), NewBytesQueue 10 12 false) ∧
      ¬ ((NewBytesQueue 10 12 false).maxCapacity - growthTail (NewBytesQueue 10 12 false) <
          needOf (List.replicate 10 0)) := by
  decide

/-- C10: on a queue whose `Len()` is zero, `Pop`, `Peek`, `Get(1)` and `CheckGet(1)` all
return `ErrEmptyQueue` (and leave the queue as it was). -/
theorem empty_queue_errors (q : BytesQueue) (h : q.Len = 0) :
    q.Pop = some (([], some QueueError.ErrEmptyQueue), q) ∧
    q.Peek = some (([], some QueueError.ErrEmptyQueue), q) ∧
    q.Get 1 = some (([], some QueueError.ErrEmptyQueue), q) ∧
    q.CheckGet 1 = some (some QueueError.ErrEmptyQueue, q) := by
  unfold BytesQueue.Len at h
  have hc : ∀ i, q.peekCheckErr i = some QueueError.ErrEmptyQueue := by
    intro i; unfold BytesQueue.peekCheckErr; rw [if_pos h]
  have hp : ∀ i, q.peek i = some ([], 0, some QueueError.ErrEmptyQueue) := fun i => peek_err (hc i)
  refine ⟨?_, ?_, ?_, ?_⟩
  · unfold BytesQueue.Pop; rw [hp]
  · unfold BytesQueue.Peek; rw [hp]; rfl
  · unfold BytesQueue.Get; rw [hp]; rfl
  · unfold BytesQueue.CheckGet; rw [hc]

/-- C10 (witness): the empty-queue errors on a fresh queue. -/
theorem empty_queue_errors_witness :
    (NewBytesQueue 8 0 false).Len = 0 ∧
    (NewBytesQueue 8 0 false).Pop =
      some (([], some QueueError.ErrEmptyQueue), NewBytesQueue 8 0 false) ∧
    (NewBytesQueue 8 0 false).Peek =
      some (([], some QueueError.ErrEmptyQueue), NewBytesQueue 8 0 false) ∧
    (NewBytesQueue 8 0 false).Get 1 =
      some (([], some QueueError.ErrEmptyQueue), NewBytesQueue 8 0 false) ∧
    (NewBytesQueue 8 0 false).CheckGet 1 =
      some (some QueueError.ErrEmptyQueue, NewBytesQueue 8 0 false) :=
  ⟨by decide, empty_queue_errors (NewBytesQueue 8 0 false) (by decide)⟩

/-- C3 (the code at the failing input): after growth of a wrapped buffer `Pop` returns
the record pushed third, `[7, 8, 9]`, while the record pushed second, `[4, 5, 6]`, has
not been popped. -/
theorem pop_after_wrapped_growth_returns_newer_record :
    (runOps (NewBytesQueue 10 0 false) wrappedGrowthTrace).map (fun r => r.1) =
      some [Reply.index 1 none, Reply.index 5 none, Reply.bytes [1, 2, 3] none,
        Reply.index 1 none, Reply.index 9 none, Reply.bytes [7, 8, 9] none] := by
  decide

/-! ## The built-in copy -/

theorem copyAt_length (arr : List Nat) (off : Nat) (src : List Nat) (h : off ≤ arr.length) :
    (copyAt arr off src).1.length = arr.length := by
  unfold copyAt
  simp only [List.length_append, List.length_take, List.length_drop]
  omega

theorem copyAt_count_le (arr : List Nat) (off : Nat) (src : List Nat) :
    (copyAt arr off src).2 ≤ arr.length - off ∧ (copyAt arr off src).2 ≤ src.length := by
  unfold copyAt
  simp only
  omega

/-! ## What each method leaves in place -/

theorem copy_frame {q q1 : BytesQueue} {data : List Nat} {len : Nat}
    (h : q.copy data len = some q1) :
    q1.full = q.full ∧ q1.capacity = q.capacity ∧ q1.maxCapacity = q.maxCapacity ∧
    q1.head = q.head ∧ q1.rightMarginIndex = q.rightMarginIndex ∧
    q1.headerEntryBuffer = q.headerEntryBuffer ∧ q1.verbose = q.verbose ∧
    q1.array.length = q.array.length ∧ q.tail ≤ q1.tail ∧ q1.tail ≤ q.array.length ∧
    q1.tail ≤ q.tail + len := by
  unfold BytesQueue.copy at h
  split at h
  · rename_i hc
    cases h
    have h1 := copyAt_length q.array q.tail (List.take len data) hc.2
    have h2 := copyAt_count_le q.array q.tail (List.take len data)
    simp only [List.length_take] at h2
    refine ⟨rfl, rfl, rfl, rfl, rfl, rfl, rfl, h1, ?_, ?_, ?_⟩ <;> dsimp only <;> omega
  · cases h

theorem PutUvarint_length {buf buf1 : List Nat} {x n : Nat}
    (h : PutUvarint buf x = some (buf1, n)) : buf1.length = buf.length ∧ n ≤ buf.length := by
  unfold PutUvarint at h
  dsimp only at h
  split at h
  · cases h
    simp only [List.length_append, List.length_drop]
    omega
  · cases h

theorem push_frame {q q1 : BytesQueue} {data : List Nat} {len : Nat}
    (h : q.push data len = some q1) :
    q1.capacity = q.capacity ∧ q1.maxCapacity = q.maxCapacity ∧ q1.head = q.head ∧
    q1.verbose = q.verbose ∧ q1.headerEntryBuffer.length = q.headerEntryBuffer.length ∧
    q1.array.length = q.array.length ∧ q.tail ≤ q1.tail ∧ q1.tail ≤ q.array.length ∧
    (q1.rightMarginIndex = q.rightMarginIndex ∨ q1.rightMarginIndex = q1.tail) ∧
    q1.count = q.count + 1 := by
  have hcount := push_count h
  unfold BytesQueue.push at h
  split at h
  · cases h
  · rename_i buf n hput
    split at h
    · cases h
    · rename_i qa ha
      split at h
      · cases h
      · rename_i qb hb
        have fa := copy_frame ha
        have fb := copy_frame hb
        have hl := PutUvarint_length hput
        dsimp only at fa
        cases h
        obtain ⟨a1, a2, a3, a4, a5, a6, a7, a8, a9, a10, a11⟩ := fa
        obtain ⟨b1, b2, b3, b4, b5, b6, b7, b8, b9, b10, b11⟩ := fb
        refine ⟨?_, ?_, ?_, ?_, ?_, ?_, ?_, ?_, ?_, hcount⟩
        all_goals (split_ifs <;> simp only [] <;> first | omega | simp_all)

/-! ## The invariant is kept by every method -/

theorem Inv_new (capacity maxCapacity : Nat) (verbose : Bool) (h : 0 < capacity) :
    Inv (NewBytesQueue capacity maxCapacity verbose) := by
  constructor <;> simp [NewBytesQueue, leftMarginIndex, maxVarintLen32] <;> omega

theorem Inv_reset {q : BytesQueue} (h : Inv q) : Inv q.Reset := by
  obtain ⟨h1, h2, h3, h4, h5, h6, h7, h8, h9⟩ := h
  constructor <;> simp [BytesQueue.Reset, leftMarginIndex] <;> assumption

theorem Inv_push {q q1 : BytesQueue} {data : List Nat} {len : Nat} (hi : Inv q)
    (h : q.push data len = some q1) : Inv q1 := by
  obtain ⟨h1, h2, h3, h4, h5, h6, h7, h8, h9⟩ := hi
  obtain ⟨f1, f2, f3, f4, f5, f6, f7, f8, f9, f10⟩ := push_frame h
  constructor <;> omega

theorem Inv_pushAtTail {q q1 : BytesQueue} {data : List Nat} {r : Int × Option QueueError}
    (hi : Inv q) (h : q.pushAtTail data = some (r, q1)) : Inv q1 :=
  Inv_push hi (pushAtTail_some h).2

theorem grownCapacity_ge (q : BytesQueue) (minimum : Nat)
    (h : ¬ (q.capacity + minimum ≥ q.maxCapacity ∧ q.maxCapacity > 0)) :
    q.capacity ≤ q.grownCapacity minimum ∧ q.capacity + minimum ≤ q.grownCapacity minimum := by
  unfold BytesQueue.grownCapacity
  dsimp only
  split_ifs <;> omega

theorem grownCapacity_le_max (q : BytesQueue) (minimum : Nat)
    (h : 0 < q.maxCapacity) : q.grownCapacity minimum ≤ q.maxCapacity := by
  unfold BytesQueue.grownCapacity
  dsimp only
  split_ifs <;> omega

theorem allocate_inv {q q1 : BytesQueue} {minimum : Nat} (hi : Inv q)
    (hg : q.capacity ≤ q.grownCapacity minimum)
    (h : q.allocateAdditionalMemory minimum = some q1) :
    Inv q1 ∧ q1.capacity = q.grownCapacity minimum ∧ q1.maxCapacity = q.maxCapacity := by
  obtain ⟨h1, h2, h3, h4, h5, h6, h7, h8, h9⟩ := hi
  unfold BytesQueue.allocateAdditionalMemory at h
  simp only [Option.map_eq_some'] at h
  obtain ⟨q4, h, rfl⟩ := h
  by_cases c1 : leftMarginIndex ≠ q.rightMarginIndex
  · rw [if_pos c1] at h
    by_cases c2 : q.rightMarginIndex ≤ q.array.length
    · rw [if_pos c2] at h
      have hlen : (copyAt (List.replicate (q.grownCapacity minimum) 0) 0
          (List.take q.rightMarginIndex q.array)).1.length = q.grownCapacity minimum := by
        rw [copyAt_length _ _ _ (Nat.zero_le _)]; simp
      by_cases c3 : q.tail ≤ q.head
      · rw [if_pos c3] at h
        simp only [Option.map_eq_some'] at h
        obtain ⟨q3, h, rfl⟩ := h
        by_cases c4 : q.tail ≠ q.head
        · rw [if_pos c4] at h
          obtain ⟨f1, f2, f3, f4, f5, f6, f7, f8, f9, f10⟩ := push_frame h
          dsimp only at f1 f2 f3 f4 f5 f6 f7 f8 f9 f10
          rw [hlen] at f6 f8
          refine ⟨?_, ?_, ?_⟩
          · constructor <;> dsimp only [leftMarginIndex] <;> omega
          · exact f1
          · exact f2
        · rw [if_neg c4] at h
          cases h
          refine ⟨?_, rfl, rfl⟩
          constructor <;> dsimp only [leftMarginIndex] <;> omega
      · rw [if_neg c3] at h
        cases h
        refine ⟨?_, rfl, rfl⟩
        constructor <;> dsimp only [leftMarginIndex] <;> omega
    · rw [if_neg c2] at h
      cases h
  · rw [if_neg c1] at h
    cases h
    refine ⟨?_, rfl, rfl⟩
    constructor <;> dsimp only [leftMarginIndex] <;> first | omega | simp

theorem growsOnPush_guard {q : BytesQueue} {data : List Nat} (h : growsOnPush q data = true) :
    q.canInsertAfterTail (needOf data) = false ∧ q.canInsertBeforeHead (needOf data) = false ∧
    ¬ (q.capacity + needOf data ≥ q.maxCapacity ∧ q.maxCapacity > 0) := by
  unfold growsOnPush at h
  simp only [Bool.and_eq_true, Bool.not_eq_true', decide_eq_false_iff_not] at h
  obtain ⟨⟨h1, h2⟩, h3⟩ := h
  refine ⟨h1, h2, ?_⟩
  unfold needOf
  rw [← Nat.add_assoc]
  exact h3

theorem Inv_Push {q q1 : BytesQueue} {data : List Nat} {r : Int × Option QueueError}
    (hi : Inv q) (h : q.Push data = some (r, q1)) : Inv q1 ∧ q1.maxCapacity = q.maxCapacity := by
  rcases Push_cases q data with ⟨_, e⟩ | ⟨_, _, e⟩ | ⟨_, _, _, e⟩ | ⟨hg, e⟩
  · rw [e] at h
    exact ⟨Inv_pushAtTail hi h, (push_frame (pushAtTail_some h).2).2.1⟩
  · rw [e] at h
    refine ⟨Inv_pushAtTail ?_ h, (push_frame (pushAtTail_some h).2).2.1⟩
    obtain ⟨h1, h2, h3, h4, h5, h6, h7, h8, h9⟩ := hi
    constructor <;> dsimp only [leftMarginIndex] <;> omega
  · rw [e] at h
    cases h
    exact ⟨hi, rfl⟩
  · rw [e] at h
    simp only [Option.bind_eq_some] at h
    obtain ⟨q2, ha, h⟩ := h
    have hge := grownCapacity_ge q (needOf data) (growsOnPush_guard hg).2.2
    obtain ⟨i2, _, m2⟩ := allocate_inv hi hge.1 ha
    exact ⟨Inv_pushAtTail i2 h, ((push_frame (pushAtTail_some h).2).2.1).trans m2⟩

theorem peek_some_bound {q : BytesQueue} {index un : Nat} {data : List Nat}
    (h : q.peek index = some (data, un, none)) :
    q.count ≠ 0 ∧ (index + un + data.length) % 2 ^ 64 ≤ q.array.length := by
  unfold BytesQueue.peek at h
  split at h
  · cases h
  · rename_i hc
    dsimp only at h
    split at h
    · rename_i hb
      cases h
      refine ⟨?_, ?_⟩
      · intro h0
        unfold BytesQueue.peekCheckErr at hc
        rw [if_pos h0] at hc
        cases hc
      · obtain ⟨hb1, hb2⟩ := hb
        simp only [List.length_take, List.length_drop]
        set u := toUint64 (Uvarint (List.drop index q.array)).2 with hu
        set b := (Uvarint (List.drop index q.array)).1 with hbdef
        set lo := (index + u) % 2 ^ 64 with hlo
        set hi := (index + u + b) % 2 ^ 64 with hhi
        have e1 : min (hi - lo) (q.array.length - lo) = hi - lo := by omega
        rw [e1, Nat.add_mod, ← hlo]
        have e2 : lo + (hi - lo) % 2 ^ 64 = lo + (hi - lo) := by
          have : hi < 2 ^ 64 := Nat.mod_lt _ (by norm_num)
          rw [Nat.mod_eq_of_lt (by omega)]
        have : hi < 2 ^ 64 := Nat.mod_lt _ (by norm_num)
        rw [Nat.mod_eq_of_lt (by omega)] 
        omega
    · cases h

theorem Inv_Pop {q q1 : BytesQueue} {r : List Nat × Option QueueError}
    (hi : Inv q) (h : q.Pop = some (r, q1)) : Inv q1 ∧ q1.maxCapacity = q.maxCapacity ∧
      q1.capacity = q.capacity := by
  unfold BytesQueue.Pop at h
  split at h
  · cases h
  · cases h; exact ⟨hi, rfl, rfl⟩
  · rename_i data un hp
    cases h
    obtain ⟨hc, hb⟩ := peek_some_bound hp
    obtain ⟨h1, h2, h3, h4, h5, h6, h7, h8, h9⟩ := hi
    dsimp only [leftMarginIndex]
    refine ⟨?_, ?_, ?_⟩
    · constructor <;> split_ifs <;> dsimp only <;> omega
    · split_ifs <;> rfl
    · split_ifs <;> rfl

theorem callOp_inv {q q1 : BytesQueue} {op : Op} {r : Reply} (hi : Inv q)
    (h : callOp q op = some (r, q1)) : Inv q1 ∧ q1.maxCapacity = q.maxCapacity := by
  cases op with
  | push data =>
    simp only [callOp, Option.map_eq_some'] at h
    obtain ⟨⟨r0, q2⟩, h, h2⟩ := h
    cases h2
    exact Inv_Push hi h
  | pop =>
    simp only [callOp, Option.map_eq_some'] at h
    obtain ⟨⟨r0, q2⟩, h, h2⟩ := h
    cases h2
    exact ⟨(Inv_Pop hi h).1, (Inv_Pop hi h).2.1⟩
  | peek =>
    simp only [callOp, BytesQueue.Peek, Option.map_eq_some'] at h
    obtain ⟨⟨r0, q2⟩, ⟨a, h, h3⟩, h2⟩ := h
    cases h2; cases h3; exact ⟨hi, rfl⟩
  | get i =>
    simp only [callOp, BytesQueue.Get, Option.map_eq_some'] at h
    obtain ⟨⟨r0, q2⟩, ⟨a, h, h3⟩, h2⟩ := h
    cases h2; cases h3; exact ⟨hi, rfl⟩
  | checkGet i =>
    simp only [callOp, BytesQueue.CheckGet, Option.map_eq_some'] at h
    obtain ⟨⟨r0, q2⟩, h, h2⟩ := h
    cases h2; cases h; exact ⟨hi, rfl⟩
  | reset =>
    simp only [callOp] at h
    cases h
    exact ⟨Inv_reset hi, rfl⟩

theorem Reachable_inv {capacity maxCapacity : Nat} {verbose : Bool} {q : BytesQueue}
    (hc : 0 < capacity) (h : Reachable capacity maxCapacity verbose q) :
    Inv q ∧ q.maxCapacity = maxCapacity := by
  induction h with
  | init => exact ⟨Inv_new _ _ _ hc, rfl⟩
  | step _ _ hcall ih =>
    obtain ⟨i1, m1⟩ := callOp_inv ih.1 hcall
    exact ⟨i1, m1.trans ih.2⟩

/-! ## Width of the length header -/

theorem putUvarintLoop_lt (fuel x : Nat) (h : x < 128) : putUvarintLoop fuel x = [x] := by
  cases fuel with
  | zero => simp only [putUvarintLoop]; congr 1; omega
  | succ n =>
    simp only [putUvarintLoop]
    rw [if_neg (by omega)]
    congr 1; omega

theorem putUvarintLoop_ge (fuel x : Nat) (h : 128 ≤ x) :
    putUvarintLoop (fuel + 1) x = ((x % 256) ||| 128) :: putUvarintLoop fuel (x / 128) := by
  simp only [putUvarintLoop]
  rw [if_pos h, Nat.shiftRight_eq_div_pow]

theorem putUvarintLoop_length : ∀ (k fuel x : Nat), k ≤ fuel → x < 128 ^ (k + 1) →
    (128 ^ k ≤ x ∨ k = 0) → (putUvarintLoop fuel x).length = k + 1 := by
  intro k
  induction k with
  | zero =>
    intro fuel x _ hx _
    rw [putUvarintLoop_lt fuel x (by simpa using hx)]
    rfl
  | succ k ih =>
    intro fuel x hf hx hl
    have hge : 128 ^ (k + 1) ≤ x := by
      rcases hl with hl | hl
      · exact hl
      · omega
    have h128 : 128 ≤ x := by
      have : 128 ^ 1 ≤ 128 ^ (k + 1) := Nat.pow_le_pow_right (by norm_num) (by omega)
      omega
    obtain ⟨f, rfl⟩ : ∃ f, fuel = f + 1 := ⟨fuel - 1, by omega⟩
    rw [putUvarintLoop_ge f x h128, List.length_cons]
    have e1 : 128 ^ (k + 1) = 128 ^ k * 128 := Nat.pow_succ _ _
    have e2 : 128 ^ (k + 1 + 1) = 128 ^ (k + 1) * 128 := Nat.pow_succ _ _
    rw [ih f (x / 128) (by omega)]
    · rw [Nat.div_lt_iff_lt_mul (by norm_num)]
      omega
    · left
      rw [Nat.le_div_iff_mul_le (by norm_num)]
      omega

/-- Index of the width class of a 32-bit length. -/
theorem width_class (x : Nat) (h : x < 2 ^ 32) :
    ∃ k, k ≤ 4 ∧ x < 128 ^ (k + 1) ∧ (128 ^ k ≤ x ∨ k = 0) ∧ getUvarintSize x = k + 1 := by
  unfold getUvarintSize
  by_cases h1 : x < 128
  · exact ⟨0, by norm_num, by norm_num; omega, Or.inr rfl, by rw [if_pos h1]⟩
  by_cases h2 : x < 16384
  · exact ⟨1, by norm_num, by norm_num; omega, Or.inl (by norm_num; omega),
      by rw [if_neg h1, if_pos h2]⟩
  by_cases h3 : x < 2097152
  · exact ⟨2, by norm_num, by norm_num; omega, Or.inl (by norm_num; omega),
      by rw [if_neg h1, if_neg h2, if_pos h3]⟩
  by_cases h4 : x < 268435456
  · exact ⟨3, by norm_num, by norm_num; omega, Or.inl (by norm_num; omega),
      by rw [if_neg h1, if_neg h2, if_neg h3, if_pos h4]⟩
  · exact ⟨4, by norm_num, by norm_num; omega, Or.inl (by norm_num; omega),
      by rw [if_neg h1, if_neg h2, if_neg h3, if_neg h4]⟩

theorem putUvarintBytes_length (x : Nat) (h : x < 2 ^ 32) :
    (putUvarintBytes x).length = getUvarintSize x := by
  obtain ⟨k, hk, h1, h2, h3⟩ := width_class x h
  rw [h3]
  exact putUvarintLoop_length k 9 x (by omega) h1 h2

theorem putUvarintLoop_length_le : ∀ (fuel x : Nat), (putUvarintLoop fuel x).length ≤ fuel + 1 := by
  intro fuel
  induction fuel with
  | zero => intro x; simp [putUvarintLoop]
  | succ n ih =>
    intro x
    simp only [putUvarintLoop]
    split_ifs
    · simp only [List.length_cons]
      have := ih (x >>> 7)
      omega
    · simp

theorem putUvarintBytes_pos (x : Nat) : 1 ≤ (putUvarintBytes x).length := by
  unfold putUvarintBytes
  simp only [putUvarintLoop]
  split_ifs <;> simp

theorem putUvarintBytes_length_le (x : Nat) (h : x < 2 ^ 35) :
    (putUvarintBytes x).length ≤ 5 := by
  by_cases h32 : x < 2 ^ 32
  · rw [putUvarintBytes_length x h32]
    unfold getUvarintSize
    split_ifs <;> omega
  · have := putUvarintLoop_length 4 9 x (by omega) (by norm_num; omega) (Or.inl (by norm_num; omega))
    unfold putUvarintBytes
    omega

theorem getUvarintSize_bounds (x : Nat) : 1 ≤ getUvarintSize x ∧ getUvarintSize x ≤ 5 := by
  unfold getUvarintSize
  split_ifs <;> omega

/-! ## Decoding an encoded length -/

set_option maxRecDepth 100000 in
theorem byte_mark (y : Nat) (h : y < 256) : ¬ (y ||| 128) < 128 ∧ (y ||| 128) &&& 127 = y % 128 := by
  have key : ∀ z : Fin 256, ¬ (z.val ||| 128) < 128 ∧ (z.val ||| 128) &&& 127 = z.val % 128 := by
    decide
  exact key ⟨y, h⟩

theorem shift_split (x s : Nat) :
    ((x % 128) <<< s) ||| ((x / 128) <<< (s + 7)) = x <<< s := by
  rw [Nat.shiftLeft_eq, Nat.shiftLeft_eq, Nat.shiftLeft_eq, Nat.lor_comm]
  have hlt : x % 128 * 2 ^ s < 2 ^ (s + 7) := by
    rw [Nat.pow_add, Nat.mul_comm]
    exact Nat.mul_lt_mul_of_pos_left (Nat.mod_lt _ (by norm_num)) (Nat.two_pow_pos s)
  have h := Nat.mul_add_lt_is_or hlt (x / 128)
  rw [Nat.mul_comm (x / 128) (2 ^ (s + 7)), ← h, Nat.pow_add]
  have := Nat.div_add_mod x 128
  calc 2 ^ s * 2 ^ 7 * (x / 128) + x % 128 * 2 ^ s
      = (128 * (x / 128) + x % 128) * 2 ^ s := by ring
    _ = x * 2 ^ s := by rw [this]

theorem uvarintLoop_encoded : ∀ (k fuel x i acc s : Nat) (rest : List Nat), k ≤ fuel →
    x < 128 ^ (k + 1) → i + k < 9 →
    uvarintLoop (putUvarintLoop fuel x ++ rest) i acc s =
      (acc ||| (x <<< s), ((i + (putUvarintLoop fuel x).length : Nat) : Int)) := by
  intro k
  induction k with
  | zero =>
    intro fuel x i acc s rest _ hx hi
    have hx1 : x < 128 := by simpa using hx
    rw [putUvarintLoop_lt fuel x hx1]
    simp only [List.singleton_append, uvarintLoop, maxVarintLen64, List.length_singleton]
    rw [if_neg (by omega), if_pos hx1, if_neg (by omega)]
    simp
  | succ k ih =>
    intro fuel x i acc s rest hf hx hi
    by_cases hx1 : x < 128
    · rw [putUvarintLoop_lt fuel x hx1]
      simp only [List.singleton_append, uvarintLoop, maxVarintLen64, List.length_singleton]
      rw [if_neg (by omega), if_pos hx1, if_neg (by omega)]
      simp
    · obtain ⟨f, rfl⟩ : ∃ f, fuel = f + 1 := ⟨fuel - 1, by omega⟩
      rw [putUvarintLoop_ge f x (by omega)]
      have hb := byte_mark (x % 256) (Nat.mod_lt _ (by norm_num))
      rw [List.cons_append]
      simp only [uvarintLoop, maxVarintLen64, List.length_cons]
      rw [if_neg (by omega), if_neg hb.1, hb.2]
      have e2 : 128 ^ (k + 1 + 1) = 128 ^ (k + 1) * 128 := Nat.pow_succ _ _
      rw [ih f (x / 128) (i + 1) _ (s + 7) rest (by omega)
        (by rw [Nat.div_lt_iff_lt_mul (by norm_num)]; omega) (by omega)]
      have e3 : x % 256 % 128 = x % 128 := by omega
      rw [e3, Nat.lor_assoc, shift_split]
      congr 2
      omega

/-- Decoding the header written for a length below `2^32` gives the length back and
consumes the width `getUvarintSize` reports. -/
theorem Uvarint_putUvarintBytes (v : Nat) (rest : List Nat) (h : v < 2 ^ 32) :
    Uvarint (putUvarintBytes v ++ rest) = (v, (getUvarintSize v : Int)) := by
  obtain ⟨k, hk, h1, _, _⟩ := width_class v h
  unfold Uvarint
  have := uvarintLoop_encoded k 9 v 0 0 0 rest (by omega) h1 (by omega)
  unfold putUvarintBytes
  rw [this]
  have hl := putUvarintBytes_length v h
  unfold putUvarintBytes at hl
  rw [hl]
  simp

/-! ## Calls that cannot panic -/

theorem copy_total (q : BytesQueue) (data : List Nat) (len : Nat) (h1 : len ≤ data.length)
    (h2 : q.tail ≤ q.array.length) : ∃ q1, q.copy data len = some q1 := by
  unfold BytesQueue.copy
  rw [if_pos ⟨h1, h2⟩]
  exact ⟨_, rfl⟩

theorem push_total (q : BytesQueue) (data : List Nat) (len : Nat) (hi : Inv q)
    (h1 : len ≤ data.length) (h2 : len < 2 ^ 35) : ∃ q1, q.push data len = some q1 := by
  obtain ⟨i1, i2, i3, i4, i5, i6, i7, i8, i9⟩ := hi
  unfold BytesQueue.push
  have hl := putUvarintBytes_length_le len h2
  have hput : PutUvarint q.headerEntryBuffer len =
      some (putUvarintBytes len ++ q.headerEntryBuffer.drop (putUvarintBytes len).length,
        (putUvarintBytes len).length) := by
    unfold PutUvarint
    dsimp only
    rw [if_pos (by rw [i9]; exact hl)]
  rw [hput]
  dsimp only
  obtain ⟨qa, ha⟩ := copy_total
    ({ q with headerEntryBuffer := putUvarintBytes len ++
        q.headerEntryBuffer.drop (putUvarintBytes len).length } : BytesQueue)
    (putUvarintBytes len ++ q.headerEntryBuffer.drop (putUvarintBytes len).length)
    (putUvarintBytes len).length (by simp) (by dsimp only; omega)
  rw [ha]
  dsimp only
  have fa := copy_frame ha
  dsimp only at fa
  obtain ⟨qb, hb⟩ := copy_total qa data len h1 (by omega)
  rw [hb]
  exact ⟨_, rfl⟩

theorem sub64_eq (a b : Nat) (h1 : b ≤ a) (h2 : a < 2 ^ 64) : sub64 a b = a - b := by
  unfold sub64
  have : a + 2 ^ 64 - b = (a - b) + 2 ^ 64 := by omega
  rw [this, Nat.add_mod_right, Nat.mod_eq_of_lt (by omega)]

theorem getUvarintSize_toUint32_le (g : Nat) (h : 1 ≤ g) : getUvarintSize (toUint32 g) ≤ g := by
  unfold getUvarintSize toUint32
  split_ifs <;> omega

theorem allocate_total (q : BytesQueue) (minimum : Nat) (hi : Inv q)
    (hg : q.capacity ≤ q.grownCapacity minimum)
    (hcap : q.tail < q.head → q.capacity ≤ 2 ^ 35) :
    ∃ q1, q.allocateAdditionalMemory minimum = some q1 := by
  obtain ⟨i1, i2, i3, i4, i5, i6, i7, i8, i9⟩ := hi
  unfold BytesQueue.allocateAdditionalMemory
  dsimp only
  by_cases c1 : leftMarginIndex ≠ q.rightMarginIndex
  · rw [if_pos c1, if_pos (by omega)]
    by_cases c3 : q.tail ≤ q.head
    · rw [if_pos c3]
      by_cases c4 : q.tail ≠ q.head
      · rw [if_pos c4]
        have hcap := hcap (Nat.lt_of_le_of_ne c3 c4)
        have hgap : sub64 q.head q.tail = q.head - q.tail := sub64_eq _ _ c3 (by omega)
        have hs := getUvarintSize_toUint32_le (q.head - q.tail) (by omega)
        have hblob : sub64 (sub64 q.head q.tail) (getUvarintSize (toUint32 (sub64 q.head q.tail))) =
            q.head - q.tail - getUvarintSize (toUint32 (q.head - q.tail)) := by
          rw [hgap]
          exact sub64_eq _ _ hs (by omega)
        rw [hblob]
        have hlen : (copyAt (List.replicate (q.grownCapacity minimum) 0) 0
            (List.take q.rightMarginIndex q.array)).1.length = q.grownCapacity minimum := by
          rw [copyAt_length _ _ _ (Nat.zero_le _)]; simp
        obtain ⟨q3, h3⟩ := push_total
          ({ q with capacity := q.grownCapacity minimum,
                    array := (copyAt (List.replicate (q.grownCapacity minimum) 0) 0
                      (List.take q.rightMarginIndex q.array)).1 } : BytesQueue)
          (List.replicate (q.head - q.tail - getUvarintSize (toUint32 (q.head - q.tail))) 0)
          (q.head - q.tail - getUvarintSize (toUint32 (q.head - q.tail)))
          (by constructor <;> dsimp only <;> omega) (by simp) (by omega)
        rw [h3]
        exact ⟨_, rfl⟩
      · rw [if_neg c4]
        exact ⟨_, rfl⟩
    · rw [if_neg c3]
      exact ⟨_, rfl⟩
  · rw [if_neg c1]
    exact ⟨_, rfl⟩

theorem pushAtTail_total (q : BytesQueue) (data : List Nat) (hi : Inv q)
    (h : data.length < 2 ^ 32) : ∃ q1, q.pushAtTail data = some (((q.tail : Int), none), q1) := by
  obtain ⟨q1, h1⟩ := push_total q data data.length hi (le_refl _) (by omega)
  exact ⟨q1, by unfold BytesQueue.pushAtTail; rw [h1]; rfl⟩

/-- On a queue that satisfies the invariant and holds at most `2^35` bytes, `Push` of a
slice shorter than `2^32` bytes returns. -/
theorem Push_total (q : BytesQueue) (data : List Nat) (hi : Inv q) (hcap : q.capacity ≤ 2 ^ 35)
    (h : data.length < 2 ^ 32) : ∃ r q1, q.Push data = some (r, q1) := by
  rcases Push_cases q data with ⟨_, e⟩ | ⟨_, _, e⟩ | ⟨_, _, _, e⟩ | ⟨hg, e⟩
  · rw [e]
    obtain ⟨q1, h1⟩ := pushAtTail_total q data hi h
    exact ⟨_, q1, h1⟩
  · rw [e]
    obtain ⟨i1, i2, i3, i4, i5, i6, i7, i8, i9⟩ := hi
    obtain ⟨q1, h1⟩ := pushAtTail_total ({ q with tail := leftMarginIndex } : BytesQueue) data
      (by constructor <;> dsimp only [leftMarginIndex] <;> omega) h
    exact ⟨_, q1, h1⟩
  · exact ⟨_, _, e⟩
  · rw [e]
    have hge := grownCapacity_ge q (needOf data) (growsOnPush_guard hg).2.2
    obtain ⟨q2, h2⟩ := allocate_total q (needOf data) hi hge.1 (fun _ => hcap)
    rw [h2]
    obtain ⟨q1, h1⟩ := pushAtTail_total q2 data (allocate_inv hi hge.1 h2).1 h
    exact ⟨_, q1, h1⟩

/-- A successful `Push` on a queue that satisfies the invariant returns an index of at
least one. -/
theorem Push_index_pos {q q1 : BytesQueue} {data : List Nat} {i : Int} (hi : Inv q)
    (h : q.Push data = some ((i, none), q1)) : 1 ≤ i := by
  rcases Push_cases q data with ⟨_, e⟩ | ⟨_, _, e⟩ | ⟨_, _, _, e⟩ | ⟨hg, e⟩
  · rw [e] at h
    have := (pushAtTail_some h).1
    cases this
    have := hi.tail_pos
    omega
  · rw [e] at h
    have := (pushAtTail_some h).1
    cases this
    simp [leftMarginIndex]
  · rw [e] at h
    cases h
  · rw [e] at h
    simp only [Option.bind_eq_some] at h
    obtain ⟨q2, ha, h⟩ := h
    have hge := grownCapacity_ge q (needOf data) (growsOnPush_guard hg).2.2
    have i2 := (allocate_inv hi hge.1 ha).1
    have := (pushAtTail_some h).1
    cases this
    have := i2.tail_pos
    omega

/-- C9: on a queue built with a positive capacity and no ceiling, in every reachable
state (holding at most `2^35` bytes) `Push` of a slice shorter than `2^32` bytes returns a
nil error and an index of at least one, and `Len()` grows by at least one. -/
theorem unbounded_push_succeeds (capacity : Nat) (verbose : Bool) (q : BytesQueue)
    (data : List Nat) (hc : 0 < capacity) (hr : Reachable capacity 0 verbose q)
    (hcap : q.capacity ≤ 2 ^ 35) (hd : data.length < 2 ^ 32) :
    ∃ i q1, q.Push data = some ((i, none), q1) ∧ 1 ≤ i ∧ q.Len + 1 ≤ q1.Len := by
  obtain ⟨hi, hm⟩ := Reachable_inv hc hr
  obtain ⟨⟨i, e⟩, q1, h⟩ := Push_total q data hi hcap hd
  have he : e = none := by
    cases e with
    | none => rfl
    | some err =>
      have hfull : ∃ i q1, q.Push data = some ((i, some QueueError.ErrFullQueue), q1) := by
        rcases Push_cases q data with ⟨_, e⟩ | ⟨_, _, e⟩ | ⟨_, _, _, e⟩ | ⟨hg, e⟩
        · rw [e] at h; have := (pushAtTail_some h).1; cases this
        · rw [e] at h; have := (pushAtTail_some h).1; cases this
        · exact ⟨_, _, e⟩
        · rw [e] at h
          simp only [Option.bind_eq_some] at h
          obtain ⟨q2, _, h⟩ := h
          have := (pushAtTail_some h).1; cases this
      have := ((Push_full_iff q data).1 hfull).2.2.2
      omega
  subst he
  refine ⟨i, q1, h, Push_index_pos hi h, ?_⟩
  have hcount := Push_count h
  unfold BytesQueue.Len
  rw [hcount]
  simp only [if_true]
  split_ifs <;> omega

/-- Capacity after a `Push`: unchanged, or the grown capacity when the buffer grew. -/
theorem Push_capacity {q q1 : BytesQueue} {data : List Nat} {r : Int × Option QueueError}
    (hi : Inv q) (h : q.Push data = some (r, q1)) :
    q1.capacity = q.capacity ∨
      (growsOnPush q data = true ∧ q1.capacity = q.grownCapacity (needOf data)) := by
  rcases Push_cases q data with ⟨_, e⟩ | ⟨_, _, e⟩ | ⟨_, _, _, e⟩ | ⟨hg, e⟩
  · rw [e] at h
    exact Or.inl (push_frame (pushAtTail_some h).2).1
  · rw [e] at h
    exact Or.inl (push_frame (pushAtTail_some h).2).1
  · rw [e] at h
    cases h
    exact Or.inl rfl
  · rw [e] at h
    simp only [Option.bind_eq_some] at h
    obtain ⟨q2, ha, h⟩ := h
    have hge := grownCapacity_ge q (needOf data) (growsOnPush_guard hg).2.2
    have c2 := (allocate_inv hi hge.1 ha).2.1
    exact Or.inr ⟨hg, (push_frame (pushAtTail_some h).2).1.trans c2⟩

theorem callOp_capacity_le {q q1 : BytesQueue} {op : Op} {r : Reply} (hi : Inv q)
    (hm : 0 < q.maxCapacity) (hle : q.capacity ≤ q.maxCapacity)
    (h : callOp q op = some (r, q1)) : q1.capacity ≤ q.maxCapacity := by
  cases op with
  | push data =>
    simp only [callOp, Option.map_eq_some'] at h
    obtain ⟨⟨r0, q2⟩, h, h2⟩ := h
    cases h2
    show q2.capacity ≤ q.maxCapacity
    rcases Push_capacity hi h with e | ⟨_, e⟩
    · omega
    · rw [e]; exact grownCapacity_le_max q _ hm
  | pop =>
    simp only [callOp, Option.map_eq_some'] at h
    obtain ⟨⟨r0, q2⟩, h, h2⟩ := h
    cases h2
    show q2.capacity ≤ q.maxCapacity
    rw [(Inv_Pop hi h).2.2]; exact hle
  | peek =>
    simp only [callOp, BytesQueue.Peek, Option.map_eq_some'] at h
    obtain ⟨⟨r0, q2⟩, ⟨a, h, h3⟩, h2⟩ := h
    cases h2; cases h3; exact hle
  | get i =>
    simp only [callOp, BytesQueue.Get, Option.map_eq_some'] at h
    obtain ⟨⟨r0, q2⟩, ⟨a, h, h3⟩, h2⟩ := h
    cases h2; cases h3; exact hle
  | checkGet i =>
    simp only [callOp, BytesQueue.CheckGet, Option.map_eq_some'] at h
    obtain ⟨⟨r0, q2⟩, h, h2⟩ := h
    cases h2; cases h; exact hle
  | reset =>
    simp only [callOp] at h
    cases h
    exact hle

/-- C8: on a queue built with `0 < capacity <= maxCapacity`, after every sequence of
calls `Capacity()` is at most `maxCapacity` and equals the length of the backing array. -/
theorem capacity_ceiling (capacity maxCapacity : Nat) (verbose : Bool) (q : BytesQueue)
    (hc : 0 < capacity) (hm : capacity ≤ maxCapacity)
    (hr : Reachable capacity maxCapacity verbose q) :
    q.Capacity ≤ (maxCapacity : Int) ∧ q.Capacity = (q.array.length : Int) := by
  have key : q.capacity ≤ maxCapacity := by
    induction hr with
    | init => exact hm
    | step hq _ hcall ih =>
      obtain ⟨hi, hmax⟩ := Reachable_inv hc hq
      have := callOp_capacity_le hi (by omega) (by omega) hcall
      omega
  obtain ⟨hi, _⟩ := Reachable_inv hc hr
  unfold BytesQueue.Capacity
  exact ⟨by exact_mod_cast key, by exact_mod_cast hi.cap_len⟩

/-! ## Bytes written by the built-in copy -/

theorem copyAt_fits (arr : List Nat) (off : Nat) (src : List Nat)
    (h : off + src.length ≤ arr.length) :
    copyAt arr off src = (arr.take off ++ src ++ arr.drop (off + src.length), src.length) := by
  unfold copyAt
  have e : min (arr.length - off) src.length = src.length := by omega
  simp only [e, List.take_length]

theorem getElem?_copyAt (arr : List Nat) (off : Nat) (src : List Nat)
    (h : off + src.length ≤ arr.length) (k : Nat) :
    (copyAt arr off src).1[k]? =
      if off ≤ k ∧ k < off + src.length then src[k - off]? else arr[k]? := by
  rw [copyAt_fits arr off src h]
  simp only [List.getElem?_append, List.length_append, List.length_take, List.getElem?_take,
    List.getElem?_drop]
  have e : min off arr.length = off := by omega
  rw [e]
  by_cases h1 : k < off
  · rw [if_pos (by omega), if_pos h1, if_pos h1, if_neg (by omega)]
  · by_cases h2 : k < off + src.length
    · rw [if_pos h2, if_neg h1, if_pos ⟨by omega, h2⟩]
    · rw [if_neg h2, if_neg (by omega)]
      congr 1
      omega

/-- Two windows agree when the arrays agree on the positions of the window. -/
theorem window_congr (l1 l2 : List Nat) (i n : Nat)
    (h : ∀ k, i ≤ k → k < i + n → l1[k]? = l2[k]?) :
    (l1.drop i).take n = (l2.drop i).take n := by
  apply List.ext_getElem?
  intro k
  simp only [List.getElem?_take, List.getElem?_drop]
  by_cases hk : k < n
  · rw [if_pos hk, if_pos hk]
    exact h (i + k) (by omega) (by omega)
  · rw [if_neg hk, if_neg hk]

theorem FrameAt_congr {l1 l2 : List Nat} {i : Nat} {d : List Nat}
    (h : ∀ k, i ≤ k → k < i + (frame d).length → l2[k]? = l1[k]?)
    (hf : FrameAt l1 i d) : FrameAt l2 i d := by
  unfold FrameAt at hf ⊢
  rw [window_congr l2 l1 i _ h]
  exact hf

theorem FrameAt_bound {arr : List Nat} {i : Nat} {d : List Nat} (hf : FrameAt arr i d) :
    i + (frame d).length ≤ arr.length := by
  unfold FrameAt at hf
  have := congrArg List.length hf
  simp only [List.length_take, List.length_drop] at this
  have hp : 1 ≤ (frame d).length := by
    unfold frame
    have := putUvarintBytes_pos d.length
    simp only [List.length_append]
    omega
  omega

theorem frame_length_pos (d : List Nat) : 1 ≤ (frame d).length := by
  unfold frame
  have := putUvarintBytes_pos d.length
  simp only [List.length_append]
  omega

theorem frame_length (d : List Nat) (h : d.length < 2 ^ 32) : (frame d).length = needOf d := by
  unfold frame needOf toUint32
  rw [List.length_append, putUvarintBytes_length _ h, Nat.mod_eq_of_lt h]
  omega

/-- A window that starts where a stored record starts begins with that record. -/
theorem FrameAt_drop {arr : List Nat} {i : Nat} {d : List Nat} (hf : FrameAt arr i d) :
    arr.drop i = frame d ++ arr.drop (i + (frame d).length) := by
  unfold FrameAt at hf
  conv_lhs => rw [← List.take_append_drop (frame d).length (arr.drop i)]
  rw [hf, List.drop_drop]

/-! ## A record written where it fits -/

theorem getElem?_copyAt_twice (arr : List Nat) (t : Nat) (hdr data : List Nat)
    (h : t + (hdr ++ data).length ≤ arr.length) (k : Nat) :
    (copyAt (copyAt arr t hdr).1 (t + hdr.length) data).1[k]? =
      if t ≤ k ∧ k < t + (hdr ++ data).length then (hdr ++ data)[k - t]? else arr[k]? := by
  rw [List.length_append] at h
  have h1 : t + hdr.length ≤ arr.length := by omega
  have hl : (copyAt arr t hdr).1.length = arr.length := copyAt_length _ _ _ (by omega)
  rw [getElem?_copyAt _ _ _ (by rw [hl]; omega), getElem?_copyAt _ _ _ h1,
    List.getElem?_append, List.length_append]
  by_cases c1 : t + hdr.length ≤ k ∧ k < t + hdr.length + data.length
  · rw [if_pos c1, if_pos (by omega), if_neg (by omega)]
    congr 1
    omega
  · rw [if_neg c1]
    by_cases c2 : t ≤ k ∧ k < t + hdr.length
    · rw [if_pos c2, if_pos (by omega), if_pos (by omega)]
    · rw [if_neg c2, if_neg (by omega)]

theorem copy_fits (q : BytesQueue) (data : List Nat) (len : Nat) (h1 : len ≤ data.length)
    (h2 : q.tail + len ≤ q.array.length) :
    q.copy data len =
      some { q with array := (copyAt q.array q.tail (data.take len)).1, tail := q.tail + len } := by
  unfold BytesQueue.copy
  rw [if_pos ⟨h1, by omega⟩]
  have hl : (List.take len data).length = len := by simp; omega
  have := copyAt_fits q.array q.tail (List.take len data) (by omega)
  simp only [this, hl]

/-- State after `push` of a record that fits between the tail and the end of the
array. -/
theorem push_fits (q : BytesQueue) (data : List Nat) (len : Nat) (hl : len = data.length)
    (hbuf : q.headerEntryBuffer.length = maxVarintLen32) (hlen : data.length < 2 ^ 32)
    (hroom : q.tail + (frame data).length ≤ q.array.length) :
    ∃ q1, q.push data len = some q1 ∧
      q1.tail = q.tail + (frame data).length ∧
      q1.array.length = q.array.length ∧
      (∀ k, q1.array[k]? = if q.tail ≤ k ∧ k < q.tail + (frame data).length
        then (frame data)[k - q.tail]? else q.array[k]?) ∧
      q1.head = q.head ∧ q1.capacity = q.capacity ∧ q1.maxCapacity = q.maxCapacity ∧
      q1.count = q.count + 1 ∧
      q1.rightMarginIndex = (if q.tail + (frame data).length > q.head
        then q.tail + (frame data).length else q.rightMarginIndex) ∧
      q1.full = (if q.tail + (frame data).length = q.head then true else q.full) ∧
      q1.headerEntryBuffer.length = maxVarintLen32 ∧ q1.verbose = q.verbose := by
  subst hl
  have hh := putUvarintBytes_length_le data.length (by omega)
  have hfl : (frame data).length = (putUvarintBytes data.length).length + data.length := by
    unfold frame; rw [List.length_append]
  unfold BytesQueue.push
  have hput : PutUvarint q.headerEntryBuffer data.length =
      some (putUvarintBytes data.length ++
        q.headerEntryBuffer.drop (putUvarintBytes data.length).length,
        (putUvarintBytes data.length).length) := by
    unfold PutUvarint
    dsimp only
    rw [if_pos (by rw [hbuf]; exact hh)]
  rw [hput]
  dsimp only
  rw [copy_fits _ _ _ (by simp) (by dsimp only; omega)]
  dsimp only
  rw [copy_fits _ _ _ (le_refl _) (by
    dsimp only
    rw [copyAt_length _ _ _ (by omega)]
    omega)]
  dsimp only
  rw [List.take_left, List.take_length]
  have hl1 : (copyAt q.array q.tail (putUvarintBytes data.length)).1.length = q.array.length :=
    copyAt_length _ _ _ (by omega)
  have hl2 : (copyAt (copyAt q.array q.tail (putUvarintBytes data.length)).1
      (q.tail + (putUvarintBytes data.length).length) data).1.length = q.array.length := by
    rw [copyAt_length _ _ _ (by omega), hl1]
  have hget : ∀ k, (copyAt (copyAt q.array q.tail (putUvarintBytes data.length)).1
      (q.tail + (putUvarintBytes data.length).length) data).1[k]? =
      if q.tail ≤ k ∧ k < q.tail + (frame data).length then (frame data)[k - q.tail]?
      else q.array[k]? := by
    intro k
    exact getElem?_copyAt_twice q.array q.tail (putUvarintBytes data.length) data
      (by rw [List.length_append]; omega) k
  have hb : (putUvarintBytes data.length ++
      List.drop (putUvarintBytes data.length).length q.headerEntryBuffer).length =
      maxVarintLen32 := by
    rw [List.length_append, List.length_drop]
    have : maxVarintLen32 = 5 := rfl
    omega
  rw [hfl]
  by_cases c1 : q.tail + (putUvarintBytes data.length).length + data.length > q.head
  · have c1b : q.tail + ((putUvarintBytes data.length).length + data.length) > q.head := by omega
    have c2 : ¬ q.tail + (putUvarintBytes data.length).length + data.length = q.head := by omega
    have c2b : ¬ q.tail + ((putUvarintBytes data.length).length + data.length) = q.head := by
      omega
    rw [if_pos c1, if_pos c1b, if_neg c2b]
    dsimp only
    rw [if_neg c2]
    exact ⟨_, rfl, by dsimp only; omega, hl2, by rw [← hfl]; exact hget, rfl, rfl, rfl, rfl,
      by dsimp only; omega, rfl, hb, rfl⟩
  · have c1b : ¬ q.tail + ((putUvarintBytes data.length).length + data.length) > q.head := by
      omega
    rw [if_neg c1, if_neg c1b]
    by_cases c2 : q.tail + (putUvarintBytes data.length).length + data.length = q.head
    · have c2b : q.tail + ((putUvarintBytes data.length).length + data.length) = q.head := by
        omega
      rw [if_pos c2, if_pos c2b]
      exact ⟨_, rfl, by dsimp only; omega, hl2, by rw [← hfl]; exact hget, rfl, rfl, rfl, rfl,
        rfl, rfl, hb, rfl⟩
    · have c2b : ¬ q.tail + ((putUvarintBytes data.length).length + data.length) = q.head := by
        omega
      rw [if_neg c2, if_neg c2b]
      exact ⟨_, rfl, by dsimp only; omega, hl2, by rw [← hfl]; exact hget, rfl, rfl, rfl, rfl,
        rfl, rfl, hb, rfl⟩

theorem FrameAt_of_get {arr : List Nat} {i : Nat} {d : List Nat}
    (h : ∀ k, i ≤ k → k < i + (frame d).length → arr[k]? = (frame d)[k - i]?) :
    FrameAt arr i d := by
  unfold FrameAt
  apply List.ext_getElem?
  intro k
  simp only [List.getElem?_take, List.getElem?_drop]
  by_cases hk : k < (frame d).length
  · rw [if_pos hk, h (i + k) (by omega) (by omega)]
    congr 1
    omega
  · rw [if_neg hk, List.getElem?_eq_none (by omega)]

/-! ## Reading a stored record -/

theorem toUint64_natCast (n : Nat) (h : n < 2 ^ 64) : toUint64 (n : Int) = n := by
  unfold toUint64
  have : ((n : Int) % 2 ^ 64) = (n : Int) := by
    apply Int.emod_eq_of_lt
    · exact Int.natCast_nonneg n
    · exact_mod_cast h
  rw [this]
  simp

/-- `peek` at the offset of a stored record returns its payload and the width of its
header. -/
theorem peek_frame (q : BytesQueue) (i : Nat) (d : List Nat) (hf : FrameAt q.array i d)
    (hd : d.length < 2 ^ 32) (hc : q.count ≠ 0) (hi : 1 ≤ i) (hlen : q.array.length < 2 ^ 64) :
    q.peek i = some (d, getUvarintSize d.length, none) := by
  have hb := FrameAt_bound hf
  have hpos := frame_length_pos d
  have hfl : (frame d).length = getUvarintSize d.length + d.length := by
    unfold frame
    rw [List.length_append, putUvarintBytes_length _ hd]
  have hdrop := FrameAt_drop hf
  unfold BytesQueue.peek
  have hchk : q.peekCheckErr i = none := by
    unfold BytesQueue.peekCheckErr
    rw [if_neg hc, if_neg (by omega), if_neg (by omega)]
  rw [hchk]
  dsimp only
  have hu : Uvarint (List.drop i q.array) = (d.length, (getUvarintSize d.length : Int)) := by
    rw [hdrop]
    unfold frame
    rw [List.append_assoc]
    exact Uvarint_putUvarintBytes _ _ hd
  rw [hu]
  dsimp only
  have hs := getUvarintSize_bounds d.length
  rw [toUint64_natCast _ (by omega)]
  have e1 : (i + getUvarintSize d.length) % 2 ^ 64 = i + getUvarintSize d.length :=
    Nat.mod_eq_of_lt (by omega)
  have e2 : (i + getUvarintSize d.length + d.length) % 2 ^ 64 =
      i + getUvarintSize d.length + d.length := Nat.mod_eq_of_lt (by omega)
  rw [e1, e2, if_pos ⟨by omega, by omega⟩]
  have e3 : i + getUvarintSize d.length + d.length - (i + getUvarintSize d.length) = d.length := by
    omega
  rw [e3]
  have e4 : List.drop (i + getUvarintSize d.length) q.array =
      d ++ List.drop (i + (frame d).length) q.array := by
    rw [← List.drop_drop, hdrop]
    unfold frame
    rw [List.append_assoc, ← putUvarintBytes_length _ hd, List.drop_left]
  rw [e4, List.take_left]

/-- `Get` at the index of a stored record returns its payload with a nil error. -/
theorem Get_frame (q : BytesQueue) (i : Nat) (d : List Nat) (hf : FrameAt q.array i d)
    (hd : d.length < 2 ^ 32) (hc : q.count ≠ 0) (hi : 1 ≤ i) (hlen : q.array.length < 2 ^ 64) :
    q.Get (i : Int) = some ((d, none), q) := by
  have hb := FrameAt_bound hf
  unfold BytesQueue.Get
  rw [toUint64_natCast _ (by omega), peek_frame q i d hf hd hc hi hlen]
  rfl

/-! ## Room found by the placement tests -/

theorem afterTail_room {q : BytesQueue} {need : Nat} (hi : Inv q) (hcap : q.capacity < 2 ^ 64)
    (h : q.canInsertAfterTail need = true) : q.tail + need ≤ q.capacity := by
  obtain ⟨i1, i2, i3, i4, i5, i6, i7, i8, i9⟩ := hi
  unfold BytesQueue.canInsertAfterTail at h
  by_cases cf : q.full = true
  · rw [if_pos cf] at h; cases h
  · rw [if_neg cf] at h
    by_cases ct : q.tail ≥ q.head
    · rw [if_pos ct, decide_eq_true_iff, sub64_eq _ _ i5 hcap] at h
      omega
    · rw [if_neg ct, decide_eq_true_iff, sub64_eq _ _ (by omega) (by omega)] at h
      unfold minimumHeaderSize at h
      omega

theorem beforeHead_room {q : BytesQueue} {need : Nat} (hi : Inv q) (hcap : q.capacity < 2 ^ 64)
    (hh : 1 ≤ q.head) (h : q.canInsertBeforeHead need = true) :
    leftMarginIndex + need ≤ q.capacity := by
  obtain ⟨i1, i2, i3, i4, i5, i6, i7, i8, i9⟩ := hi
  unfold BytesQueue.canInsertBeforeHead at h
  unfold leftMarginIndex at h ⊢
  by_cases cf : q.full = true
  · rw [if_pos cf] at h; cases h
  · rw [if_neg cf] at h
    by_cases ct : q.tail ≥ q.head
    · rw [if_pos ct, decide_eq_true_iff, sub64_eq _ _ hh (by omega)] at h
      unfold minimumHeaderSize at h
      omega
    · rw [if_neg ct, decide_eq_true_iff, sub64_eq _ _ (by omega) (by omega)] at h
      unfold minimumHeaderSize at h
      omega

/-- A record pushed where it fits can be read back at the index `Push` returns. -/
theorem pushAtTail_get (q q1 : BytesQueue) (data : List Nat) (r : Int × Option QueueError)
    (hi : Inv q) (hd : data.length < 2 ^ 32) (hcap : q.capacity < 2 ^ 64)
    (hroom : q.tail + needOf data ≤ q.capacity)
    (h : q.pushAtTail data = some (r, q1)) :
    r = ((q.tail : Int), none) ∧ q1.Get (q.tail : Int) = some ((data, none), q1) := by
  obtain ⟨hr, hp⟩ := pushAtTail_some h
  refine ⟨hr, ?_⟩
  obtain ⟨i1, i2, i3, i4, i5, i6, i7, i8, i9⟩ := hi
  have hfl := frame_length data hd
  obtain ⟨q2, h2, t2, l2, g2, -, -, -, c2, -⟩ :=
    push_fits q data data.length rfl i9 hd (by rw [hfl]; omega)
  rw [h2] at hp
  obtain rfl : q2 = q1 := Option.some.inj hp
  apply Get_frame q2 q.tail data _ hd (by omega) i4 (by omega)
  apply FrameAt_of_get
  intro k hk1 hk2
  rw [g2 k, if_pos ⟨hk1, hk2⟩]

/-! ## Growth -/

theorem getUvarintSize_mono {a b : Nat} (h : a ≤ b) : getUvarintSize a ≤ getUvarintSize b := by
  unfold getUvarintSize
  split_ifs <;> omega

/-- The filler record written for a gap of `g` bytes is no longer than the gap. -/
theorem filler_length_le (g : Nat) (h1 : 1 ≤ g) (h2 : g < 2 ^ 32) :
    (frame (List.replicate (g - getUvarintSize g) 0)).length ≤ g := by
  have hs := getUvarintSize_bounds g
  have hg : getUvarintSize g ≤ g := by
    have := getUvarintSize_toUint32_le g h1
    unfold toUint32 at this
    rwa [Nat.mod_eq_of_lt h2] at this
  rw [frame_length _ (by simp; omega)]
  unfold needOf toUint32
  simp only [List.length_replicate]
  rw [Nat.mod_eq_of_lt (by omega)]
  have := getUvarintSize_mono (Nat.sub_le g (getUvarintSize g))
  omega

/-- State after `allocateAdditionalMemory` on a queue below `2^32` bytes: the cursors of
a linear layout, the same right margin, and the bytes below the right margin kept where
they were, except inside the gap between tail and head. -/
theorem allocate_spec (q : BytesQueue) (minimum : Nat) (hi : Inv q)
    (hg : q.capacity ≤ q.grownCapacity minimum)
    (hcap : q.tail < q.head → q.capacity < 2 ^ 32) :
    ∃ q1, q.allocateAdditionalMemory minimum = some q1 ∧ Inv q1 ∧
      q1.capacity = q.grownCapacity minimum ∧ q1.maxCapacity = q.maxCapacity ∧
      q1.full = false ∧ q1.rightMarginIndex = q.rightMarginIndex ∧
      q1.tail = growthTail q ∧
      q1.head = (if leftMarginIndex ≠ q.rightMarginIndex ∧ q.tail ≤ q.head
        then leftMarginIndex else q.head) ∧
      q1.count = q.count + (if leftMarginIndex ≠ q.rightMarginIndex ∧ q.tail ≤ q.head ∧
        q.tail ≠ q.head then 1 else 0) ∧
      (leftMarginIndex ≠ q.rightMarginIndex → ∀ k, k < q.rightMarginIndex →
        ¬ (q.tail ≤ k ∧ k < q.head) → q1.array[k]? = q.array[k]?) := by
  obtain ⟨q1, h1⟩ := allocate_total q minimum hi hg (fun h => by have := hcap h; omega)
  obtain ⟨inv1, cap1, max1⟩ := allocate_inv hi hg h1
  have cnt1 := allocate_count h1
  refine ⟨q1, h1, inv1, cap1, max1, ?_⟩
  obtain ⟨i1, i2, i3, i4, i5, i6, i7, i8, i9⟩ := hi
  have hcopy : ∀ k, k < q.rightMarginIndex →
      (copyAt (List.replicate (q.grownCapacity minimum) 0) 0
        (List.take q.rightMarginIndex q.array)).1[k]? = q.array[k]? := by
    intro k hk
    have hl : (List.take q.rightMarginIndex q.array).length = q.rightMarginIndex := by
      rw [List.length_take]; omega
    rw [getElem?_copyAt _ _ _ (by rw [hl, List.length_replicate]; omega), hl,
      if_pos ⟨Nat.zero_le _, by omega⟩, Nat.sub_zero, List.getElem?_take_of_lt hk]
  have hlen : (copyAt (List.replicate (q.grownCapacity minimum) 0) 0
      (List.take q.rightMarginIndex q.array)).1.length = q.grownCapacity minimum := by
    rw [copyAt_length _ _ _ (Nat.zero_le _)]; simp
  unfold growthTail
  unfold BytesQueue.allocateAdditionalMemory at h1
  simp only [Option.map_eq_some'] at h1
  obtain ⟨q4, h, rfl⟩ := h1
  dsimp only at cnt1 ⊢
  by_cases c1 : leftMarginIndex ≠ q.rightMarginIndex
  · rw [if_pos c1, if_pos (show q.rightMarginIndex ≤ q.array.length by omega)] at h
    by_cases c3 : q.tail ≤ q.head
    · rw [if_pos c3] at h
      simp only [Option.map_eq_some'] at h
      obtain ⟨q3, h, rfl⟩ := h
      rw [if_pos ⟨c1, c3⟩, if_pos ⟨c1, c3⟩]
      dsimp only
      by_cases c4 : q.tail ≠ q.head
      · rw [if_pos c4] at h
        have hcap := hcap (Nat.lt_of_le_of_ne c3 c4)
        have hgap : sub64 q.head q.tail = q.head - q.tail := sub64_eq _ _ c3 (by omega)
        have hu : toUint32 (q.head - q.tail) = q.head - q.tail := by
          unfold toUint32; exact Nat.mod_eq_of_lt (by omega)
        have hs := getUvarintSize_toUint32_le (q.head - q.tail) (by omega)
        rw [hu] at hs
        rw [hgap, hu, sub64_eq _ _ hs (by omega)] at h
        have hfill := filler_length_le (q.head - q.tail) (by omega) (by omega)
        obtain ⟨q5, h5, t5, l5, g5, hd5, c5, m5, n5, r5, f5, b5, v5⟩ := push_fits
          ({ q with capacity := q.grownCapacity minimum,
                    array := (copyAt (List.replicate (q.grownCapacity minimum) 0) 0
                      (List.take q.rightMarginIndex q.array)).1 } : BytesQueue)
          (List.replicate (q.head - q.tail - getUvarintSize (q.head - q.tail)) 0)
          (q.head - q.tail - getUvarintSize (q.head - q.tail)) (by simp) i9
          (by simp; omega) (by dsimp only; rw [hlen]; omega)
        rw [h5] at h
        obtain rfl : q5 = q3 := Option.some.inj h
        dsimp only at t5 l5 g5 hd5 c5 m5 n5 r5 f5 b5 v5
        rw [if_neg (by omega)] at r5
        refine ⟨rfl, r5, r5, rfl, cnt1, ?_⟩
        intro _ k hk hout
        rw [g5 k, if_neg (by omega)]
        exact hcopy k hk
      · rw [if_neg c4] at h
        obtain rfl := Option.some.inj h
        refine ⟨rfl, rfl, rfl, rfl, cnt1, ?_⟩
        intro _ k hk _
        exact hcopy k hk
    · rw [if_neg c3] at h
      obtain rfl := Option.some.inj h
      rw [if_neg (by tauto), if_neg (by tauto)]
      refine ⟨rfl, rfl, rfl, rfl, cnt1, ?_⟩
      intro _ k hk _
      exact hcopy k hk
  · rw [if_neg c1] at h
    obtain rfl := Option.some.inj h
    rw [if_neg (by tauto), if_neg (by tauto)]
    exact ⟨rfl, rfl, rfl, rfl, cnt1, fun hc => absurd hc c1⟩

theorem grownCapacity_le (q : BytesQueue) (minimum : Nat) :
    q.grownCapacity minimum ≤ 2 * (q.capacity + minimum) := by
  unfold BytesQueue.grownCapacity
  dsimp only
  split_ifs <;> omega

theorem needOf_le (data : List Nat) : needOf data ≤ data.length + 5 := by
  unfold needOf
  have := getUvarintSize_bounds (toUint32 data.length)
  omega

/-- State after a `Push` that grows the buffer of a queue below `2^32` bytes. -/
theorem Push_grow_spec (q q1 : BytesQueue) (data : List Nat) (r : Int × Option QueueError)
    (hi : Inv q) (hcap : q.tail < q.head → q.capacity < 2 ^ 32)
    (hg : growsOnPush q data = true) (hp : q.Push data = some (r, q1)) :
    ∃ q2, q.allocateAdditionalMemory (needOf data) = some q2 ∧ Inv q2 ∧
      q2.push data data.length = some q1 ∧ r = ((growthTail q : Int), none) ∧
      q2.tail = growthTail q ∧ growthTail q + needOf data ≤ q2.capacity ∧
      q2.capacity ≤ 2 * (q.capacity + needOf data) ∧
      q2.rightMarginIndex = q.rightMarginIndex ∧
      q2.head = (if leftMarginIndex ≠ q.rightMarginIndex ∧ q.tail ≤ q.head
        then leftMarginIndex else q.head) ∧
      q2.count = q.count + (if leftMarginIndex ≠ q.rightMarginIndex ∧ q.tail ≤ q.head ∧
        q.tail ≠ q.head then 1 else 0) ∧
      q2.maxCapacity = q.maxCapacity ∧
      (leftMarginIndex ≠ q.rightMarginIndex → ∀ k, k < q.rightMarginIndex →
        ¬ (q.tail ≤ k ∧ k < q.head) → q2.array[k]? = q.array[k]?) := by
  have hguard := growsOnPush_guard hg
  have hge := grownCapacity_ge q (needOf data) hguard.2.2
  have hle := grownCapacity_le q (needOf data)
  have hn := needOf_le data
  obtain ⟨q2, h2, inv2, cap2, max2, full2, rm2, tail2, head2, cnt2, arr2⟩ :=
    allocate_spec q (needOf data) hi hge.1 hcap
  rcases Push_cases q data with ⟨c, _⟩ | ⟨_, c, _⟩ | ⟨_, _, c, _⟩ | ⟨_, e⟩
  · rw [hguard.1] at c; cases c
  · rw [hguard.2.1] at c; cases c
  · exact absurd c hguard.2.2
  · rw [e, h2] at hp
    simp only [Option.some_bind] at hp
    obtain ⟨hr, hpush⟩ := pushAtTail_some hp
    refine ⟨q2, h2, inv2, hpush, by rw [hr, tail2], tail2, ?_, by omega, rm2, head2, cnt2, max2,
      arr2⟩
    have ht : growthTail q ≤ q.capacity := by
      unfold growthTail
      split_ifs
      · exact hi.rm_le
      · exact hi.tail_le
    omega

/-- On a queue that satisfies the invariant, has its head at a data position and holds
less than `2^32` bytes, a record that `Push` stored is read back by `Get` at the index
`Push` returned. -/
theorem Push_get (q q1 : BytesQueue) (data : List Nat) (i : Int) (hi : Inv q)
    (hhead : 1 ≤ q.head) (hcap : q.capacity < 2 ^ 32) (hd : data.length < 2 ^ 32)
    (hp : q.Push data = some ((i, none), q1)) : q1.Get i = some ((data, none), q1) := by
  rcases Push_cases q data with ⟨c, e⟩ | ⟨_, c, e⟩ | ⟨_, _, _, e⟩ | ⟨hg, _⟩
  · rw [e] at hp
    obtain ⟨hr, hget⟩ := pushAtTail_get q q1 data _ hi hd (by omega)
      (afterTail_room hi (by omega) c) hp
    cases hr
    exact hget
  · rw [e] at hp
    have hroom := beforeHead_room hi (by omega) hhead c
    obtain ⟨i1, i2, i3, i4, i5, i6, i7, i8, i9⟩ := hi
    obtain ⟨hr, hget⟩ := pushAtTail_get ({ q with tail := leftMarginIndex } : BytesQueue) q1 data _
      (by constructor <;> dsimp only [leftMarginIndex] <;> omega) hd (by dsimp only; omega)
      hroom hp
    cases hr
    exact hget
  · rw [e] at hp
    cases hp
  · obtain ⟨q2, h2, inv2, hpush, hr, tail2, room2, cap2, -⟩ :=
      Push_grow_spec q q1 data _ hi (fun _ => hcap) hg hp
    have hpt : q2.pushAtTail data = some (((q2.tail : Int), none), q1) := by
      unfold BytesQueue.pushAtTail
      rw [hpush]
      rfl
    have hn := needOf_le data
    obtain ⟨_, hget⟩ := pushAtTail_get q2 q1 data _ inv2 hd (by omega)
      (by rw [tail2]; exact room2) hpt
    cases hr
    rw [← tail2]
    exact hget

/-- A live record is read by `Get` at its index. -/
theorem LiveRecord_get {q : BytesQueue} {i : Nat} {d : List Nat} (hl : LiveRecord q i d)
    (hd : d.length < 2 ^ 32) (hlen : q.array.length < 2 ^ 64) :
    q.Get (i : Int) = some ((d, none), q) :=
  Get_frame q i d hl.stored hd (by have := hl.counted; omega) hl.pos hlen

/-- A record that is live before a `Push` that grows the buffer is stored at the same
offset, and live, afterwards. -/
theorem LiveRecord_grow (q q1 : BytesQueue) (data d : List Nat) (r : Int × Option QueueError)
    (i : Nat) (hi : Inv q) (hcap : q.capacity < 2 ^ 32) (hd : data.length < 2 ^ 32)
    (hg : growsOnPush q data = true) (hp : q.Push data = some (r, q1))
    (hl : LiveRecord q i d) : LiveRecord q1 i d ∧ q1.array.length < 2 ^ 64 := by
  obtain ⟨q2, h2, inv2, hpush, hr, tail2, room2, cap2, rm2, head2, cnt2, -, arr2⟩ :=
    Push_grow_spec q q1 data r hi (fun _ => hcap) hg hp
  have hnb := needOf_le data
  obtain ⟨l1, l2, l3, l4, l5⟩ := hl
  have hn := frame_length_pos d
  have hfl := frame_length data hd
  have hnd := frame_length_pos data
  have hrm : leftMarginIndex ≠ q.rightMarginIndex := by
    unfold leftMarginIndex; omega
  obtain ⟨j1, j2, j3, j4, j5, j6, j7, j8, j9⟩ := inv2
  obtain ⟨q3, h3, t3, len3, g3, hd3, c3, m3, n3, r3, f3, b3, v3⟩ :=
    push_fits q2 data data.length rfl j9 hd (by rw [hfl, tail2]; omega)
  rw [h3] at hpush
  obtain rfl : q3 = q1 := Option.some.inj hpush
  have htail : ∀ k, k < i + (frame d).length → k < q2.tail := by
    intro k hk
    rw [tail2]
    unfold growthTail
    split_ifs with c
    · omega
    · rw [if_pos (by omega : q.head < q.tail)] at l4
      omega
  have hkeep : ∀ k, i ≤ k → k < i + (frame d).length → q3.array[k]? = q.array[k]? := by
    intro k hk1 hk2
    have := htail k hk2
    rw [g3 k, if_neg (by omega)]
    apply arr2 hrm k (by omega)
    intro hgap
    by_cases c : q.head < q.tail
    · omega
    · rw [if_neg c] at l4
      omega
  have hhead1 : q2.head < q2.tail + (frame data).length := by
    have := htail i (by omega)
    rw [head2]
    split_ifs with c
    · unfold leftMarginIndex; omega
    · rw [tail2] at this ⊢
      unfold growthTail at this ⊢
      rw [if_neg c] at this ⊢
      have c2 : q.head < q.tail := by
        by_contra hc2
        exact c ⟨hrm, by omega⟩
      rw [if_pos c2] at l4
      omega
  refine ⟨⟨FrameAt_congr hkeep l1, l2, ?_, ?_, by omega⟩, by omega⟩
  · rw [r3, if_pos (by omega), ]
    have := htail (i + (frame d).length - 1) (by omega)
    omega
  · rw [hd3, t3, if_pos hhead1]
    have := htail (i + (frame d).length - 1) (by omega)
    refine ⟨?_, by omega⟩
    rw [head2]
    split_ifs with c
    · exact l2
    · have c2 : q.head < q.tail := by
        by_contra hc2
        exact c ⟨hrm, by omega⟩
      rw [if_pos c2] at l4
      exact l4.1

/-! ## Records stored one after the other -/

theorem framesLength_append (rs ps : List (List Nat)) :
    framesLength (rs ++ ps) = framesLength rs + framesLength ps := by
  induction rs with
  | nil => simp [framesLength]
  | cons r rest ih =>
    rw [List.cons_append]
    simp only [framesLength]
    rw [ih]
    omega

theorem framesLength_pos {rs : List (List Nat)} (h : rs ≠ []) : 1 ≤ framesLength rs := by
  cases rs with
  | nil => exact absurd rfl h
  | cons r rest =>
    have := frame_length_pos r
    simp only [framesLength]
    omega

theorem framesLength_le_sum (rs : List (List Nat)) (h : ∀ r ∈ rs, r.length < 2 ^ 32) :
    framesLength rs ≤ (rs.map fun r => r.length + 5).sum := by
  induction rs with
  | nil => simp [framesLength]
  | cons r rest ih =>
    have h1 := frame_length r (h r (List.mem_cons_self _ _))
    have h2 := needOf_le r
    have h3 := ih (fun x hx => h x (List.mem_cons_of_mem _ hx))
    simp only [framesLength, List.map_cons, List.sum_cons]
    omega

theorem FramesAt_congr {l1 l2 : List Nat} (rs : List (List Nat)) : ∀ (i : Nat),
    (∀ k, i ≤ k → k < i + framesLength rs → l2[k]? = l1[k]?) →
    FramesAt l1 i rs → FramesAt l2 i rs := by
  induction rs with
  | nil => intro i _ _; trivial
  | cons r rest ih =>
    intro i h hf
    simp only [FramesAt, framesLength] at hf h ⊢
    refine ⟨FrameAt_congr (fun k hk1 hk2 => h k hk1 (by omega)) hf.1, ?_⟩
    exact ih _ (fun k hk1 hk2 => h k (by omega) (by omega)) hf.2

theorem FramesAt_append {arr : List Nat} (rs : List (List Nat)) (p : List Nat) : ∀ (i : Nat),
    FramesAt arr i rs → FrameAt arr (i + framesLength rs) p → FramesAt arr i (rs ++ [p]) := by
  induction rs with
  | nil =>
    intro i _ hp
    simp only [framesLength, Nat.add_zero] at hp
    exact ⟨hp, trivial⟩
  | cons r rest ih =>
    intro i hf hp
    simp only [List.cons_append, FramesAt, framesLength] at hf hp ⊢
    refine ⟨hf.1, ih _ hf.2 ?_⟩
    rw [Nat.add_assoc]
    exact hp

/-! ## The linear layout under `Push` and `Pop` -/

theorem Linear_new (capacity maxCapacity : Nat) (verbose : Bool) (h : 0 < capacity) :
    Linear (NewBytesQueue capacity maxCapacity verbose) 1 [] := by
  refine ⟨Inv_new _ _ _ h, rfl, le_refl _, rfl, rfl, rfl, rfl, trivial, ?_, fun _ => rfl⟩
  intro r hr
  cases hr

/-- A record written at the tail of a linear layout whose head is at offset one. -/
theorem Linear_push (q : BytesQueue) (rs : List (List Nat)) (p : List Nat)
    (hl : Linear q 1 rs) (hp : p.length < 2 ^ 32)
    (hroom : q.tail + (frame p).length ≤ q.capacity) :
    ∃ q1, q.push p p.length = some q1 ∧ Linear q1 1 (rs ++ [p]) ∧
      q1.capacity = q.capacity ∧ q1.maxCapacity = q.maxCapacity := by
  obtain ⟨hi, l2, l3, l4, l5, l6, l7, l8, l9, l10⟩ := hl
  have hi' := hi
  obtain ⟨i1, i2, i3, i4, i5, i6, i7, i8, i9⟩ := hi
  obtain ⟨q1, h1, t1, len1, g1, hd1, c1, m1, n1, r1, f1, b1, v1⟩ :=
    push_fits q p p.length rfl i9 hp (by omega)
  have hpos := frame_length_pos p
  refine ⟨q1, h1, ?_, c1, m1⟩
  refine ⟨Inv_push hi' h1, by omega, le_refl _, ?_, ?_, ?_, ?_, ?_, ?_, ?_⟩
  · rw [t1, l4, framesLength_append]
    simp only [framesLength]
    omega
  · rw [r1, if_pos (by omega), t1]
  · rw [f1, if_neg (by omega), l6]
  · rw [n1, l7]
    simp
  · apply FramesAt_append
    · apply FramesAt_congr rs 1 _ l8
      intro k hk1 hk2
      rw [g1 k, if_neg (by omega)]
    · apply FrameAt_of_get
      intro k hk1 hk2
      rw [g1 k, if_pos ⟨by omega, by omega⟩]
      congr 1
      omega
  · intro r hr
    rcases List.mem_append.1 hr with h | h
    · exact l9 r h
    · simp only [List.mem_singleton] at h
      rw [h]; exact hp
  · intro h
    simp at h

theorem canInsertBeforeHead_at_start (q : BytesQueue) (need : Nat) (hh : q.head = 1)
    (ht : 1 ≤ q.tail) (hn : 1 ≤ need) : q.canInsertBeforeHead need = false := by
  unfold BytesQueue.canInsertBeforeHead
  by_cases cf : q.full = true
  · rw [if_pos cf]
  · rw [if_neg cf, if_pos (by omega), hh]
    have : sub64 1 leftMarginIndex = 0 := by decide
    rw [this, decide_eq_false_iff_not]
    unfold minimumHeaderSize
    omega

theorem needOf_pos (data : List Nat) : 1 ≤ needOf data := by
  unfold needOf
  have := getUvarintSize_bounds (toUint32 data.length)
  omega

/-- `Push` on a linear layout with the head at offset one and no ceiling: the record is
appended, and the capacity is unchanged or at most four times the stored bytes. -/
theorem Linear_Push (q : BytesQueue) (rs : List (List Nat)) (p : List Nat)
    (hl : Linear q 1 rs) (hm : q.maxCapacity = 0) (hp : p.length < 2 ^ 32)
    (hcap : q.capacity < 2 ^ 64) :
    ∃ q1, q.Push p = some (((q.tail : Int), none), q1) ∧ Linear q1 1 (rs ++ [p]) ∧
      q1.maxCapacity = 0 ∧
      (q1.capacity = q.capacity ∨ q1.capacity ≤ 4 * (1 + framesLength (rs ++ [p]))) := by
  have hfl := frame_length p hp
  have hi := hl.inv
  rcases Push_cases q p with ⟨c, e⟩ | ⟨_, c, _⟩ | ⟨_, _, c, _⟩ | ⟨hg, e⟩
  · have hroom := afterTail_room hi hcap c
    obtain ⟨q1, h1, l1, c1, m1⟩ := Linear_push q rs p hl hp (by omega)
    refine ⟨q1, ?_, l1, by omega, Or.inl c1⟩
    rw [e]
    unfold BytesQueue.pushAtTail
    rw [h1]
    rfl
  · rw [canInsertBeforeHead_at_start q _ hl.head_eq hi.tail_pos (needOf_pos p)] at c
    cases c
  · omega
  · have hguard := growsOnPush_guard hg
    have hge := grownCapacity_ge q (needOf p) hguard.2.2
    have hle := grownCapacity_le q (needOf p)
    obtain ⟨hi0, l2, l3, l4, l5, l6, l7, l8, l9, l10⟩ := hl
    obtain ⟨i1, i2, i3, i4, i5, i6, i7, i8, i9⟩ := hi
    obtain ⟨q2, h2, inv2, cap2, max2, full2, rm2, tail2, head2, cnt2, arr2⟩ :=
      allocate_spec q (needOf p) hi0 hge.1 (fun h => by omega)
    have htail : growthTail q = q.tail := by
      unfold growthTail
      split_ifs
      · exact l5
      · rfl
    have hlin2 : Linear q2 1 rs := by
      refine ⟨inv2, ?_, le_refl _, by rw [tail2, htail, l4], by rw [rm2, tail2, htail, l5],
        full2, ?_, ?_, l9, fun _ => rfl⟩
      · rw [head2]
        split_ifs
        · rfl
        · exact l2
      · rw [cnt2, if_neg (by omega), l7]
        simp
      · by_cases hrm : leftMarginIndex ≠ q.rightMarginIndex
        · apply FramesAt_congr rs 1 _ l8
          intro k hk1 hk2
          exact arr2 hrm k (by omega) (by omega)
        · have hrs : rs = [] := by
            by_contra hne
            have := framesLength_pos hne
            unfold leftMarginIndex at hrm
            omega
          rw [hrs]
          trivial
    obtain ⟨q1, h1, l1, c1, m1⟩ := Linear_push q2 rs p hlin2 hp
      (by rw [tail2, htail, cap2]; omega)
    have hfails : q.capacity < q.tail + needOf p := by
      have hc := hguard.1
      unfold BytesQueue.canInsertAfterTail at hc
      rw [l6] at hc
      simp only [Bool.false_eq_true, if_false] at hc
      rw [if_pos (by omega), decide_eq_false_iff_not, sub64_eq _ _ i5 hcap] at hc
      omega
    refine ⟨q1, ?_, l1, by omega, Or.inr ?_⟩
    · rw [e, h2]
      simp only [Option.some_bind]
      unfold BytesQueue.pushAtTail
      rw [h1, tail2, htail]
      rfl
    · rw [c1, cap2, framesLength_append]
      simp only [framesLength]
      omega

/-- `Pop` on a linear layout returns the oldest payload and leaves a linear layout of the
remaining ones. -/
theorem Linear_Pop (q : BytesQueue) (h : Nat) (r : List Nat) (rest : List (List Nat))
    (hl : Linear q h (r :: rest)) (hlen : q.array.length < 2 ^ 64) :
    ∃ q1 h1, q.Pop = some ((r, none), q1) ∧ Linear q1 h1 rest ∧ q1.array = q.array := by
  obtain ⟨hi, l2, l3, l4, l5, l6, l7, l8, l9, l10⟩ := hl
  have hi0 := hi
  obtain ⟨i1, i2, i3, i4, i5, i6, i7, i8, i9⟩ := hi
  simp only [FramesAt, framesLength] at l8 l4
  have hr := l9 r (List.mem_cons_self _ _)
  have hfl : (frame r).length = getUvarintSize r.length + r.length := by
    unfold frame
    rw [List.length_append, putUvarintBytes_length _ hr]
  have hcnt : q.count = (rest.length : Int) + 1 := by
    rw [l7]
    simp
  have hpeek := peek_frame q h r l8.1 hr (by omega) l3 hlen
  have hb := FrameAt_bound l8.1
  unfold BytesQueue.Pop
  rw [l2, hpeek]
  dsimp only
  have e1 : (h + getUvarintSize r.length + r.length) % 2 ^ 64 = h + (frame r).length := by
    rw [Nat.mod_eq_of_lt (by omega)]
    omega
  rw [e1]
  by_cases hrest : rest = []
  · subst hrest
    simp only [framesLength, Nat.add_zero] at l4
    rw [if_pos (by rw [l5, l4]), if_pos l5.symm]
    refine ⟨_, 1, rfl, ?_, rfl⟩
    refine ⟨?_, rfl, le_refl _, rfl, rfl, rfl, ?_, trivial, ?_, fun _ => rfl⟩
    · constructor <;> dsimp only [leftMarginIndex] <;> omega
    · dsimp only
      rw [hcnt]
      simp
    · intro x hx
      cases hx
  · have hpos := framesLength_pos hrest
    rw [if_neg (by rw [l5, l4]; omega)]
    refine ⟨_, h + (frame r).length, rfl, ?_, rfl⟩
    refine ⟨?_, rfl, by omega, ?_, l5, rfl, ?_, l8.2, ?_, fun hc => absurd hc hrest⟩
    · constructor <;> dsimp only <;> omega
    · dsimp only
      omega
    · dsimp only
      rw [hcnt]
      simp
    · intro x hx
      exact l9 x (List.mem_cons_of_mem _ hx)

/-! ## Pushes followed by pops -/

theorem runOps_append (ops1 ops2 : List Op) : ∀ (q q1 q2 : BytesQueue) (rs1 rs2 : List Reply),
    runOps q ops1 = some (rs1, q1) → runOps q1 ops2 = some (rs2, q2) →
    runOps q (ops1 ++ ops2) = some (rs1 ++ rs2, q2) := by
  induction ops1 with
  | nil =>
    intro q q1 q2 rs1 rs2 h1 h2
    simp only [runOps] at h1
    cases h1
    simpa using h2
  | cons op ops ih =>
    intro q q1 q2 rs1 rs2 h1 h2
    simp only [runOps, List.cons_append] at h1 ⊢
    cases hc : callOp q op with
    | none => rw [hc] at h1; cases h1
    | some x =>
      obtain ⟨r, q3⟩ := x
      rw [hc] at h1
      simp only [Option.map_eq_some'] at h1 ⊢
      obtain ⟨⟨rs3, q4⟩, h3, h4⟩ := h1
      cases h4
      exact ⟨(rs3 ++ rs2, q2), ih q3 q4 q2 rs3 rs2 h3 h2, rfl⟩

theorem Linear_pushes (ps : List (List Nat)) : ∀ (q : BytesQueue) (rs : List (List Nat)),
    Linear q 1 rs → q.maxCapacity = 0 → (∀ p ∈ ps, p.length < 2 ^ 32) →
    q.capacity < 2 ^ 64 → 4 * (1 + framesLength (rs ++ ps)) < 2 ^ 64 →
    ∃ (idxs : List Int) (q1 : BytesQueue), idxs.length = ps.length ∧
      runOps q (ps.map Op.push) = some (idxs.map (fun i => Reply.index i none), q1) ∧
      Linear q1 1 (rs ++ ps) ∧ q1.capacity < 2 ^ 64 := by
  induction ps with
  | nil =>
    intro q rs hl _ _ hcap _
    refine ⟨[], q, rfl, rfl, ?_, hcap⟩
    rw [List.append_nil]
    exact hl
  | cons p ps ih =>
    intro q rs hl hm hps hcap hb
    have hp := hps p (List.mem_cons_self _ _)
    obtain ⟨q1, h1, l1, m1, c1⟩ := Linear_Push q rs p hl hm hp hcap
    have e : rs ++ p :: ps = (rs ++ [p]) ++ ps := by simp
    rw [e] at hb ⊢
    have hb1 : framesLength (rs ++ [p]) ≤ framesLength (rs ++ [p] ++ ps) := by
      rw [framesLength_append (rs ++ [p]) ps]
      omega
    obtain ⟨idxs, q2, hlen, hrun, l2, c2⟩ := ih q1 (rs ++ [p]) l1 m1
      (fun x hx => hps x (List.mem_cons_of_mem _ hx)) (by omega) hb
    refine ⟨(q.tail : Int) :: idxs, q2, by simp [hlen], ?_, l2, c2⟩
    simp only [List.map_cons, runOps, callOp, h1, Option.map_some', hrun]

theorem Linear_pops (rs : List (List Nat)) : ∀ (q : BytesQueue) (h : Nat),
    Linear q h rs → q.array.length < 2 ^ 64 →
    ∃ q1, runOps q (List.replicate rs.length Op.pop) =
      some (rs.map (fun r => Reply.bytes r none), q1) := by
  induction rs with
  | nil =>
    intro q h _ _
    exact ⟨q, rfl⟩
  | cons r rest ih =>
    intro q h hl hlen
    obtain ⟨q1, h1, hpop, l1, harr⟩ := Linear_Pop q h r rest hl hlen
    obtain ⟨q2, hrun⟩ := ih q1 h1 l1 (by rw [harr]; exact hlen)
    refine ⟨q2, ?_⟩
    simp only [List.length_cons, List.replicate_succ, List.map_cons, runOps, callOp, hpop,
      Option.map_some', hrun]

/-- Pushes of `ps` on a fresh queue without ceiling, then as many pops, return the
payloads in the order they were pushed. -/
theorem pushes_then_pops (capacity : Nat) (verbose : Bool) (ps : List (List Nat))
    (hc : 0 < capacity) (hps : ∀ p ∈ ps, p.length < 2 ^ 32) (hcap : capacity < 2 ^ 64)
    (hsize : 4 * (1 + (ps.map fun p => p.length + 5).sum) < 2 ^ 64) :
    ∃ (idxs : List Int) (q : BytesQueue), idxs.length = ps.length ∧
      runOps (NewBytesQueue capacity 0 verbose)
          (ps.map Op.push ++ List.replicate ps.length Op.pop) =
        some (idxs.map (fun i => Reply.index i none) ++ ps.map (fun p => Reply.bytes p none),
          q) := by
  have hfl := framesLength_le_sum ps hps
  obtain ⟨idxs, q1, hlen, hrun, l1, c1⟩ := Linear_pushes ps (NewBytesQueue capacity 0 verbose) []
    (Linear_new capacity 0 verbose hc) rfl hps hcap (by rw [List.nil_append]; omega)
  rw [List.nil_append] at l1
  obtain ⟨q2, hpops⟩ := Linear_pops ps q1 1 l1 (by rw [← l1.inv.cap_len]; exact c1)
  exact ⟨idxs, q2, hlen, runOps_append _ _ _ _ _ _ _ hrun hpops⟩

/-- C2: on a freshly constructed queue (capacity above zero, no ceiling) and for every
list of byte sequences, each shorter than `2^32` bytes and empty ones included, the pushes
of the list followed by as many pops return the sequences in the order of the pushes,
every call with a nil error, whatever number of growths the pushes trigger. -/
theorem fifo_order (capacity : Nat) (verbose : Bool) (ps : List (List Nat))
    (hc : 0 < capacity) (hps : ∀ p ∈ ps, p.length < 2 ^ 32) (hcap : capacity < 2 ^ 64)
    (hsize : 4 * (1 + (ps.map fun p => p.length + 5).sum) < 2 ^ 64) :
    ∃ (idxs : List Int) (q : BytesQueue), idxs.length = ps.length ∧
      runOps (NewBytesQueue capacity 0 verbose)
          (ps.map Op.push ++ List.replicate ps.length Op.pop) =
        some (idxs.map (fun i => Reply.index i none) ++ ps.map (fun p => Reply.bytes p none),
          q) :=
  pushes_then_pops capacity verbose ps hc hps hcap hsize

/-- Sequences of calls that returned lead to reachable states. -/
theorem Reachable_runOps {capacity maxCapacity : Nat} {verbose : Bool} (ops : List Op) :
    ∀ (q q1 : BytesQueue) (rs : List Reply), Reachable capacity maxCapacity verbose q →
    (∀ op ∈ ops, op.sized = true) → runOps q ops = some (rs, q1) →
    Reachable capacity maxCapacity verbose q1 := by
  induction ops with
  | nil =>
    intro q q1 rs hr _ h
    simp only [runOps] at h
    cases h
    exact hr
  | cons op ops ih =>
    intro q q1 rs hr hs h
    simp only [runOps] at h
    cases hc : callOp q op with
    | none => rw [hc] at h; cases h
    | some x =>
      obtain ⟨r, q3⟩ := x
      rw [hc] at h
      simp only [Option.map_eq_some'] at h
      obtain ⟨⟨rs3, q4⟩, h3, h4⟩ := h
      cases h4
      exact ih q3 q4 rs3 (Reachable.step hr (hs op (List.mem_cons_self _ _)) hc)
        (fun x hx => hs x (List.mem_cons_of_mem _ hx)) h3

/-! ## The example states are reachable -/

theorem wrappedState_reachable : Reachable 21 0 false wrappedState :=
  Reachable_runOps wrapTrace (NewBytesQueue 21 0 false) wrappedState
    [Reply.index 1 none, Reply.index 19 none, Reply.bytes (List.replicate 17 7) none,
      Reply.index 1 none]
    Reachable.init (by decide) (by decide)

theorem poppedState_reachable : Reachable 10 0 false poppedState :=
  Reachable_runOps [Op.push [1, 2, 3], Op.push [4, 5, 6], Op.pop] (NewBytesQueue 10 0 false)
    poppedState [Reply.index 1 none, Reply.index 5 none, Reply.bytes [1, 2, 3] none]
    Reachable.init (by decide) (by decide)

theorem boundedState_reachable : Reachable 4 10 false boundedState :=
  Reachable_runOps [Op.push [1, 2], Op.push [3]] (NewBytesQueue 4 10 false) boundedState
    [Reply.index 1 none, Reply.index 4 none] Reachable.init (by decide) (by decide)

/-- C2 (witness): three pushes, one of an empty sequence, with two growths of a buffer
of four bytes, then three pops. -/
theorem fifo_order_witness :
    ∃ (idxs : List Int) (q : BytesQueue), idxs.length = [[1, 2, 3], [], [4, 5]].length ∧
      runOps (NewBytesQueue 4 0 false)
          ([[1, 2, 3], [], [4, 5]].map Op.push ++
            List.replicate [[1, 2, 3], [], [4, 5]].length Op.pop) =
        some (idxs.map (fun i => Reply.index i none) ++
          [[1, 2, 3], [], [4, 5]].map (fun p => Reply.bytes p none), q) :=
  fifo_order 4 false [[1, 2, 3], [], [4, 5]] (by decide) (by decide) (by decide) (by decide)

/-- C8 (witness): the bounded queue after a growth from 4 to 8 bytes under a ceiling of
10 bytes. -/
theorem capacity_ceiling_witness :
    boundedState.Capacity ≤ ((10 : Nat) : Int) ∧
      boundedState.Capacity = (boundedState.array.length : Int) :=
  capacity_ceiling 4 10 false boundedState (by decide) (by decide) boundedState_reachable

/-- C9 (witness): a push on the wrapped state, which has to grow the buffer. -/
theorem unbounded_push_succeeds_witness :
    ∃ i q1, wrappedState.Push [] = some ((i, none), q1) ∧ 1 ≤ i ∧
      wrappedState.Len + 1 ≤ q1.Len :=
  unbounded_push_succeeds 21 false wrappedState [] (by decide) wrappedState_reachable
    (by decide) (by decide)

/-! ## Validation of an index -/

theorem toUint64_zero : toUint64 0 = 0 := by decide

theorem toUint64_of_nonneg (index : Int) (h0 : 0 ≤ index) (h1 : index < 2 ^ 64) :
    toUint64 index = index.toNat := by
  unfold toUint64
  rw [Int.emod_eq_of_lt h0 h1]

theorem Get_of_check {q : BytesQueue} {index : Int} {e : QueueError}
    (h : q.peekCheckErr (toUint64 index) = some e) : q.Get index = some (([], some e), q) := by
  unfold BytesQueue.Get
  rw [peek_err h]
  rfl

theorem peekCheckErr_zero (q : BytesQueue) (h : q.count ≠ 0) :
    q.peekCheckErr 0 = some QueueError.ErrInvalidIndex := by
  unfold BytesQueue.peekCheckErr
  rw [if_neg h, if_pos (le_refl _)]

/-- C11 (as amended): on every queue whose `Len()` is not zero, `Get(0)` and
`CheckGet(0)` return `ErrInvalidIndex`. -/
theorem zero_index_is_invalid (q : BytesQueue) (h : q.Len ≠ 0) :
    q.Get 0 = some (([], some QueueError.ErrInvalidIndex), q) ∧
      q.CheckGet 0 = some (some QueueError.ErrInvalidIndex, q) := by
  unfold BytesQueue.Len at h
  have hc : q.peekCheckErr (toUint64 0) = some QueueError.ErrInvalidIndex := by
    rw [toUint64_zero]
    exact peekCheckErr_zero q h
  refine ⟨Get_of_check hc, ?_⟩
  unfold BytesQueue.CheckGet
  rw [hc]

/-- C11 (witness): index zero on a queue holding one record. -/
theorem zero_index_is_invalid_witness :
    poppedState.Len ≠ 0 ∧
      poppedState.Get 0 = some (([], some QueueError.ErrInvalidIndex), poppedState) ∧
      poppedState.CheckGet 0 = some (some QueueError.ErrInvalidIndex, poppedState) :=
  ⟨by decide, zero_index_is_invalid poppedState (by decide)⟩

/-- C11 (counterexample): on a freshly constructed queue `Get(0)` and `CheckGet(0)`
return `ErrEmptyQueue`, the emptiness test coming first. -/
theorem zero_index_on_fresh_queue_is_empty_error :
    (NewBytesQueue 8 0 false).Get 0 =
        some (([], some QueueError.ErrEmptyQueue), NewBytesQueue 8 0 false) ∧
      (NewBytesQueue 8 0 false).CheckGet 0 =
        some (some QueueError.ErrEmptyQueue, NewBytesQueue 8 0 false) := by
  decide

/-- C12 (as amended): on every queue whose `Len()` is not zero and whose capacity is the
length of its array and above zero, `Get(index)` and `CheckGet(index)` return
`ErrIndexOutOfBounds` for every `int` index at or beyond `Capacity()`. -/
theorem index_beyond_capacity_is_out_of_bounds (q : BytesQueue) (index : Int)
    (h : q.Len ≠ 0) (hcap : q.capacity = q.array.length) (hpos : 0 < q.capacity)
    (hi : q.Capacity ≤ index) (hint : index < 2 ^ 63) :
    q.Get index = some (([], some QueueError.ErrIndexOutOfBounds), q) ∧
      q.CheckGet index = some (some QueueError.ErrIndexOutOfBounds, q) := by
  unfold BytesQueue.Len at h
  unfold BytesQueue.Capacity at hi
  have h0 : 0 ≤ index := le_trans (Int.natCast_nonneg _) hi
  have hu := toUint64_of_nonneg index h0 (by omega)
  have hc : q.peekCheckErr (toUint64 index) = some QueueError.ErrIndexOutOfBounds := by
    unfold BytesQueue.peekCheckErr
    rw [hu, if_neg h, if_neg (by omega), if_pos (by omega)]
  refine ⟨Get_of_check hc, ?_⟩
  unfold BytesQueue.CheckGet
  rw [hc]

/-- C12 (witness): the index equal to the capacity on a queue holding one record. -/
theorem index_beyond_capacity_is_out_of_bounds_witness :
    poppedState.Get 10 = some (([], some QueueError.ErrIndexOutOfBounds), poppedState) ∧
      poppedState.CheckGet 10 = some (some QueueError.ErrIndexOutOfBounds, poppedState) :=
  index_beyond_capacity_is_out_of_bounds poppedState 10 (by decide) (by decide) (by decide)
    (by decide) (by decide)

/-- C12 (counterexample): on a freshly constructed queue of capacity 8, `Get(8)` and
`CheckGet(8)` return `ErrEmptyQueue`. -/
theorem capacity_index_on_fresh_queue_is_empty_error :
    (NewBytesQueue 8 0 false).Capacity = 8 ∧
      (NewBytesQueue 8 0 false).Get 8 =
        some (([], some QueueError.ErrEmptyQueue), NewBytesQueue 8 0 false) ∧
      (NewBytesQueue 8 0 false).CheckGet 8 =
        some (some QueueError.ErrEmptyQueue, NewBytesQueue 8 0 false) := by
  decide

/-! ## `CheckGet` against `Get`, `Peek` against `Pop` -/

theorem peek_none_error {q : BytesQueue} {index : Nat} (hc : q.peekCheckErr index = none) :
    q.peek index = none ∨ ∃ lo hi, lo ≤ hi ∧ hi ≤ q.array.length ∧
      q.peek index = some ((q.array.drop lo).take (hi - lo),
        toUint64 (Uvarint (q.array.drop index)).2, none) := by
  unfold BytesQueue.peek
  rw [hc]
  dsimp only
  split_ifs with h
  · right
    exact ⟨_, _, h.1, h.2, rfl⟩
  · left
    rfl

/-- `Get` against `peekCheckErr`: the same error, and with no error a fault or data. -/
theorem Get_against_check (q : BytesQueue) (index : Int) :
    (∀ e, q.CheckGet index = some (some e, q) → q.Get index = some (([], some e), q)) ∧
    (q.CheckGet index = some (none, q) →
      q.Get index = none ∨ ∃ d, q.Get index = some ((d, none), q)) ∧
    (∀ d err q1, q.Get index = some ((d, err), q1) →
      q.CheckGet index = some (err, q) ∧ q1 = q) := by
  unfold BytesQueue.CheckGet
  refine ⟨?_, ?_, ?_⟩
  · intro e h
    have hc : q.peekCheckErr (toUint64 index) = some e := by
      have := Option.some.inj h
      exact congrArg Prod.fst this
    exact Get_of_check hc
  · intro h
    have hc : q.peekCheckErr (toUint64 index) = none := by
      have := Option.some.inj h
      exact congrArg Prod.fst this
    rcases peek_none_error hc with hp | ⟨lo, hi, _, _, hp⟩
    · left
      unfold BytesQueue.Get
      rw [hp]
      rfl
    · right
      refine ⟨(q.array.drop lo).take (hi - lo), ?_⟩
      unfold BytesQueue.Get
      rw [hp]
      rfl
  · intro d err q1 h
    unfold BytesQueue.Get at h
    simp only [Option.map_eq_some'] at h
    obtain ⟨r, hp, hr⟩ := h
    have he := peek_err_iff hp
    cases hr
    exact ⟨by rw [he], rfl⟩

/-- C13 (as amended): when `CheckGet(index)` returns an error, `Get(index)` returns the
same error; when `CheckGet(index)` returns nil, `Get(index)` returns a byte slice with a
nil error or faults; and whenever `Get(index)` returns, `CheckGet(index)` returns the
error `Get` returned and the queue is unchanged. -/
theorem checkGet_agrees_with_returning_get (q : BytesQueue) (index : Int) :
    (∀ e, q.CheckGet index = some (some e, q) → q.Get index = some (([], some e), q)) ∧
    (q.CheckGet index = some (none, q) →
      q.Get index = none ∨ ∃ d, q.Get index = some ((d, none), q)) ∧
    (∀ d err q1, q.Get index = some ((d, err), q1) →
      q.CheckGet index = some (err, q) ∧ q1 = q) :=
  Get_against_check q index

/-- C13 (witness): index zero (an error) and index five (a stored record) on a queue
holding one record. -/
theorem checkGet_agrees_with_returning_get_witness :
    poppedState.Get 0 = some (([], some QueueError.ErrInvalidIndex), poppedState) ∧
      (poppedState.Get 5 = none ∨ ∃ d, poppedState.Get 5 = some ((d, none), poppedState)) ∧
      (poppedState.CheckGet 5 = some (none, poppedState) ∧ poppedState = poppedState) :=
  ⟨(checkGet_agrees_with_returning_get poppedState 0).1 QueueError.ErrInvalidIndex (by decide),
   (checkGet_agrees_with_returning_get poppedState 5).2.1 (by decide),
   (checkGet_agrees_with_returning_get poppedState 5).2.2 [4, 5, 6] none poppedState
     (by decide)⟩

/-- C13 (counterexample): after the push of the record `[200]`, `CheckGet(2)` returns nil
while `Get(2)` faults: the byte 200 read as a header announces 72 bytes. -/
theorem checkGet_nil_while_get_faults :
    (runOps (NewBytesQueue 10 0 false) [Op.push [200], Op.checkGet 2]).map (fun r => r.1) =
        some [Reply.index 1 none, Reply.check none] ∧
      runOps (NewBytesQueue 10 0 false) [Op.push [200], Op.get 2] = none := by
  decide

theorem peek_error_data {q : BytesQueue} {index n : Nat} {d : List Nat} {e : QueueError}
    (h : q.peek index = some (d, n, some e)) : d = [] := by
  have he := peek_err_iff h
  dsimp only at he
  rw [peek_err he.symm] at h
  have := Option.some.inj h
  exact (congrArg Prod.fst this).symm

/-- `Peek` returns what `Pop` returns and hands the queue back as it was. -/
theorem Peek_eq_Pop (q : BytesQueue) : q.Peek = q.Pop.map (fun r => (r.1, q)) := by
  unfold BytesQueue.Peek BytesQueue.Pop
  cases hp : q.peek q.head with
  | none => rfl
  | some r =>
    obtain ⟨d, n, err⟩ := r
    cases err with
    | none => rfl
    | some e =>
      have := peek_error_data hp
      subst this
      rfl

/-- C14: in every queue state `Peek()` returns the pair of bytes and error that `Pop()`
returns from that state (and faults when `Pop()` faults), and the queue after `Peek()` is
the queue before it. -/
theorem peek_is_nondestructive_pop (q : BytesQueue) :
    q.Peek = q.Pop.map (fun r => (r.1, q)) :=
  Peek_eq_Pop q

/-- C15 (as amended): on every queue with `Len()` above zero and every index from one up
to `Capacity()`, `Get(index)` returns no error: it returns, with a nil error, a slice
lying inside the backing array, or it faults. -/
theorem get_returns_inside_or_faults (q : BytesQueue) (index : Nat) (h : 0 < q.Len)
    (hcap : q.capacity = q.array.length) (hsize : q.capacity < 2 ^ 63) (h1 : 1 ≤ index)
    (h2 : index < q.capacity) :
    q.Get (index : Int) = none ∨ ∃ lo hi, lo ≤ hi ∧ hi ≤ q.array.length ∧
      q.Get (index : Int) = some (((q.array.drop lo).take (hi - lo), none), q) := by
  unfold BytesQueue.Len at h
  have hc : q.peekCheckErr index = none := by
    unfold BytesQueue.peekCheckErr
    rw [if_neg (by omega), if_neg (by omega), if_neg (by omega)]
  unfold BytesQueue.Get
  rw [toUint64_natCast _ (by omega)]
  rcases peek_none_error hc with hp | ⟨lo, hi, hlo, hhi, hp⟩
  · left
    rw [hp]
    rfl
  · right
    refine ⟨lo, hi, hlo, hhi, ?_⟩
    rw [hp]
    rfl

/-- C15 (witness): the index of the stored record of the one-record queue. -/
theorem get_returns_inside_or_faults_witness :
    nineState.Get ((1 : Nat) : Int) = none ∨ ∃ lo hi, lo ≤ hi ∧ hi ≤ nineState.array.length ∧
      nineState.Get ((1 : Nat) : Int) =
        some (((nineState.array.drop lo).take (hi - lo), none), nineState) :=
  get_returns_inside_or_faults nineState 1 (by decide) (by decide) (by decide) (by decide)
    (by decide)

/-- C15 (counterexample): on the queue holding the record `[9]` in four bytes, `Get(2)`
reads the payload byte 9 as a header and faults on the slice `[3:12]`; it returns neither
an error nor a slice. -/
theorem get_overrunning_length_faults :
    0 < nineState.Len ∧ (2 : Int) < nineState.Capacity ∧ nineState.Get 2 = none := by
  decide

/-! ## The codec claims -/

theorem PutUvarint_width (buf : List Nat) (x : Nat) (hx : x < 2 ^ 32)
    (hbuf : maxVarintLen32 ≤ buf.length) :
    PutUvarint buf x =
      some (putUvarintBytes x ++ buf.drop (getUvarintSize x), getUvarintSize x) := by
  have hl := putUvarintBytes_length x hx
  have hs := getUvarintSize_bounds x
  unfold PutUvarint
  dsimp only
  have : maxVarintLen32 = 5 := rfl
  rw [if_pos (by omega), hl]

/-- Width of the header against the bytes `binary.PutUvarint` writes. -/
theorem getUvarintSize_spec (x : Nat) (hx : x < 2 ^ 32) :
    (putUvarintBytes x).length = getUvarintSize x ∧
    (∀ buf : List Nat, maxVarintLen32 ≤ buf.length →
      ∃ buf1, PutUvarint buf x = some (buf1, getUvarintSize x)) ∧
    getUvarintSize x =
      (if x < 128 then 1 else if x < 16384 then 2 else if x < 2 ^ 21 then 3
        else if x < 2 ^ 28 then 4 else 5) ∧
    (∀ data : List Nat, data.length = x →
      getUvarintSize (toUint32 data.length) = (putUvarintBytes data.length).length) := by
  refine ⟨putUvarintBytes_length x hx, ?_, ?_, ?_⟩
  · intro buf hbuf
    exact ⟨_, PutUvarint_width buf x hx hbuf⟩
  · unfold getUvarintSize
    norm_num
  · intro data hd
    rw [hd, putUvarintBytes_length x hx]
    unfold toUint32
    rw [Nat.mod_eq_of_lt hx]

/-- C16: for every 32-bit `x`, `getUvarintSize(x)` is the number of bytes
`binary.PutUvarint` writes for `x` (and returns as its count), namely 1 below 128, 2 below
16384, 3 below `2^21`, 4 below `2^28` and 5 otherwise; hence for data of that length the
header width `Push` reserves equals the width `push` writes. -/
theorem header_width_matches_encoding (x : Nat) (hx : x < 2 ^ 32) :
    (putUvarintBytes x).length = getUvarintSize x ∧
    (∀ buf : List Nat, maxVarintLen32 ≤ buf.length →
      ∃ buf1, PutUvarint buf x = some (buf1, getUvarintSize x)) ∧
    getUvarintSize x =
      (if x < 128 then 1 else if x < 16384 then 2 else if x < 2 ^ 21 then 3
        else if x < 2 ^ 28 then 4 else 5) ∧
    (∀ data : List Nat, data.length = x →
      getUvarintSize (toUint32 data.length) = (putUvarintBytes data.length).length) :=
  getUvarintSize_spec x hx

/-- C16 (witness): the length 300, encoded in two bytes. -/
theorem header_width_matches_encoding_witness :
    (putUvarintBytes 300).length = getUvarintSize 300 ∧
    (∀ buf : List Nat, maxVarintLen32 ≤ buf.length →
      ∃ buf1, PutUvarint buf 300 = some (buf1, getUvarintSize 300)) ∧
    getUvarintSize 300 =
      (if 300 < 128 then 1 else if 300 < 16384 then 2 else if 300 < 2 ^ 21 then 3
        else if 300 < 2 ^ 28 then 4 else 5) ∧
    (∀ data : List Nat, data.length = 300 →
      getUvarintSize (toUint32 data.length) = (putUvarintBytes data.length).length) :=
  header_width_matches_encoding 300 (by decide)

/-- Decoding what `binary.PutUvarint` wrote into the header buffer. -/
theorem codec_spec (v : Nat) (buf rest : List Nat) (hv : v < 2 ^ 32)
    (hbuf : buf.length = maxVarintLen32) :
    ∃ buf1 n, PutUvarint buf v = some (buf1, n) ∧ n = getUvarintSize v ∧
      Uvarint (buf1.take n ++ rest) = (v, (getUvarintSize v : Int)) := by
  refine ⟨_, _, PutUvarint_width buf v hv (by omega), rfl, ?_⟩
  have ht : List.take (getUvarintSize v) (putUvarintBytes v ++ buf.drop (getUvarintSize v)) =
      putUvarintBytes v :=
    List.take_left' (putUvarintBytes_length v hv)
  rw [ht]
  exact Uvarint_putUvarintBytes v rest hv

/-- C17: for every length `v` below `2^32`, `binary.Uvarint` applied to the header that
`push` writes for `v` with `binary.PutUvarint`, followed by any bytes, returns `v` and a
count of consumed bytes equal to `getUvarintSize(v)`; the lengths 0, 1, 127, 128, 16383,
16384, 2097151 and 2097152 decode to themselves with the widths 1, 1, 1, 2, 2, 3, 3
and 4. -/
theorem codec_round_trip (v : Nat) (buf rest : List Nat) (hv : v < 2 ^ 32)
    (hbuf : buf.length = maxVarintLen32) :
    (∃ buf1 n, PutUvarint buf v = some (buf1, n) ∧ n = getUvarintSize v ∧
      Uvarint (buf1.take n ++ rest) = (v, (getUvarintSize v : Int))) ∧
    [0, 1, 127, 128, 16383, 16384, 2097151, 2097152].map
        (fun w => Uvarint (putUvarintBytes w)) =
      [(0, 1), (1, 1), (127, 1), (128, 2), (16383, 2), (16384, 3), (2097151, 3),
        (2097152, 4)] :=
  ⟨codec_spec v buf rest hv hbuf, by decide⟩

/-- C17 (witness): the length 300 written into the header buffer of a new queue and
decoded in front of two payload bytes. -/
theorem codec_round_trip_witness :
    (∃ buf1 n, PutUvarint [0, 0, 0, 0, 0] 300 = some (buf1, n) ∧ n = getUvarintSize 300 ∧
      Uvarint (buf1.take n ++ [1, 2]) = (300, (getUvarintSize 300 : Int))) ∧
    [0, 1, 127, 128, 16383, 16384, 2097151, 2097152].map
        (fun w => Uvarint (putUvarintBytes w)) =
      [(0, 1), (1, 1), (127, 1), (128, 2), (16383, 2), (16384, 3), (2097151, 3),
        (2097152, 4)] :=
  codec_round_trip 300 [0, 0, 0, 0, 0] [1, 2] (by decide) (by decide)

/-! ## Reset -/

theorem allocate_tail_at_start {q q1 : BytesQueue} {minimum : Nat}
    (hrm : q.rightMarginIndex = 1) (h : q.allocateAdditionalMemory minimum = some q1) :
    q1.tail = q.tail := by
  unfold BytesQueue.allocateAdditionalMemory at h
  simp only [Option.map_eq_some'] at h
  obtain ⟨q4, h, rfl⟩ := h
  rw [if_neg (by rw [hrm]; unfold leftMarginIndex; simp)] at h
  cases h
  rfl

/-- With all cursors at offset one a successful `Push` returns index one. -/
theorem Push_index_at_start {q q1 : BytesQueue} {data : List Nat} {i : Int}
    (ht : q.tail = 1) (hrm : q.rightMarginIndex = 1)
    (h : q.Push data = some ((i, none), q1)) : i = 1 := by
  rcases Push_cases q data with ⟨_, e⟩ | ⟨_, _, e⟩ | ⟨_, _, _, e⟩ | ⟨_, e⟩
  · rw [e] at h
    have := (pushAtTail_some h).1
    cases this
    rw [ht]
    rfl
  · rw [e] at h
    have := (pushAtTail_some h).1
    cases this
    rfl
  · rw [e] at h
    cases h
  · rw [e] at h
    simp only [Option.bind_eq_some] at h
    obtain ⟨q2, ha, h⟩ := h
    have := (pushAtTail_some h).1
    cases this
    rw [allocate_tail_at_start hrm ha, ht]
    rfl

/-- C18: in every queue state, after `Reset()` `Len()` is zero, head, tail and right
margin are one, the full flag is off and `Capacity()` is unchanged; the next successful
`Push` returns index 1, as does a successful first `Push` on a new queue. -/
theorem reset_clears_state (q : BytesQueue) :
    q.Reset.Len = 0 ∧ q.Reset.head = 1 ∧ q.Reset.tail = 1 ∧ q.Reset.rightMarginIndex = 1 ∧
    q.Reset.full = false ∧ q.Reset.Capacity = q.Capacity ∧
    (∀ data i q1, q.Reset.Push data = some ((i, none), q1) → i = 1) ∧
    (∀ capacity maxCapacity verbose data i q1,
      (NewBytesQueue capacity maxCapacity verbose).Push data = some ((i, none), q1) → i = 1) := by
  refine ⟨rfl, rfl, rfl, rfl, rfl, rfl, ?_, ?_⟩
  · intro data i q1 h
    exact Push_index_at_start rfl rfl h
  · intro capacity maxCapacity verbose data i q1 h
    exact Push_index_at_start rfl rfl h

/-- C18 (witness): reset of the queue holding `[9]`, then a push, against the same push
on a new queue. -/
theorem reset_clears_state_witness :
    nineState.Reset.Len = 0 ∧ nineState.Reset.head = 1 ∧ nineState.Reset.tail = 1 ∧
    nineState.Reset.rightMarginIndex = 1 ∧ nineState.Reset.full = false ∧
    nineState.Reset.Capacity = nineState.Capacity ∧
    nineState.Reset.Push [5] = some ((1, none), fiveState) ∧
    (NewBytesQueue 4 0 false).Push [5] = some ((1, none), fiveState) ∧
    (1 : Int) = 1 ∧ (1 : Int) = 1 :=
  ⟨(reset_clears_state nineState).1, (reset_clears_state nineState).2.1,
   (reset_clears_state nineState).2.2.1, (reset_clears_state nineState).2.2.2.1,
   (reset_clears_state nineState).2.2.2.2.1, (reset_clears_state nineState).2.2.2.2.2.1,
   by decide, by decide,
   (reset_clears_state nineState).2.2.2.2.2.2.1 [5] 1 fiveState (by decide),
   (reset_clears_state nineState).2.2.2.2.2.2.2 4 0 false [5] 1 fiveState (by decide)⟩

/-! ## Push and pop in a cycle -/

theorem canInsertAfterTail_of_room (q : BytesQueue) (need : Nat) (hf : q.full = false)
    (hht : q.head ≤ q.tail) (hcap : q.capacity < 2 ^ 64)
    (hroom : q.tail + need ≤ q.capacity) : q.canInsertAfterTail need = true := by
  unfold BytesQueue.canInsertAfterTail
  rw [hf]
  simp only [Bool.false_eq_true, if_false]
  rw [if_pos hht, decide_eq_true_iff, sub64_eq _ _ (by omega) hcap]
  omega

theorem Push_of_room (q : BytesQueue) (data : List Nat)
    (h : q.canInsertAfterTail (needOf data) = true) : q.Push data = q.pushAtTail data := by
  rcases Push_cases q data with ⟨_, e⟩ | ⟨c, _⟩ | ⟨c, _⟩ | ⟨hg, _⟩
  · exact e
  · rw [h] at c; cases c
  · rw [h] at c; cases c
  · have := (growsOnPush_guard hg).1
    rw [h] at this; cases this

/-- One cycle `Push(d); Pop()` on an empty linear layout with room for the record. -/
theorem cycle_step (q : BytesQueue) (d : List Nat) (hl : Linear q 1 [])
    (hd : d.length < 2 ^ 32) (hfit : needOf d + 1 ≤ q.capacity) (hcap : q.capacity < 2 ^ 64) :
    ∃ q2, runOps q [Op.push d, Op.pop] = some ([Reply.index 1 none, Reply.bytes d none], q2) ∧
      Linear q2 1 [] ∧ q2.capacity = q.capacity := by
  have hfl := frame_length d hd
  have ht : q.tail = 1 := by
    have := hl.tail_eq
    simpa [framesLength] using this
  have hroom := canInsertAfterTail_of_room q (needOf d) hl.not_full
    (by rw [hl.head_eq, ht]) hcap (by omega)
  obtain ⟨q1, h1, l1, c1, m1⟩ := Linear_push q [] d hl hd (by omega)
  have hpush : q.Push d = some ((1, none), q1) := by
    rw [Push_of_room q d hroom]
    unfold BytesQueue.pushAtTail
    rw [h1, ht]
    rfl
  rw [List.nil_append] at l1
  obtain ⟨q2, h2, hpop, l2, harr⟩ := Linear_Pop q1 1 d [] l1
    (by rw [← l1.inv.cap_len, c1]; exact hcap)
  have hh : h2 = 1 := by
    have := l2.at_start rfl
    exact this
  subst hh
  refine ⟨q2, ?_, l2, ?_⟩
  · simp only [runOps, callOp, hpush, hpop, Option.map_some']
  · rw [l2.inv.cap_len, harr, ← l1.inv.cap_len, c1]

theorem cycles_spec (d : List Nat) (n : Nat) : ∀ (q : BytesQueue), Linear q 1 [] →
    d.length < 2 ^ 32 → needOf d + 1 ≤ q.capacity → q.capacity < 2 ^ 64 →
    ∃ q1, runOps q (cycles d n) = some (cycleReplies d n, q1) ∧ Linear q1 1 [] ∧
      q1.capacity = q.capacity := by
  induction n with
  | zero =>
    intro q hl _ _ _
    exact ⟨q, rfl, hl, rfl⟩
  | succ n ih =>
    intro q hl hd hfit hcap
    obtain ⟨q1, h1, l1, c1⟩ := cycle_step q d hl hd hfit hcap
    obtain ⟨q2, h2, l2, c2⟩ := ih q1 l1 hd (by omega) (by omega)
    refine ⟨q2, ?_, l2, by omega⟩
    have := runOps_append [Op.push d, Op.pop] (cycles d n) q q1 q2 _ _ h1 h2
    simpa [cycles, cycleReplies] using this

/-- C19: on a new queue of capacity `c` and for a record `d` whose header width plus
length is at most `c - 1`, any number of repetitions of `Push(d); Pop()` returns index 1
and then `d` in every cycle, each with a nil error, and leaves `Len()` at zero and
`Capacity()` at `c`. -/
theorem push_pop_cycling (c maxCapacity : Nat) (verbose : Bool) (d : List Nat) (n : Nat)
    (hd : d.length < 2 ^ 32) (hfit : needOf d ≤ c - 1) (hc : c < 2 ^ 64) :
    ∃ q, runOps (NewBytesQueue c maxCapacity verbose) (cycles d n) =
        some (cycleReplies d n, q) ∧ q.Len = 0 ∧ q.Capacity = (c : Int) := by
  have hn := needOf_pos d
  obtain ⟨q, h, l, hcap⟩ := cycles_spec d n (NewBytesQueue c maxCapacity verbose)
    (Linear_new c maxCapacity verbose (by omega)) hd
    (by show needOf d + 1 ≤ c; omega) (by exact hc)
  refine ⟨q, h, ?_, ?_⟩
  · unfold BytesQueue.Len
    rw [l.count_eq]
    rfl
  · unfold BytesQueue.Capacity
    rw [hcap]
    rfl

/-- C19 (witness): three cycles of a record of five bytes (one of header, four of
payload) on a queue of 32 bytes. -/
theorem push_pop_cycling_witness :
    ∃ q, runOps (NewBytesQueue 32 0 false) (cycles [1, 2, 3, 4] 3) =
        some (cycleReplies [1, 2, 3, 4] 3, q) ∧ q.Len = 0 ∧ q.Capacity = ((32 : Nat) : Int) :=
  push_pop_cycling 32 0 false [1, 2, 3, 4] 3 (by decide) (by decide) (by decide)

/-! ## The worked example -/

/-- Two consecutive pushes that both find room after the tail return indices that differ
by the size of the first record. -/
theorem consecutive_push_indices (q q1 q2 : BytesQueue) (d1 d2 : List Nat) (i1 i2 : Int)
    (hi : Inv q) (hcap : q.capacity < 2 ^ 64) (hd : d1.length < 2 ^ 32)
    (hr1 : q.canInsertAfterTail (needOf d1) = true)
    (hp1 : q.Push d1 = some ((i1, none), q1))
    (hr2 : q1.canInsertAfterTail (needOf d2) = true)
    (hp2 : q1.Push d2 = some ((i2, none), q2)) :
    i2 = i1 + (needOf d1 : Int) := by
  have hroom := afterTail_room hi hcap hr1
  have hfl := frame_length d1 hd
  rw [Push_of_room q d1 hr1] at hp1
  rw [Push_of_room q1 d2 hr2] at hp2
  obtain ⟨e1, hpush1⟩ := pushAtTail_some hp1
  obtain ⟨e2, -⟩ := pushAtTail_some hp2
  obtain ⟨q3, h3, t3, -⟩ := push_fits q d1 d1.length rfl hi.buf_len hd
    (by rw [hfl, ← hi.cap_len]; exact hroom)
  rw [h3] at hpush1
  obtain rfl : q3 = q1 := Option.some.inj hpush1
  have a1 : i1 = (q.tail : Int) := congrArg Prod.fst e1
  have a2 : i2 = (q3.tail : Int) := congrArg Prod.fst e2
  rw [a1, a2, t3, hfl]
  push_cast
  rfl

/-- C20: on `NewBytesQueue(16, 0, false)`, `Push("ab")` returns index 1, `Push("cde")`
returns index 4, `Pop()` returns `"ab"` and `Peek()` then returns `"cde"`, each with a nil
error, and `Len()` is 1; and in every reachable state, two consecutive successful pushes
that find room after the tail return indices that differ by the header width plus the
payload length of the first record. -/
theorem worked_example_and_index_step :
    (runOps (NewBytesQueue 16 0 false) workedExample).map (fun r => (r.1, r.2.Len)) =
      some ([Reply.index 1 none, Reply.index 4 none, Reply.bytes [97, 98] none,
        Reply.bytes [99, 100, 101] none], 1) ∧
    ∀ (capacity maxCapacity : Nat) (verbose : Bool) (q q1 q2 : BytesQueue)
      (d1 d2 : List Nat) (i1 i2 : Int),
      0 < capacity → Reachable capacity maxCapacity verbose q → q.capacity < 2 ^ 64 →
      d1.length < 2 ^ 32 → q.canInsertAfterTail (needOf d1) = true →
      q.Push d1 = some ((i1, none), q1) → q1.canInsertAfterTail (needOf d2) = true →
      q1.Push d2 = some ((i2, none), q2) →
      i2 = i1 + ((getUvarintSize d1.length + d1.length : Nat) : Int) := by
  refine ⟨by decide, ?_⟩
  intro capacity maxCapacity verbose q q1 q2 d1 d2 i1 i2 hc hr hcap hd hr1 hp1 hr2 hp2
  have h := consecutive_push_indices q q1 q2 d1 d2 i1 i2 (Reachable_inv hc hr).1 hcap hd
    hr1 hp1 hr2 hp2
  rw [h]
  unfold needOf toUint32
  rw [Nat.mod_eq_of_lt hd, Nat.add_comm]

/-- C20 (witness): the two pushes of the worked example, whose indices 1 and 4 differ by
the three bytes of the record of `"ab"`. -/
theorem worked_example_and_index_step_witness :
    (NewBytesQueue 16 0 false).Push [97, 98] = some ((1, none), abState) ∧
      abState.Push [99, 100, 101] = some ((4, none), abcdeState) ∧
      (4 : Int) = 1 + ((getUvarintSize [97, 98].length + [97, 98].length : Nat) : Int) :=
  ⟨by decide, by decide,
   worked_example_and_index_step.2 16 0 false (NewBytesQueue 16 0 false) abState abcdeState
     [97, 98] [99, 100, 101] 1 4 (by decide) Reachable.init (by decide) (by decide)
     (by decide) (by decide) (by decide) (by decide)⟩

/-- A negative index is converted to an unsigned value beyond every array, so `Get(-1)`
and `CheckGet(-1)` on a queue holding a record return `ErrIndexOutOfBounds`. -/
theorem negative_index_is_out_of_bounds :
    nineState.Get (-1) = some (([], some QueueError.ErrIndexOutOfBounds), nineState) ∧
      nineState.CheckGet (-1) = some (some QueueError.ErrIndexOutOfBounds, nineState) := by
  decide

/-! ## The sizing rule -/

/-- Free span that `canInsertBeforeHead` measures: from offset one to the head when
`tail >= head`, from the tail to the head when the layout is wrapped. -/
theorem canInsertBeforeHead_iff (q : BytesQueue) (need : Nat) (hf : q.full = false)
    (h1 : 1 ≤ q.head) (h2 : q.head < 2 ^ 64) :
    q.canInsertBeforeHead need = true ↔
      ((if q.tail ≥ q.head then q.head - 1 else q.head - q.tail) = need ∨
        (if q.tail ≥ q.head then q.head - 1 else q.head - q.tail) ≥ need + minimumHeaderSize) := by
  unfold BytesQueue.canInsertBeforeHead
  rw [hf]
  simp only [Bool.false_eq_true, if_false]
  by_cases c : q.tail ≥ q.head
  · rw [if_pos c, decide_eq_true_iff, if_pos c]
    unfold leftMarginIndex
    rw [sub64_eq _ _ h1 h2]
  · rw [if_neg c, decide_eq_true_iff, sub64_eq _ _ (by omega) h2, if_neg c]

/-- C27 (as amended): in every state that is not full (head at a data position), a
record of `need` bytes is accepted into the free span before the head, which is
`head - 1` when `tail >= head` and `head - tail` when wrapped, if and only if the span
equals `need` or is at least `need + 17`, the margin being the constant
`minimumHeaderSize`. -/
theorem sizing_rule_margin_seventeen (q : BytesQueue) (need : Nat) (hf : q.full = false)
    (h1 : 1 ≤ q.head) (h2 : q.head < 2 ^ 64) :
    q.canInsertBeforeHead need = true ↔
      ((if q.tail ≥ q.head then q.head - 1 else q.head - q.tail) = need ∨
        (if q.tail ≥ q.head then q.head - 1 else q.head - q.tail) ≥ need + 17) :=
  canInsertBeforeHead_iff q need hf h1 h2

/-- C27 (witness): the wrapped state with a span of 17 bytes accepts a record of 17
bytes. -/
theorem sizing_rule_margin_seventeen_witness :
    wrappedState.canInsertBeforeHead 17 = true ↔
      ((if wrappedState.tail ≥ wrappedState.head then wrappedState.head - 1
          else wrappedState.head - wrappedState.tail) = 17 ∨
        (if wrappedState.tail ≥ wrappedState.head then wrappedState.head - 1
          else wrappedState.head - wrappedState.tail) ≥ 17 + 17) :=
  sizing_rule_margin_seventeen wrappedState 17 (by decide) (by decide) (by decide)

/-- C27 (counterexample): in the wrapped state the span is 17 bytes, at least `5 + 5`,
yet a record of 5 bytes is not accepted before the head. -/
theorem span_with_margin_five_is_rejected :
    wrappedState.full = false ∧ wrappedState.head - wrappedState.tail = 17 ∧
      17 ≥ 5 + maxVarintLen32 ∧ wrappedState.canInsertBeforeHead 5 = false := by
  decide

/-! ## The filler and the room made by growth -/

/-- Filler of a wrapped queue below `2^32` bytes: the header width does not exceed the
gap, the blob length does not underflow, the filler record is no longer than the gap,
and growth returns with every byte below the right margin and outside the gap kept. -/
theorem filler_in_gap (q : BytesQueue) (minimum : Nat) (hi : Inv q)
    (hg : q.capacity ≤ q.grownCapacity minimum) (hcap : q.capacity < 2 ^ 32)
    (hw : q.tail < q.head) :
    getUvarintSize (toUint32 (sub64 q.head q.tail)) ≤ q.head - q.tail ∧
      sub64 (sub64 q.head q.tail) (getUvarintSize (toUint32 (sub64 q.head q.tail))) =
        q.head - q.tail - getUvarintSize (toUint32 (sub64 q.head q.tail)) ∧
      (frame (List.replicate (sub64 (sub64 q.head q.tail)
        (getUvarintSize (toUint32 (sub64 q.head q.tail)))) 0)).length ≤ q.head - q.tail ∧
      ∃ q1, q.allocateAdditionalMemory minimum = some q1 ∧
        (leftMarginIndex ≠ q.rightMarginIndex → ∀ k, k < q.rightMarginIndex →
          ¬ (q.tail ≤ k ∧ k < q.head) → q1.array[k]? = q.array[k]?) := by
  have hh : q.head < 2 ^ 32 := by have := hi.head_le; omega
  have e1 : sub64 q.head q.tail = q.head - q.tail := sub64_eq _ _ (by omega) (by omega)
  have hs := getUvarintSize_toUint32_le (q.head - q.tail) (by omega)
  have e0 : toUint32 (q.head - q.tail) = q.head - q.tail := by
    unfold toUint32; exact Nat.mod_eq_of_lt (by omega)
  have e2 : sub64 (q.head - q.tail) (getUvarintSize (toUint32 (q.head - q.tail))) =
      q.head - q.tail - getUvarintSize (toUint32 (q.head - q.tail)) :=
    sub64_eq _ _ hs (by omega)
  have hf := filler_length_le (q.head - q.tail) (by omega) (by omega)
  obtain ⟨q1, h1, _, _, _, _, _, _, _, _, harr⟩ := allocate_spec q minimum hi hg (fun _ => hcap)
  rw [e1, e2]
  refine ⟨hs, rfl, ?_, q1, h1, harr⟩
  rw [e0]
  exact hf

/-- Growth makes room: after `allocateAdditionalMemory` the record fits behind the tail,
`push` writes its whole header and payload there, and the new tail stays inside the
array. -/
theorem allocate_room (q : BytesQueue) (data : List Nat) (hi : Inv q)
    (hcap : q.tail < q.head → q.capacity < 2 ^ 32) (hd : data.length < 2 ^ 32)
    (hguard : ¬ (q.capacity + needOf data ≥ q.maxCapacity ∧ q.maxCapacity > 0)) :
    ∃ q2, q.allocateAdditionalMemory (needOf data) = some q2 ∧
      needOf data ≤ q2.capacity - q2.tail ∧ q2.tail ≤ q2.capacity ∧
      ∃ q1, q2.push data data.length = some q1 ∧ q1.tail = q2.tail + needOf data ∧
        q1.tail ≤ q1.capacity ∧ FrameAt q1.array q2.tail data := by
  have hge := grownCapacity_ge q (needOf data) hguard
  obtain ⟨q2, h2, inv2, cap2, _, _, _, tail2, _, _, _⟩ :=
    allocate_spec q (needOf data) hi hge.1 hcap
  have ht : growthTail q ≤ q.capacity := by
    unfold growthTail
    split_ifs
    · exact hi.rm_le
    · exact hi.tail_le
  have hfl := frame_length data hd
  obtain ⟨q1, hp, t1, l1, g1, _, c1, _⟩ := push_fits q2 data data.length rfl inv2.buf_len hd
    (by have := inv2.cap_len; omega)
  refine ⟨q2, h2, by omega, by omega, q1, hp, by rw [t1, hfl], by rw [t1, hfl, c1]; omega, ?_⟩
  apply FrameAt_of_get
  intro k hk1 hk2
  rw [g1 k, if_pos ⟨hk1, hk2⟩]

/-- C24: in every reachable wrapped state (tail below head) of a queue below `2^32`
bytes in which `Push` grows the queue, the header width of the filler does not exceed
the gap `head - tail`, the blob length does not underflow, header plus payload of the
filler take at most `head - tail` bytes, and growth returns with every byte below the
right margin and outside the gap `[tail, head)` unchanged. -/
theorem filler_fits_in_gap {capacity maxCapacity : Nat} {verbose : Bool} (q : BytesQueue)
    (data : List Nat) (hc : 0 < capacity) (hr : Reachable capacity maxCapacity verbose q)
    (hcap : q.capacity < 2 ^ 32) (hw : q.tail < q.head) (hg : growsOnPush q data = true) :
    getUvarintSize (toUint32 (sub64 q.head q.tail)) ≤ q.head - q.tail ∧
      sub64 (sub64 q.head q.tail) (getUvarintSize (toUint32 (sub64 q.head q.tail))) =
        q.head - q.tail - getUvarintSize (toUint32 (sub64 q.head q.tail)) ∧
      (frame (List.replicate (sub64 (sub64 q.head q.tail)
        (getUvarintSize (toUint32 (sub64 q.head q.tail)))) 0)).length ≤ q.head - q.tail ∧
      ∃ q1, q.allocateAdditionalMemory (needOf data) = some q1 ∧
        (leftMarginIndex ≠ q.rightMarginIndex → ∀ k, k < q.rightMarginIndex →
          ¬ (q.tail ≤ k ∧ k < q.head) → q1.array[k]? = q.array[k]?) :=
  filler_in_gap q (needOf data) (Reachable_inv hc hr).1
    (grownCapacity_ge q (needOf data) (growsOnPush_guard hg).2.2).1 hcap hw

/-- C28: in every reachable state of a queue built with a positive capacity, when the
ceiling does not forbid growth, `allocateAdditionalMemory(need)` returns a queue with
`capacity - tail >= need`; the following `push` writes the whole header and the whole
payload at the tail, and the new tail is the old tail plus `need`, inside the array. -/
theorem growth_makes_room {capacity maxCapacity : Nat} {verbose : Bool} (q : BytesQueue)
    (data : List Nat) (hc : 0 < capacity) (hr : Reachable capacity maxCapacity verbose q)
    (hcap : q.tail < q.head → q.capacity < 2 ^ 32) (hd : data.length < 2 ^ 32)
    (hguard : ¬ (q.capacity + needOf data ≥ q.maxCapacity ∧ q.maxCapacity > 0)) :
    ∃ q2, q.allocateAdditionalMemory (needOf data) = some q2 ∧
      needOf data ≤ q2.capacity - q2.tail ∧ q2.tail ≤ q2.capacity ∧
      ∃ q1, q2.push data data.length = some q1 ∧ q1.tail = q2.tail + needOf data ∧
        q1.tail ≤ q1.capacity ∧ FrameAt q1.array q2.tail data :=
  allocate_room q data (Reachable_inv hc hr).1 hcap hd hguard

/-- C24 (witness): the wrapped state with a gap of 17 bytes, grown by a push of the empty
record. -/
theorem filler_fits_in_gap_witness :
    growsOnPush wrappedState [] = true ∧
      getUvarintSize (toUint32 (sub64 wrappedState.head wrappedState.tail)) ≤
        wrappedState.head - wrappedState.tail :=
  ⟨by decide,
   (filler_fits_in_gap wrappedState [] (by decide) wrappedState_reachable (by decide)
     (by decide) (by decide)).1⟩

/-- C28 (witness): growth of the wrapped state for the empty record. -/
theorem growth_makes_room_witness :
    ∃ q2, wrappedState.allocateAdditionalMemory (needOf []) = some q2 ∧
      needOf [] ≤ q2.capacity - q2.tail ∧ q2.tail ≤ q2.capacity ∧
      ∃ q1, q2.push [] ([] : List Nat).length = some q1 ∧ q1.tail = q2.tail + needOf [] ∧
        q1.tail ≤ q1.capacity ∧ FrameAt q1.array q2.tail [] :=
  growth_makes_room wrappedState [] (by decide) wrappedState_reachable (by decide) (by decide)
    (by decide)

/-! ## The filler over a gap of 128 bytes -/

/-- A trace that returned leads to a reachable state, whatever is observed of it. -/
theorem runOps_reaches {capacity maxCapacity : Nat} {verbose : Bool} {α : Type}
    (ops : List Op) (q0 : BytesQueue) (f : List Reply × BytesQueue → α) (a : α)
    (hr : Reachable capacity maxCapacity verbose q0) (hs : ∀ op ∈ ops, op.sized = true)
    (h : (runOps q0 ops).map f = some a) :
    ∃ rs q1, Reachable capacity maxCapacity verbose q1 ∧ runOps q0 ops = some (rs, q1) ∧
      f (rs, q1) = a := by
  cases hrun : runOps q0 ops with
  | none => rw [hrun] at h; cases h
  | some p =>
    obtain ⟨rs, q1⟩ := p
    rw [hrun] at h
    exact ⟨rs, q1, Reachable_runOps ops q0 q1 rs hr hs hrun, rfl, Option.some.inj h⟩

set_option maxRecDepth 1000000 in
/-- C21: a trace of sized calls on `NewBytesQueue 179 0 false` that ends with the head at
offset 0.  Growth over a gap of 128 bytes writes a filler of 127 bytes; the pop after
the filler reads the stale byte `8` at offset 169 as a header and skips four records, so
three records stay counted when the cursors collapse; the pops that follow read the
record at offset 1 a second time, then run into bytes `255`, which `binary.Uvarint`
reports as an overflow of eleven bytes, and the head moves back from 22 to 11 and
from 11 to 0. -/
theorem head_reaches_offset_zero :
    ∃ rs q, Reachable 179 0 false q ∧
      runOps (NewBytesQueue 179 0 false) headZeroTrace = some (rs, q) ∧
      (rs.drop 8, q.head, q.tail, q.rightMarginIndex, q.count) =
        ([Reply.bytes (List.replicate 40 255) none, Reply.bytes (List.replicate 126 0) none,
          Reply.bytes [1, 1, 1, 2, 1, 3, 1, 4] none, Reply.bytes (List.replicate 111 3) none,
          Reply.index 1 none, Reply.bytes (List.replicate 20 255) none,
          Reply.bytes (List.replicate 20 255) none, Reply.bytes [] none, Reply.bytes [] none],
          0, 1, 1, 0) :=
  runOps_reaches headZeroTrace (NewBytesQueue 179 0 false)
    (fun p => (p.1.drop 8, p.2.head, p.2.tail, p.2.rightMarginIndex, p.2.count)) _
    Reachable.init (by decide) (by decide)

set_option maxRecDepth 1000000 in
/-- C22: after the stale trace with last byte `0` the queue counts four records between
head 1 and tail 245, but that region holds five frames: the filler ends at offset 129 and
offset 130 still holds the last byte of the record popped before growth.  The four pops
the count allows return `[5]`, the filler, the empty record that the stale byte `0` at
offset 130 is read as, and `[9]`; they end at head 133, before the record of 111 bytes,
with the count at zero. -/
theorem pop_reads_stale_byte_as_header :
    ∃ rs q, Reachable 134 0 false q ∧
      runOps (NewBytesQueue 134 0 false) (staleTrace 0 ++ List.replicate 4 Op.pop) =
        some (rs, q) ∧
      (rs, q.head, q.tail, q.count, (q.array.drop 130).take 3) =
        ([Reply.index 1 none, Reply.index 131 none,
          Reply.bytes (List.replicate 127 7 ++ [0]) none, Reply.index 1 none,
          Reply.index 133 none, Reply.bytes [5] none, Reply.bytes (List.replicate 126 0) none,
          Reply.bytes [] none, Reply.bytes [9] none], 133, 245, 0, [0, 1, 9]) :=
  runOps_reaches (staleTrace 0 ++ List.replicate 4 Op.pop) (NewBytesQueue 134 0 false)
    (fun p => (p.1, p.2.head, p.2.tail, p.2.count, (p.2.array.drop 130).take 3)) _
    Reachable.init (by decide) (by decide)

set_option maxRecDepth 1000000 in
/-- C23: in the reachable wrapped state after the gap trace (tail 3, head 131, a gap of
128 bytes) a push of 111 bytes takes the growth branch, and the filler that
`allocateAdditionalMemory` writes into the gap is the header `126` at offset 3 followed
by 126 zero bytes: it occupies 127 bytes, not 128, and offset 130 keeps the last byte `7`
of the popped record, so the record after the filler starts at 130 and not at the old
head 131.  The observation lists the new head and tail and then the 128 bytes of the
gap. -/
theorem filler_is_one_byte_short_of_gap :
    ∃ rs q, Reachable 134 0 false q ∧
      runOps (NewBytesQueue 134 0 false) (gapTrace 7) = some (rs, q) ∧
      (q.head, q.tail, growsOnPush q (List.replicate 111 3),
        (q.allocateAdditionalMemory (needOf (List.replicate 111 3))).map fun q1 =>
          [q1.head, q1.tail] ++ (q1.array.drop 3).take 128) =
        (131, 3, true, some ([1, 133] ++ ([126] ++ List.replicate 126 0 ++ [7]))) :=
  runOps_reaches (gapTrace 7) (NewBytesQueue 134 0 false)
    (fun p => (p.2.head, p.2.tail, growsOnPush p.2 (List.replicate 111 3),
      (p.2.allocateAdditionalMemory (needOf (List.replicate 111 3))).map fun q1 =>
        [q1.head, q1.tail] ++ (q1.array.drop 3).take 128))
    (131, 3, true, some ([1, 133] ++ ([126] ++ List.replicate 126 0 ++ [7])))
    Reachable.init (by decide) (by decide)

set_option maxRecDepth 1000000 in
/-- C25: after the stale trace with last byte `1` and four pops the queue is reachable
with `count = 0` and `full = false` while head (142) and tail (245) differ: the pops
after the filler read stale bytes as headers, and the record of 111 bytes is still
stored but no longer counted. -/
theorem count_zero_with_head_off_tail :
    ∃ rs q, Reachable 134 0 false q ∧
      runOps (NewBytesQueue 134 0 false) (staleTrace 1 ++ List.replicate 4 Op.pop) =
        some (rs, q) ∧
      (rs.drop 5, q.count, q.full, q.head, q.tail) =
        ([Reply.bytes [5] none, Reply.bytes (List.replicate 126 0) none, Reply.bytes [1] none,
          Reply.bytes ([111] ++ List.replicate 8 3) none], 0, false, 142, 245) :=
  runOps_reaches (staleTrace 1 ++ List.replicate 4 Op.pop) (NewBytesQueue 134 0 false)
    (fun p => (p.1.drop 5, p.2.count, p.2.full, p.2.head, p.2.tail)) _ Reachable.init
    (by decide) (by decide)

set_option maxRecDepth 1000000 in
/-- C26: after the stale trace with last byte `0` and three pops, the fourth `Pop`
succeeds with the record `[9]` and leaves `Len() = 0`, but the cursors do not collapse:
head is 133, tail and right margin are 245, and the next `Pop` reports an empty queue
although the record of 111 bytes was never returned. -/
theorem pop_to_zero_count_without_collapse :
    ∃ rs q, Reachable 134 0 false q ∧
      runOps (NewBytesQueue 134 0 false) (staleTrace 0 ++ List.replicate 5 Op.pop) =
        some (rs, q) ∧
      (rs.drop 5, q.Len, q.head, q.tail, q.rightMarginIndex, q.full) =
        ([Reply.bytes [5] none, Reply.bytes (List.replicate 126 0) none, Reply.bytes [] none,
          Reply.bytes [9] none, Reply.bytes [] (some QueueError.ErrEmptyQueue)],
          0, 133, 245, 245, false) :=
  runOps_reaches (staleTrace 0 ++ List.replicate 5 Op.pop) (NewBytesQueue 134 0 false)
    (fun p => (p.1.drop 5, p.2.Len, p.2.head, p.2.tail, p.2.rightMarginIndex, p.2.full)) _
    Reachable.init (by decide) (by decide)

/-! ## Indices after the cursors left the records -/

set_option maxRecDepth 1000000 in
/-- C1: a reachable state in which a growing `Push` loses a record that was pushed and
never popped.  After the first twelve calls of the head-zero trace on
`NewBytesQueue 179 0 false` the push of `[1]` has returned index 170 and no pop has
returned `[1]`, but the short filler over the gap of 128 bytes made a pop skip the four
one-byte records, and the cursors have collapsed to offset 1 with three records still
counted.  `Get(170)` returns `[1]`; the push of 356 bytes then takes the growth branch,
`allocateAdditionalMemory` migrates nothing because the right margin is 1, and
`Get(170)` returns the empty sequence. -/
theorem growth_drops_unpopped_record :
    ∃ rs q, Reachable 179 0 false q ∧
      runOps (NewBytesQueue 179 0 false) (headZeroTrace.take 12) = some (rs, q) ∧
      (rs, growsOnPush q (List.replicate 356 0),
        (runOps q [Op.get 170, Op.push (List.replicate 356 0), Op.get 170]).map Prod.fst) =
        ([Reply.index 1 none, Reply.index 170 none, Reply.index 172 none,
          Reply.index 174 none, Reply.index 176 none,
          Reply.bytes (List.replicate 166 7 ++ [8]) none, Reply.index 1 none,
          Reply.index 178 none, Reply.bytes (List.replicate 40 255) none,
          Reply.bytes (List.replicate 126 0) none, Reply.bytes [1, 1, 1, 2, 1, 3, 1, 4] none,
          Reply.bytes (List.replicate 111 3) none], true,
          some [Reply.bytes [1] none, Reply.index 1 none, Reply.bytes [] none]) :=
  runOps_reaches (headZeroTrace.take 12) (NewBytesQueue 179 0 false)
    (fun p => (p.1, growsOnPush p.2 (List.replicate 356 0),
      (runOps p.2 [Op.get 170, Op.push (List.replicate 356 0), Op.get 170]).map Prod.fst)) _
    Reachable.init (by decide) (by decide)

set_option maxRecDepth 1000000 in
/-- C4: a reachable state in which `Push` returns an index with a nil error and `Get` at
that index faults.  At the end of the head-zero trace on `NewBytesQueue 179 0 false` the
head is 0; `canInsertBeforeHead` computes `head - 1` without a sign, so a push of 400
bytes is taken to fit before the head of a buffer of 358 bytes: `Push` returns
`(1, nil)`, `copy` stores the header and only 355 bytes of the payload (the tail stops
at 358), and `Get(1)` decodes the length 400 and slices beyond the array. -/
theorem push_at_head_zero_is_not_read_back :
    ∃ rs q, Reachable 179 0 false q ∧
      runOps (NewBytesQueue 179 0 false) headZeroTrace = some (rs, q) ∧
      ((callOp q (Op.push (List.replicate 400 7))).map fun r =>
          (q.head, r.1, (r.2.Get 1).isNone, r.2.tail, r.2.array.length)) =
        some (0, Reply.index 1 none, true, 358, 358) :=
  runOps_reaches headZeroTrace (NewBytesQueue 179 0 false)
    (fun p => (callOp p.2 (Op.push (List.replicate 400 7))).map fun r =>
      (p.2.head, r.1, (r.2.Get 1).isNone, r.2.tail, r.2.array.length))
    (some (0, Reply.index 1 none, true, 358, 358)) Reachable.init (by decide) (by decide)

end bytesqueue

/-! # Theorems about package `bigmemcache` -/

namespace bigmemcache

/-! ## Nearest power of two -/

theorem land_pred_pow (e : Nat) : 2 ^ e &&& (2 ^ e - 1) = 0 := by
  rw [Nat.and_pow_two_sub_one_eq_mod, Nat.mod_self]

theorem testBit_top (x e : Nat) (h1 : 2 ^ e ≤ x) (h2 : x < 2 ^ (e + 1)) : x.testBit e = true := by
  rw [Nat.testBit_to_div_mod]
  have hd : x / 2 ^ e = 1 := by
    apply Nat.div_eq_of_lt_le
    · omega
    · rw [Nat.pow_succ] at h2; omega
  rw [hd]
  rfl

/-- A positive number that shares no bit with its predecessor is a power of two. -/
theorem pow_of_land_pred (n : Nat) (h1 : 1 ≤ n) (h : n &&& (n - 1) = 0) : ∃ e, n = 2 ^ e := by
  refine ⟨Nat.log 2 n, ?_⟩
  have hlo : 2 ^ Nat.log 2 n ≤ n := Nat.pow_log_le_self 2 (by omega)
  have hhi : n < 2 ^ (Nat.log 2 n + 1) := Nat.lt_pow_succ_log_self (by omega) n
  by_contra hne
  have hb1 := testBit_top n _ hlo hhi
  have hb2 := testBit_top (n - 1) (Nat.log 2 n) (by omega) (by omega)
  have : (n &&& (n - 1)).testBit (Nat.log 2 n) = true := by
    rw [Nat.testBit_and, hb1, hb2]; rfl
  rw [h] at this
  simp at this

theorem wrap_pred (n : Nat) (h1 : 1 ≤ n) (h2 : n < 2 ^ 64) : (n + 2 ^ 64 - 1) % 2 ^ 64 = n - 1 := by
  have : n + 2 ^ 64 - 1 = (n - 1) + 2 ^ 64 := by omega
  rw [this, Nat.add_mod_right, Nat.mod_eq_of_lt (by omega)]

/-- The loop started at a power of two below `n` ends, with enough fuel, at the power of
two `p` with `p < n <= 2 * p`. -/
theorem doubleWhileBelow_spec (n : Nat) (hn : n ≤ 2 ^ 63) :
    ∀ (fuel j : Nat), 2 ^ j < n → 64 ≤ fuel + j →
      ∃ e, doubleWhileBelow fuel (2 ^ j) n = some (2 ^ e) ∧ 2 ^ e < n ∧ n ≤ 2 * 2 ^ e := by
  intro fuel
  induction fuel with
  | zero =>
    intro j hj hf
    have : 2 ^ 64 ≤ 2 ^ j := Nat.pow_le_pow_right (by omega) (by omega)
    omega
  | succ fuel ih =>
    intro j hj hf
    have hj63 : j < 63 := by
      by_contra hc
      have : 2 ^ 63 ≤ 2 ^ j := Nat.pow_le_pow_right (by omega) (by omega)
      omega
    have hsh : (2 ^ j <<< 1) % 2 ^ 64 = 2 ^ (j + 1) := by
      rw [Nat.shiftLeft_eq, Nat.pow_one, ← Nat.pow_succ]
      apply Nat.mod_eq_of_lt
      exact Nat.pow_lt_pow_right (by omega) (by omega)
    unfold doubleWhileBelow
    rw [hsh]
    by_cases c : 2 ^ (j + 1) < n
    · rw [if_pos c]
      exact ih (j + 1) c (by omega)
    · rw [if_neg c]
      refine ⟨j, rfl, hj, ?_⟩
      rw [Nat.pow_succ] at c
      omega

/-- For `1 <= n <= 2^63` the function returns the power of two `p` with `p <= n < 2 * p`,
which is `n` itself when `n` is a power of two. -/
theorem findNearestPowerOf2Num_spec (n : Nat) (h1 : 1 ≤ n) (h2 : n ≤ 2 ^ 63) :
    ∃ e, findNearestPowerOf2Num n = some (2 ^ e) ∧ 2 ^ e ≤ n ∧ n < 2 * 2 ^ e := by
  unfold findNearestPowerOf2Num
  rw [wrap_pred n h1 (by omega)]
  by_cases c : n &&& (n - 1) = 0
  · rw [if_pos c]
    obtain ⟨e, he⟩ := pow_of_land_pred n h1 c
    exact ⟨e, by rw [he], by omega, by omega⟩
  · rw [if_neg c]
    have hn1 : 1 < n := by
      by_contra hc
      have : n = 2 ^ 0 := by omega
      rw [this] at c
      exact c (land_pred_pow 0)
    obtain ⟨e, he, hlt, hle⟩ := doubleWhileBelow_spec n h2 65 0 (by simpa using hn1) (by omega)
    refine ⟨e, he, by omega, ?_⟩
    rcases Nat.lt_or_ge n (2 * 2 ^ e) with h | h
    · exact h
    · have hn : n = 2 ^ (e + 1) := by rw [Nat.pow_succ]; omega
      rw [hn] at c
      exact absurd (land_pred_pow (e + 1)) c

theorem findNearestPowerOf2Num_pow (e : Nat) (h : e ≤ 63) :
    findNearestPowerOf2Num (2 ^ e) = some (2 ^ e) := by
  unfold findNearestPowerOf2Num
  have hlt : 2 ^ e < 2 ^ 64 := Nat.pow_lt_pow_right (by omega) (by omega)
  rw [wrap_pred _ (Nat.one_le_two_pow) hlt, if_pos (land_pred_pow e)]

/-- The shard count is the nearest power of two of `MaxNumOfCacheItem / 100 + 1`, cut
down to 128. -/
theorem defaultShards_spec (m : Nat) (hm : m < 2 ^ 64) :
    ∃ e, e ≤ 7 ∧ defaultShards m = some ((2 : Int) ^ e) := by
  unfold defaultShards __DefaultShardsFactor __DefaultMaxShards
  dsimp only
  have hu : (m / 100 + 1) % 2 ^ 64 = m / 100 + 1 := Nat.mod_eq_of_lt (by omega)
  rw [hu]
  obtain ⟨e, he, hle, _⟩ := findNearestPowerOf2Num_spec (m / 100 + 1) (by omega) (by omega)
  rw [he]
  have hp : 2 ^ e < 2 ^ 63 := by omega
  have ht : toInt (2 ^ e) = ((2 ^ e : Nat) : Int) := by
    unfold toInt
    rw [Nat.mod_eq_of_lt (by omega), if_pos hp]
  simp only [Option.map_some', ht]
  by_cases c : ((2 ^ e : Nat) : Int) > 128
  · rw [if_pos c]
    exact ⟨7, le_refl 7, rfl⟩
  · rw [if_neg c]
    refine ⟨e, ?_, by push_cast; rfl⟩
    by_contra hc
    have : 2 ^ 8 ≤ 2 ^ e := Nat.pow_le_pow_right (by omega) (by omega)
    omega

/-- C30: for every `n` with `1 <= n <= 2^63`, `findNearestPowerOf2Num(n)` returns a
power of two `p` with `p <= n < 2 * p`, and returns `n` itself when `n` is a power of
two; and for every `MaxNumOfCacheItem` (a `uint64`) the shard count computed in
`defaultBigCacheCfg` is a power of two between 1 and 128. -/
theorem nearest_power_of_two_and_shards (n m : Nat) (h1 : 1 ≤ n) (h2 : n ≤ 2 ^ 63)
    (hm : m < 2 ^ 64) :
    (∃ e, findNearestPowerOf2Num n = some (2 ^ e) ∧ 2 ^ e ≤ n ∧ n < 2 * 2 ^ e) ∧
      ((∃ e, n = 2 ^ e) → findNearestPowerOf2Num n = some n) ∧
      ∃ e, e ≤ 7 ∧ defaultShards m = some ((2 : Int) ^ e) := by
  refine ⟨findNearestPowerOf2Num_spec n h1 h2, ?_, defaultShards_spec m hm⟩
  rintro ⟨e, rfl⟩
  apply findNearestPowerOf2Num_pow
  by_contra hc
  have : 2 ^ 64 ≤ 2 ^ e := Nat.pow_le_pow_right (by omega) (by omega)
  omega

set_option maxRecDepth 100000 in
/-- C30 (witness): `n = 100` gives 64 and 25600 cache items give 256 + 1 shards at most,
cut down to 128. -/
theorem nearest_power_of_two_and_shards_witness :
    findNearestPowerOf2Num 100 = some 64 ∧ defaultShards 25600 = some 128 ∧
      ((∃ e, findNearestPowerOf2Num 100 = some (2 ^ e) ∧ 2 ^ e ≤ 100 ∧ 100 < 2 * 2 ^ e) ∧
        ((∃ e, 100 = 2 ^ e) → findNearestPowerOf2Num 100 = some 100) ∧
        ∃ e, e ≤ 7 ∧ defaultShards 25600 = some ((2 : Int) ^ e)) :=
  ⟨by decide, by decide,
   nearest_power_of_two_and_shards 100 25600 (by decide) (by decide) (by decide)⟩

/-! ## Serialization of a feature -/

theorem leBytes_length (w v : Nat) : (leBytes w v).length = w := by
  induction w generalizing v with
  | zero => rfl
  | succ w ih => simp only [leBytes, List.length_cons, ih]

theorem leValue_leBytes (w : Nat) : ∀ v, v < 256 ^ w → leValue (leBytes w v) = v := by
  induction w with
  | zero => intro v h; simp only [pow_zero, Nat.lt_one_iff] at h; rw [h]; rfl
  | succ w ih =>
    intro v h
    have hd : v / 256 < 256 ^ w := by
      rw [Nat.div_lt_iff_lt_mul (by omega)]
      rw [Nat.pow_succ] at h
      exact h
    simp only [leBytes, leValue, ih _ hd]
    omega

theorem putUint_zeros (pre : List Nat) (k w pos v : Nat) (hpos : pos = pre.length)
    (hk : w ≤ k) :
    putUint w (pre ++ List.replicate k 0) pos v =
      some (pre ++ leBytes w v ++ List.replicate (k - w) 0) := by
  subst hpos
  unfold putUint
  rw [if_pos (by simp only [List.length_append, List.length_replicate]; omega)]
  rw [List.take_left', List.drop_append_eq_append_drop]
  · have h0 : pre.length + w - pre.length = w := by omega
    have h1 : List.drop (pre.length + w) pre = [] := List.drop_eq_nil_of_le (by omega)
    rw [h0, h1, List.drop_replicate, List.nil_append]
  · rfl

theorem copyTo_zeros (pre : List Nat) (k pos : Nat) (src : List Nat) (hpos : pos = pre.length)
    (hk : src.length ≤ k) :
    copyTo (pre ++ List.replicate k 0) pos src =
      some (pre ++ src ++ List.replicate (k - src.length) 0) := by
  subst hpos
  unfold copyTo
  rw [if_pos (by simp only [List.length_append]; omega)]
  have hl : (pre ++ List.replicate k 0).length - pre.length = k := by
    simp only [List.length_append, List.length_replicate]; omega
  rw [hl, List.take_left', Nat.min_eq_left hk, List.take_of_length_le hk,
    List.drop_append_eq_append_drop]
  · have h0 : pre.length + src.length - pre.length = src.length := by omega
    have h1 : List.drop (pre.length + src.length) pre = [] := List.drop_eq_nil_of_le (by omega)
    rw [h0, h1, List.drop_replicate, List.nil_append]
  · rfl

theorem getUint_at (pre bs post : List Nat) (w pos : Nat) (hpos : pos = pre.length)
    (hw : bs.length = w) : getUint w (pre ++ bs ++ post) pos = some (leValue bs) := by
  subst hpos hw
  unfold getUint
  rw [if_pos (by simp only [List.length_append]; omega), List.append_assoc,
    List.drop_left', List.take_left']
  · rfl
  · rfl

theorem slice_at (pre bs post : List Nat) (lo hi : Nat) (hlo : lo = pre.length)
    (hhi : hi = lo + bs.length) : slice (pre ++ bs ++ post) lo hi = some bs := by
  subst hlo hhi
  unfold slice
  rw [if_pos (by simp only [List.length_append]; omega), List.append_assoc,
    List.drop_left', Nat.add_sub_cancel_left, List.take_left']
  · rfl
  · rfl

/-- The method `encode` returns the wire format without an error. -/
theorem encode_eq (fe : Feature) : encode fe = some (Except.ok (wireFormat fe)) := by
  unfold encode
  dsimp only
  generalize hT : 4 + 4 + 2 + fe.UUID.length + 2 + fe.Meta.length + 2 + fe.Blob.length + 8 = T
  have h0 : List.replicate T 0 = [] ++ List.replicate T 0 := rfl
  rw [h0, putUint_zeros, Option.some_bind, putUint_zeros, Option.some_bind,
    putUint_zeros, Option.some_bind, copyTo_zeros, Option.some_bind,
    putUint_zeros, Option.some_bind, copyTo_zeros, Option.some_bind,
    putUint_zeros, Option.some_bind, copyTo_zeros, Option.some_bind,
    putUint_zeros, Option.some_bind, if_neg (by omega)]
  · unfold wireFormat
    have hz : T - 4 - 4 - 2 - fe.UUID.length - 2 - fe.Meta.length - 2 - fe.Blob.length - 8 = 0 := by
      omega
    have ht : T = 22 + fe.UUID.length + fe.Meta.length + fe.Blob.length := by omega
    rw [hz, ht]
    simp only [List.replicate_zero, List.append_nil, List.nil_append]
  all_goals first
    | omega
    | simp only [List.length_append, leBytes_length, List.length_nil]

theorem wireFormat_length (fe : Feature) :
    (wireFormat fe).length = 22 + fe.UUID.length + fe.Meta.length + fe.Blob.length := by
  unfold wireFormat
  simp only [List.length_append, leBytes_length]
  omega

theorem toSigned_toUint (w : Nat) (v : Int) (h1 : -2 ^ w ≤ v) (h2 : v < 2 ^ w) :
    toSigned w (toUint (w + 1) v) = v := by
  unfold toSigned toUint
  have hp : (2 : Int) ^ (w + 1) = 2 * 2 ^ w := by rw [pow_succ]; ring
  have hq : (0 : Int) < 2 ^ w := by positivity
  have hn : ((2 ^ (w + 1) : Nat) : Int) = 2 ^ (w + 1) := by push_cast; rfl
  have h0 : 0 ≤ v % 2 ^ (w + 1) := Int.emod_nonneg _ (by omega)
  have hlt : v % 2 ^ (w + 1) < 2 ^ (w + 1) := Int.emod_lt_of_pos _ (by omega)
  have hm : (v % 2 ^ (w + 1)).toNat % 2 ^ (w + 1) = (v % 2 ^ (w + 1)).toNat := by
    apply Nat.mod_eq_of_lt
    zify
    rw [Int.toNat_of_nonneg h0]
    exact hlt
  rw [hm]
  have hc : ((v % 2 ^ (w + 1)).toNat : Int) = v % 2 ^ (w + 1) := Int.toNat_of_nonneg h0
  have hw : ((2 ^ w : Nat) : Int) = 2 ^ w := by push_cast; rfl
  rcases Int.lt_or_le v 0 with hv | hv
  · have e : v % 2 ^ (w + 1) = v + 2 ^ (w + 1) := by
      rw [← Int.add_emod_self]
      exact Int.emod_eq_of_lt (by omega) (by omega)
    have hge : ¬ (v % 2 ^ (w + 1)).toNat < 2 ^ w := by
      intro hx
      have : ((v % 2 ^ (w + 1)).toNat : Int) < 2 ^ w := by rw [← hw]; exact_mod_cast hx
      rw [hc, e] at this
      omega
    rw [if_neg hge, hc, e]
    omega
  · have e : v % 2 ^ (w + 1) = v := Int.emod_eq_of_lt hv (by omega)
    have hl : (v % 2 ^ (w + 1)).toNat < 2 ^ w := by
      have : ((v % 2 ^ (w + 1)).toNat : Int) < ((2 ^ w : Nat) : Int) := by rw [hc, e, hw]; exact h2
      exact_mod_cast this
    rw [if_pos hl, hc, e]

theorem toUint_lt (w : Nat) (v : Int) : toUint w v < 2 ^ w := by
  unfold toUint
  have h0 : 0 ≤ v % 2 ^ w := Int.emod_nonneg _ (by positivity)
  have hlt : v % 2 ^ w < 2 ^ w := Int.emod_lt_of_pos _ (by positivity)
  zify
  rw [Int.toNat_of_nonneg h0]
  exact hlt

theorem getUint_seg (raw pre bs post : List Nat) (w pos v : Nat)
    (hraw : raw = pre ++ (bs ++ post)) (hpos : pos = pre.length) (hw : bs.length = w)
    (hv : leValue bs = v) : getUint w raw pos = some v := by
  rw [hraw, ← List.append_assoc, ← hv]
  exact getUint_at pre bs post w pos hpos hw

theorem slice_seg (raw pre bs post : List Nat) (lo hi : Nat)
    (hraw : raw = pre ++ (bs ++ post)) (hlo : lo = pre.length) (hhi : hi = lo + bs.length) :
    slice raw lo hi = some bs := by
  rw [hraw, ← List.append_assoc]
  exact slice_at pre bs post lo hi hlo hhi

/-- Nine segments with the widths and length fields of the wire format are read back by
`decode` field by field. -/
theorem decode_segments (A B C u D m E b F : List Nat)
    (hA : A.length = 4) (hB : B.length = 4) (hC : C.length = 2) (hD : D.length = 2)
    (hE : E.length = 2) (hF : F.length = 8)
    (vA : leValue A = (22 + u.length + m.length + b.length) % 2 ^ 32)
    (vC : leValue C = u.length) (vD : leValue D = m.length) (vE : leValue E = b.length) :
    decode (A ++ (B ++ (C ++ (u ++ (D ++ (m ++ (E ++ (b ++ F)))))))) =
      some (Except.ok (Feature.mk (toSigned 31 (leValue B)) u m b (toSigned 63 (leValue F)))) := by
  generalize hW : A ++ (B ++ (C ++ (u ++ (D ++ (m ++ (E ++ (b ++ F))))))) = W
  have hlen : W.length = 22 + u.length + m.length + b.length := by
    rw [← hW]
    simp only [List.length_append, hA, hB, hC, hD, hE, hF]
    omega
  have r1 : getUint 4 W 0 = some ((22 + u.length + m.length + b.length) % 2 ^ 32) :=
    getUint_seg W [] A (B ++ (C ++ (u ++ (D ++ (m ++ (E ++ (b ++ F))))))) 4 0 _
      (by rw [← hW]; rfl) rfl hA vA
  have r2 : getUint 4 W (0 + 4) = some (leValue B) :=
    getUint_seg W A B (C ++ (u ++ (D ++ (m ++ (E ++ (b ++ F)))))) 4 _ _ (by rw [← hW])
      (by rw [hA]) hB rfl
  have r3 : getUint 2 W (0 + 4 + 4) = some u.length :=
    getUint_seg W (A ++ B) C (u ++ (D ++ (m ++ (E ++ (b ++ F))))) 2 _ _
      (by rw [← hW]; simp only [List.append_assoc])
      (by rw [List.length_append, hA, hB]) hC vC
  have r4 : slice W (0 + 4 + 4 + 2) (0 + 4 + 4 + 2 + u.length) = some u :=
    slice_seg W (A ++ B ++ C) u (D ++ (m ++ (E ++ (b ++ F)))) _ _
      (by rw [← hW]; simp only [List.append_assoc])
      (by simp only [List.length_append, hA, hB, hC]) rfl
  have r5 : getUint 2 W (0 + 4 + 4 + 2 + u.length) = some m.length :=
    getUint_seg W (A ++ B ++ C ++ u) D (m ++ (E ++ (b ++ F))) 2 _ _
      (by rw [← hW]; simp only [List.append_assoc])
      (by simp only [List.length_append, hA, hB, hC]) hD vD
  have r6 : slice W (0 + 4 + 4 + 2 + u.length + 2) (0 + 4 + 4 + 2 + u.length + 2 + m.length) =
      some m :=
    slice_seg W (A ++ B ++ C ++ u ++ D) m (E ++ (b ++ F)) _ _
      (by rw [← hW]; simp only [List.append_assoc])
      (by simp only [List.length_append, hA, hB, hC, hD]) rfl
  have r7 : getUint 2 W (0 + 4 + 4 + 2 + u.length + 2 + m.length) = some b.length :=
    getUint_seg W (A ++ B ++ C ++ u ++ D ++ m) E (b ++ F) 2 _ _
      (by rw [← hW]; simp only [List.append_assoc])
      (by simp only [List.length_append, hA, hB, hC, hD]) hE vE
  have r8 : slice W (0 + 4 + 4 + 2 + u.length + 2 + m.length + 2)
      (0 + 4 + 4 + 2 + u.length + 2 + m.length + 2 + b.length) = some b :=
    slice_seg W (A ++ B ++ C ++ u ++ D ++ m ++ E) b F _ _
      (by rw [← hW]; simp only [List.append_assoc])
      (by simp only [List.length_append, hA, hB, hC, hD, hE]) rfl
  have r9 : getUint 8 W (0 + 4 + 4 + 2 + u.length + 2 + m.length + 2 + b.length) =
      some (leValue F) :=
    getUint_seg W (A ++ B ++ C ++ u ++ D ++ m ++ E ++ b) F [] 8 _ _
      (by rw [← hW]; simp only [List.append_assoc, List.append_nil])
      (by simp only [List.length_append, hA, hB, hC, hD, hE]) hF rfl
  unfold decode
  dsimp only
  rw [r1, Option.some_bind, if_neg (by rw [hlen]; exact fun h => h rfl), r2, Option.some_bind,
    r3, Option.some_bind, r4, Option.some_bind, r5, Option.some_bind, r6, Option.some_bind,
    r7, Option.some_bind, r8, Option.some_bind, r9, Option.some_bind,
    if_neg (by rw [hlen]; omega)]

/-- The method `decode` reads a feature back from its wire format. -/
theorem decode_wireFormat (fe : Feature) (hu : fe.UUID.length ≤ 65535)
    (hm : fe.Meta.length ≤ 65535) (hb : fe.Blob.length ≤ 65535)
    (hv1 : -2 ^ 31 ≤ fe.Version) (hv2 : fe.Version < 2 ^ 31)
    (hc1 : -2 ^ 63 ≤ fe.CreatedTime) (hc2 : fe.CreatedTime < 2 ^ 63) :
    decode (wireFormat fe) = some (Except.ok fe) := by
  have eu : fe.UUID.length % 2 ^ 16 = fe.UUID.length := Nat.mod_eq_of_lt (by omega)
  have em : fe.Meta.length % 2 ^ 16 = fe.Meta.length := Nat.mod_eq_of_lt (by omega)
  have eb : fe.Blob.length % 2 ^ 16 = fe.Blob.length := Nat.mod_eq_of_lt (by omega)
  unfold wireFormat
  simp only [List.append_assoc]
  rw [decode_segments _ _ _ _ _ _ _ _ _ (leBytes_length _ _) (leBytes_length _ _)
    (leBytes_length _ _) (leBytes_length _ _) (leBytes_length _ _) (leBytes_length _ _)
    (leValue_leBytes 4 _ (Nat.mod_lt _ (by norm_num)))
    (by rw [eu]; exact leValue_leBytes 2 _ (by omega))
    (by rw [em]; exact leValue_leBytes 2 _ (by omega))
    (by rw [eb]; exact leValue_leBytes 2 _ (by omega))]
  rw [leValue_leBytes 4 _ (toUint_lt 32 _), leValue_leBytes 8 _ (toUint_lt 64 _),
    toSigned_toUint 31 _ hv1 hv2, toSigned_toUint 63 _ hc1 hc2]

/-- C29: for every feature whose `UUID`, `Meta` and `Blob` are at most 65535 bytes long
(and whose `Version` and `CreatedTime` are an `int32` and an `int64`), `encode` returns
without an error a byte slice of length `22 + len(UUID) + len(Meta) + len(Blob)` whose
first four bytes are that length in little-endian, and `decode` of that slice returns
without an error the same feature. -/
theorem feature_round_trip (fe : Feature) (hu : fe.UUID.length ≤ 65535)
    (hm : fe.Meta.length ≤ 65535) (hb : fe.Blob.length ≤ 65535)
    (hv1 : -2 ^ 31 ≤ fe.Version) (hv2 : fe.Version < 2 ^ 31)
    (hc1 : -2 ^ 63 ≤ fe.CreatedTime) (hc2 : fe.CreatedTime < 2 ^ 63) :
    ∃ raw, encode fe = some (Except.ok raw) ∧
      raw.length = 22 + fe.UUID.length + fe.Meta.length + fe.Blob.length ∧
      raw.take 4 = leBytes 4 (22 + fe.UUID.length + fe.Meta.length + fe.Blob.length) ∧
      decode raw = some (Except.ok fe) := by
  refine ⟨wireFormat fe, encode_eq fe, wireFormat_length fe, ?_,
    decode_wireFormat fe hu hm hb hv1 hv2 hc1 hc2⟩
  have ht : (22 + fe.UUID.length + fe.Meta.length + fe.Blob.length) % 2 ^ 32 =
      22 + fe.UUID.length + fe.Meta.length + fe.Blob.length := Nat.mod_eq_of_lt (by omega)
  unfold wireFormat
  simp only [List.append_assoc]
  rw [ht, List.take_left' (leBytes_length _ _)]

/-- C29 (witness): the example feature is encoded in 25 bytes and read back. -/
theorem feature_round_trip_witness :
    encode exampleFeature = some (Except.ok [25, 0, 0, 0, 253, 255, 255, 255, 2, 0, 97, 98, 1, 0,
        1, 0, 0, 0, 241, 83, 101, 0, 0, 0, 0]) ∧
      ∃ raw, encode exampleFeature = some (Except.ok raw) ∧
        raw.length = 22 + exampleFeature.UUID.length + exampleFeature.Meta.length +
          exampleFeature.Blob.length ∧
        raw.take 4 = leBytes 4 (22 + exampleFeature.UUID.length + exampleFeature.Meta.length +
          exampleFeature.Blob.length) ∧
        decode raw = some (Except.ok exampleFeature) :=
  ⟨rfl,
   feature_round_trip exampleFeature (by decide) (by decide) (by decide) (by decide) (by decide)
     (by decide) (by decide)⟩

end bigmemcache
